import Mathlib

/-!
# Kiro: the thinking-tag extractor (`server/thinking_extractor.go`)

A shallow embedding of the streaming extractor, its signature generator and the
batch extractor, of the image functions of `utils/image.go` and of the conversion of
content blocks of `converter/content.go`, followed by the properties proved about them.

Conventions of the embedding

* A Go `string` is an immutable sequence of bytes.  It is embedded as a list whose
  elements stand for the bytes, one element per byte; an ASCII literal of the source
  is the list of its characters.  Both tag literals are ASCII.
* Go `int` is a 64-bit two's complement integer.  Lengths and indices are `Int`;
  products are reduced with `wrapInt`.
* A slice expression `s[lo:hi]` panics when it is out of range; `goSlice` returns
  `none` there, and every function that slices returns an `Option`.
* A `for` loop is a function of a fuel argument that runs one iteration per unit of
  fuel and returns `none` when the fuel is used up before the loop condition fails.
* `crypto/rand` is a stream of bytes handed to the functions that draw from it and
  returned advanced.
* `strings.TrimSpace` is a parameter of the functions that call it; what is proved about
  them holds whatever it does, unless a property of it is a hypothesis of the theorem.
  `trimSpaceAscii` is what it does on ASCII strings.
* A `[]byte` is a list of `Fin 256`.  An index or slice expression on it that is out
  of range panics; `goIndex` and `bytesSlice` return `none` there.
* The `float64` operations of `EstimateImageTokens`, `base64.StdEncoding.DecodeString`
  and `utils.ParseToolResultContent` are parameters of the functions that call them.
* The two `regexp` calls are embedded for the one pattern of the source,
  `(?s)<thinking>(.*?)</thinking>`, as the library matches it: leftmost first, the group
  lazy, successive matches not overlapping.  Both tags begin with the ASCII byte `<`,
  which starts a character in every byte sequence, so matching byte by byte is matching
  character by character.
-/

namespace Kiro

/-! ## Go primitives used by the source -/

/-- Go `string`: a sequence of bytes, one list element per byte. -/
abbrev GoString := List Char

/-- The slice expression `s[lo:hi]`; `none` stands for the run-time panic raised
when `0 ≤ lo ≤ hi ≤ len(s)` fails. -/
def goSlice (s : GoString) (lo hi : Int) : Option GoString :=
  if 0 ≤ lo ∧ lo ≤ hi ∧ hi ≤ (s.length : Int) then
    some ((s.take hi.toNat).drop lo.toNat)
  else
    none

/-- Library `strings.HasPrefix(s, pre)`. -/
def stringsHasPrefix (s pre : GoString) : Bool :=
  pre.isPrefixOf s

/-- Position of the first occurrence of `sub` in `s`, scanning from the left. -/
def firstOccurrence (sub : GoString) : GoString → Option Nat
  | [] => if sub.isPrefixOf [] then some 0 else none
  | c :: s =>
    if sub.isPrefixOf (c :: s) then some 0
    else (firstOccurrence sub s).map (fun i => i + 1)

/-- Library `strings.Index(s, sub)`: the index of the first occurrence of `sub` in
`s`, or `-1` when there is none. -/
def stringsIndex (s sub : GoString) : Int :=
  match firstOccurrence sub s with
  | some i => (i : Int)
  | none => -1

/-- Go `int` arithmetic: the value of an exact integer result after wrapping to 64-bit
two's complement. -/
def wrapInt (x : Int) : Int :=
  (x + 2 ^ 63) % 2 ^ 64 - 2 ^ 63

/-- The bytes that `crypto/rand` will deliver, in order. -/
abbrev RandSource := Nat → Nat

/-- Drawing `n` bytes, as `rand.Read` does into a buffer of length `n`: the bytes
read and the source advanced past them. -/
def randRead (rnd : RandSource) (n : Nat) : List Nat × RandSource :=
  ((List.range n).map (fun i => rnd i % 256), fun i => rnd (i + n))

/-- The alphabet of `base64.StdEncoding`. -/
def base64Alphabet : List Char :=
  "ABCDEFGHIJKLMNOPQRSTUVWXYZabcdefghijklmnopqrstuvwxyz0123456789+/".toList

/-- The character of a 6-bit value. -/
def base64Digit (v : Nat) : Char :=
  base64Alphabet.getD (v % 64) 'A'

/-- Library `base64.StdEncoding.EncodeToString`: three bytes become four characters,
and a last group of one or two bytes is padded with `=`. -/
def base64StdEncode : List Nat → GoString
  | [] => []
  | [a] => [base64Digit (a / 4), base64Digit (a % 4 * 16), '=', '=']
  | [a, b] =>
    [base64Digit (a / 4), base64Digit (a % 4 * 16 + b / 16), base64Digit (b % 16 * 4), '=']
  | a :: b :: c :: rest =>
    base64Digit (a / 4) :: base64Digit (a % 4 * 16 + b / 16) ::
      base64Digit (b % 16 * 4 + c / 64) :: base64Digit (c % 64) :: base64StdEncode rest

/-! ## The extractor -/

/-- The literal `"<thinking>"`. -/
def openTag : GoString := "<thinking>".toList

/-- The literal `"</thinking>"`. -/
def closeTag : GoString := "</thinking>".toList

/-- The struct `ThinkingExtractor`; the two `strings.Builder` fields are embedded as
their contents. -/
structure ThinkingExtractor where
  buffer : GoString
  inThinkingBlock : Bool
  thinkingContent : GoString

/-- The struct `StreamingExtractResult`. -/
structure StreamingExtractResult where
  ThinkingStarted : Bool
  ThinkingEnded : Bool
  ThinkingDelta : GoString
  TextDelta : GoString
  Signature : GoString
  HasPending : Bool

/-- The struct `ExtractedContent`. -/
structure ExtractedContent where
  ThinkingBlocks : List GoString
  TextContent : GoString
  HasPending : Bool

/-- The zero value `StreamingExtractResult{}`. -/
def emptyResult : StreamingExtractResult :=
  { ThinkingStarted := false, ThinkingEnded := false, ThinkingDelta := [],
    TextDelta := [], Signature := [], HasPending := false }

/-- `NewThinkingExtractor`: the zero value of the struct. -/
def NewThinkingExtractor : ThinkingExtractor :=
  { buffer := [], inThinkingBlock := false, thinkingContent := [] }

/-- `Reset`. -/
def Reset (_te : ThinkingExtractor) : ThinkingExtractor :=
  { buffer := [], inThinkingBlock := false, thinkingContent := [] }

/-- `IsInThinkingBlock`. -/
def IsInThinkingBlock (te : ThinkingExtractor) : Bool :=
  te.inThinkingBlock

/-- The loop shared by `findPartialStartTag` and `findPartialEndTag`, which differ
only in the tag literal: `for i < len(tag) && i <= len(s)`, the body takes
`s[len(s)-i:]` and returns `i` when the tag has it as a prefix; `return 0` after the
loop. -/
def findPartialTagLoop (tag s : GoString) : Nat → Int → Option Int
  | 0, _ => none
  | fuel + 1, i =>
    if i < (tag.length : Int) ∧ i ≤ (s.length : Int) then
      match goSlice s ((s.length : Int) - i) (s.length : Int) with
      | none => none
      | some suffix =>
        if stringsHasPrefix tag suffix then some i
        else findPartialTagLoop tag s fuel (i + 1)
    else
      some 0

/-- `findPartialStartTag`: the loop starts at `i := 1`. -/
def findPartialStartTag (s : GoString) : Option Int :=
  findPartialTagLoop openTag s openTag.length 1

/-- `findPartialEndTag`: the loop starts at `i := 1`. -/
def findPartialEndTag (s : GoString) : Option Int :=
  findPartialTagLoop closeTag s closeTag.length 1

/-- `generateSignature`: the signature and the random source after the draw. -/
def generateSignature (te : ThinkingExtractor) (rnd : RandSource) :
    GoString × RandSource :=
  let contentLen : Int := (te.thinkingContent.length : Int)
  let signatureLen : Int := (wrapInt (contentLen * 3)).tdiv 2
  let signatureLen : Int := if signatureLen < 200 then 200 else signatureLen
  let signatureLen : Int := if signatureLen > 1000 then 1000 else signatureLen
  let drawn := randRead rnd signatureLen.toNat
  (base64StdEncode drawn.1, drawn.2)

/-- `GenerateFakeSignature`: the signature and the random source after the draw. -/
def GenerateFakeSignature (contentLen : Int) (rnd : RandSource) :
    GoString × RandSource :=
  let signatureLen : Int := (wrapInt (contentLen * 3)).tdiv 2
  let signatureLen : Int := if signatureLen < 200 then 200 else signatureLen
  let signatureLen : Int := if signatureLen > 1000 then 1000 else signatureLen
  let drawn := randRead rnd signatureLen.toNat
  (base64StdEncode drawn.1, drawn.2)

/-- The variables live across an iteration of the loop of `ProcessTextStreaming`. -/
structure LoopState where
  te : ThinkingExtractor
  rnd : RandSource
  result : StreamingExtractResult
  content : GoString

/-- The loop body of `ProcessTextStreaming` when `te.inThinkingBlock` holds. -/
def thinkingBranch (st : LoopState) : Option LoopState :=
  let endIdx := stringsIndex st.content closeTag
  if endIdx ≥ 0 then
    (if endIdx > 0 then
      (goSlice st.content 0 endIdx).map fun delta =>
        ({ st.result with ThinkingDelta := st.result.ThinkingDelta ++ delta },
         { st.te with thinkingContent := st.te.thinkingContent ++ delta })
    else
      some (st.result, st.te)).bind fun rt =>
    let signed := generateSignature rt.2 st.rnd
    (goSlice st.content (endIdx + (closeTag.length : Int)) (st.content.length : Int)).map
      fun rest =>
        { te := { rt.2 with thinkingContent := [], inThinkingBlock := false },
          rnd := signed.2,
          result := { rt.1 with ThinkingEnded := true, Signature := signed.1 },
          content := rest }
  else
    (findPartialEndTag st.content).bind fun partialEnd =>
    if partialEnd > 0 then
      (if (st.content.length : Int) > partialEnd then
        (goSlice st.content 0 ((st.content.length : Int) - partialEnd)).map fun delta =>
          ({ st.result with ThinkingDelta := st.result.ThinkingDelta ++ delta },
           { st.te with thinkingContent := st.te.thinkingContent ++ delta })
      else
        some (st.result, st.te)).bind fun rt =>
      (goSlice st.content ((st.content.length : Int) - partialEnd)
          (st.content.length : Int)).map fun kept =>
        { te := { rt.2 with buffer := rt.2.buffer ++ kept },
          rnd := st.rnd,
          result := { rt.1 with HasPending := true },
          content := [] }
    else
      some
        { te := { st.te with thinkingContent := st.te.thinkingContent ++ st.content },
          rnd := st.rnd,
          result := { st.result with ThinkingDelta := st.result.ThinkingDelta ++ st.content },
          content := [] }

/-- The loop body of `ProcessTextStreaming` when `te.inThinkingBlock` does not hold. -/
def plainBranch (st : LoopState) : Option LoopState :=
  let startIdx := stringsIndex st.content openTag
  if startIdx ≥ 0 then
    (if startIdx > 0 then
      (goSlice st.content 0 startIdx).map fun head =>
        { st.result with TextDelta := st.result.TextDelta ++ head }
    else
      some st.result).bind fun result =>
    (goSlice st.content (startIdx + (openTag.length : Int)) (st.content.length : Int)).map
      fun rest =>
        { te := { st.te with inThinkingBlock := true },
          rnd := st.rnd,
          result := { result with ThinkingStarted := true },
          content := rest }
  else
    (findPartialStartTag st.content).bind fun partialStart =>
    if partialStart > 0 then
      (if (st.content.length : Int) > partialStart then
        (goSlice st.content 0 ((st.content.length : Int) - partialStart)).map fun head =>
          { st.result with TextDelta := st.result.TextDelta ++ head }
      else
        some st.result).bind fun result =>
      (goSlice st.content ((st.content.length : Int) - partialStart)
          (st.content.length : Int)).map fun kept =>
        { te := { st.te with buffer := st.te.buffer ++ kept },
          rnd := st.rnd,
          result := { result with HasPending := true },
          content := [] }
    else
      some
        { te := st.te,
          rnd := st.rnd,
          result := { st.result with TextDelta := st.result.TextDelta ++ st.content },
          content := [] }

/-- One iteration of the loop of `ProcessTextStreaming`. -/
def loopBody (st : LoopState) : Option LoopState :=
  if st.te.inThinkingBlock then thinkingBranch st else plainBranch st

/-- The loop `for len(content) > 0` of `ProcessTextStreaming`. -/
def processLoop : Nat → LoopState → Option LoopState
  | 0, st => if st.content.length > 0 then none else some st
  | fuel + 1, st =>
    if st.content.length > 0 then (loopBody st).bind (processLoop fuel) else some st

/-- `ProcessTextStreaming` with the given fuel for its loop: the result, the extractor
and the random source after the call. -/
def ProcessTextStreamingFuel (fuel : Nat) (te : ThinkingExtractor) (rnd : RandSource)
    (text : GoString) : Option (StreamingExtractResult × ThinkingExtractor × RandSource) :=
  let content := te.buffer ++ text
  (processLoop fuel
      { te := { te with buffer := [] }, rnd := rnd, result := emptyResult,
        content := content }).map
    fun st => (st.result, st.te, st.rnd)

/-- `ProcessTextStreaming`.  The fuel is the length of the content to scan; the loop
never uses it up. -/
def ProcessTextStreaming (te : ThinkingExtractor) (rnd : RandSource) (text : GoString) :
    Option (StreamingExtractResult × ThinkingExtractor × RandSource) :=
  ProcessTextStreamingFuel (te.buffer ++ text).length te rnd text

/-- `FlushStreaming`: the result, the extractor and the random source after the call. -/
def FlushStreaming (te : ThinkingExtractor) (rnd : RandSource) :
    StreamingExtractResult × ThinkingExtractor × RandSource :=
  let result := emptyResult
  let step1 : StreamingExtractResult × ThinkingExtractor × RandSource :=
    if te.inThinkingBlock then
      let signed := generateSignature te rnd
      ({ result with ThinkingEnded := true, Signature := signed.1 },
       { te with inThinkingBlock := false }, signed.2)
    else
      (result, te, rnd)
  let step2 : StreamingExtractResult × ThinkingExtractor :=
    if step1.2.1.buffer.length > 0 then
      ({ step1.1 with TextDelta := step1.2.1.buffer }, { step1.2.1 with buffer := [] })
    else
      (step1.1, step1.2.1)
  (step2.1, { step2.2 with thinkingContent := [] }, step1.2.2)

/-- `Flush`.  `trimSpace` stands for the library function `strings.TrimSpace`. -/
def Flush (trimSpace : GoString → GoString) (te : ThinkingExtractor) :
    ExtractedContent × ThinkingExtractor :=
  let result : ExtractedContent := { ThinkingBlocks := [], TextContent := [], HasPending := false }
  let step1 : ExtractedContent × ThinkingExtractor :=
    if te.inThinkingBlock ∧ te.thinkingContent.length > 0 then
      ({ result with ThinkingBlocks := result.ThinkingBlocks ++ [trimSpace te.thinkingContent] },
       { te with thinkingContent := [] })
    else
      (result, te)
  let step2 : ExtractedContent × ThinkingExtractor :=
    if step1.2.buffer.length > 0 then
      ({ step1.1 with TextContent := step1.2.buffer }, { step1.2 with buffer := [] })
    else
      step1
  (step2.1, { step2.2 with inThinkingBlock := false })

/-- `ProcessText`. -/
def ProcessText (te : ThinkingExtractor) (rnd : RandSource) (text : GoString) :
    Option (ExtractedContent × ThinkingExtractor × RandSource) :=
  (ProcessTextStreaming te rnd text).map fun out =>
    ({ ThinkingBlocks := [], TextContent := out.1.TextDelta,
       HasPending := out.1.HasPending || out.2.1.inThinkingBlock },
     out.2.1, out.2.2)

/-- A caller feeding the chunks in order to `ProcessTextStreaming`: the result of
every call, in order, and the extractor and random source after the last. -/
def feedChunks (te : ThinkingExtractor) (rnd : RandSource) :
    List GoString → Option (List StreamingExtractResult × ThinkingExtractor × RandSource)
  | [] => some ([], te, rnd)
  | chunk :: chunks =>
    (ProcessTextStreaming te rnd chunk).bind fun out =>
      (feedChunks out.2.1 out.2.2 chunks).map fun later =>
        (out.1 :: later.1, later.2.1, later.2.2)

/-- The concatenation of the `TextDelta` of a sequence of results. -/
def textOf (results : List StreamingExtractResult) : GoString :=
  (results.map fun r => r.TextDelta).flatten

/-- The concatenation of the `ThinkingDelta` of a sequence of results. -/
def thinkingOf (results : List StreamingExtractResult) : GoString :=
  (results.map fun r => r.ThinkingDelta).flatten

/-- A whole stream on a fresh extractor: the chunks fed in order, then
`FlushStreaming`.  The results of the calls in order, the result of the flush, and the
extractor after the flush. -/
def runStream (rnd : RandSource) (chunks : List GoString) :
    Option (List StreamingExtractResult × StreamingExtractResult × ThinkingExtractor) :=
  (feedChunks NewThinkingExtractor rnd chunks).map fun out =>
    (out.1, (FlushStreaming out.2.1 out.2.2).1, (FlushStreaming out.2.1 out.2.2).2.1)

/-! ## The batch extractor -/

/-- The part `(.*?)</thinking>` of the pattern at the start of `s`.  The lazy group
is tried at 0, 1, 2, … bytes, so the first length after which the close tag follows
wins; with the flag `(?s)` the dot takes any byte, line breaks included.  Returns
group 1 and the number of bytes matched. -/
def matchLazyGroup : GoString → Option (GoString × Nat)
  | [] => none
  | c :: s =>
    if closeTag.isPrefixOf (c :: s) then some ([], closeTag.length)
    else (matchLazyGroup s).map fun m => (c :: m.1, m.2 + 1)

/-- The pattern `(?s)<thinking>(.*?)</thinking>` at the start of `s`: group 1 and the
number of bytes matched. -/
def matchPattern (s : GoString) : Option (GoString × Nat) :=
  if openTag.isPrefixOf s then
    (matchLazyGroup (s.drop openTag.length)).map fun m => (m.1, openTag.length + m.2)
  else
    none

/-- The successive matches of the pattern, as the library finds them: at each position
from the left the pattern is tried; a match is reported as the matched text followed by
group 1, and the search resumes after its last byte (`skip` counts the bytes of the
last match still to pass). -/
def regexFindAllFrom : GoString → Nat → List (List GoString)
  | [], _ => []
  | _ :: s, skip + 1 => regexFindAllFrom s skip
  | c :: s, 0 =>
    match matchPattern (c :: s) with
    | some m => [(c :: s).take m.2, m.1] :: regexFindAllFrom s (m.2 - 1)
    | none => regexFindAllFrom s 0

/-- Library `re.FindAllStringSubmatch(text, -1)` for the pattern of the source. -/
def regexFindAllStringSubmatch (text : GoString) : List (List GoString) :=
  regexFindAllFrom text 0

/-- The text with the successive matches of the pattern left out. -/
def regexReplaceAllFrom : GoString → Nat → GoString
  | [], _ => []
  | _ :: s, skip + 1 => regexReplaceAllFrom s skip
  | c :: s, 0 =>
    match matchPattern (c :: s) with
    | some m => regexReplaceAllFrom s (m.2 - 1)
    | none => c :: regexReplaceAllFrom s 0

/-- Library `re.ReplaceAllString(text, "")` for the pattern of the source. -/
def regexReplaceAllString (text : GoString) : GoString :=
  regexReplaceAllFrom text 0

/-- `ExtractThinkingFromFinalText`.  `trimSpace` stands for the library function
`strings.TrimSpace`. -/
def ExtractThinkingFromFinalText (trimSpace : GoString → GoString) (text : GoString) :
    List GoString × GoString :=
  let found := regexFindAllStringSubmatch text
  let thinkingBlocks := found.foldl
    (fun blocks m => if m.length > 1 then blocks ++ [trimSpace (m.getD 1 [])] else blocks) []
  let cleanText := regexReplaceAllString text
  let cleanText := trimSpace cleanText
  (thinkingBlocks, cleanText)

/-- The white space of ASCII: tab, line feed, vertical tab, form feed, carriage return
and space. -/
def isAsciiSpace (c : Char) : Bool :=
  c = '\t' || c = '\n' || c = Char.ofNat 11 || c = Char.ofNat 12 || c = '\r' || c = ' '

/-- Library `strings.TrimSpace` on ASCII strings, where leading and trailing white
space is the white space of ASCII. -/
def trimSpaceAscii (s : GoString) : GoString :=
  ((s.dropWhile isAsciiSpace).reverse.dropWhile isAsciiSpace).reverse

/-- The batch extraction in the words of the specification: scan from the left for the
next `"<thinking>"`, pair it with the nearest `"</thinking>"` after it, and go on after
that close tag; the inner texts in order, and the text with those spans left out.
Scanning stops when no open tag, or no close tag after it, is left. -/
def specExtract (s : GoString) : List GoString × GoString :=
  match _h : firstOccurrence openTag s with
  | none => ([], s)
  | some i =>
    match firstOccurrence closeTag (s.drop (i + openTag.length)) with
    | none => ([], s)
    | some j =>
      ((s.drop (i + openTag.length)).take j ::
          (specExtract (s.drop (i + openTag.length + j + closeTag.length))).1,
        s.take i ++ (specExtract (s.drop (i + openTag.length + j + closeTag.length))).2)
termination_by s.length
decreasing_by
  all_goals
    cases s with
    | nil => simp [firstOccurrence, openTag] at _h
    | cons c s =>
      have h1 : 0 < openTag.length := by decide
      simp only [List.length_drop, List.length_cons]
      omega

/-- The bounds of the signature length in the words of the specification:
`clamp(x, lo, hi)`. -/
def clampInt (x lo hi : Int) : Int :=
  max lo (min hi x)

/-! ## Reading a whole input at once

The definitions below are not in the source.  They describe what a run of the loop
of `ProcessTextStreaming` amounts to, so that runs over differently chunked inputs
can be compared. -/

/-- Two strings agree at every position they both have. -/
def compat : GoString → GoString → Bool
  | [], _ => true
  | _ :: _, [] => true
  | a :: u, b :: t => decide (a = b) && compat u t

/-- The first position of `c` from which `c` agrees with `tag` as far as both go:
the start of the first occurrence of `tag`, or of a final piece that more input could
complete to one, or the end of `c`. -/
def firstHit (tag : GoString) : GoString → Nat
  | [] => 0
  | c :: s => if compat tag (c :: s) then 0 else firstHit tag s + 1

/-- The tag awaited in each mode. -/
def tagOf (inThinking : Bool) : GoString :=
  if inThinking then closeTag else openTag

/-- What a run of the scanner did: the text and thinking bytes it released, how many
blocks it opened and closed, the thinking bytes it released since the last block it
closed (`acc`), the thinking bytes it released into the last block it closed, since the
block closed before that one if there is one (`closed`), and the mode and pending bytes
it ended with. -/
structure Trace where
  text : GoString
  think : GoString
  starts : Nat
  ends : Nat
  acc : GoString
  closed : GoString
  inThinking : Bool
  pending : GoString

/-- The run that does nothing. -/
def Trace.idle (inThinking : Bool) (pending : GoString) : Trace :=
  { text := [], think := [], starts := 0, ends := 0, acc := [], closed := [],
    inThinking := inThinking, pending := pending }

/-- One run after another. -/
def Trace.seq (a b : Trace) : Trace :=
  { text := a.text ++ b.text, think := a.think ++ b.think, starts := a.starts + b.starts,
    ends := a.ends + b.ends, acc := (if b.ends = 0 then a.acc else []) ++ b.acc,
    closed := (if b.ends = 0 then a.closed else if b.ends = 1 then a.acc else []) ++ b.closed,
    inThinking := b.inThinking, pending := b.pending }

/-- Releasing `u` on the channel of the mode and then completing the awaited tag. -/
def Trace.passTag (inThinking : Bool) (u : GoString) : Trace :=
  if inThinking then
    { text := [], think := u, starts := 0, ends := 1, acc := [], closed := u,
      inThinking := false, pending := [] }
  else
    { text := u, think := [], starts := 1, ends := 0, acc := [], closed := [],
      inThinking := true, pending := [] }

/-- Releasing `u` on the channel of the mode and keeping `kept` pending. -/
def Trace.hold (inThinking : Bool) (u kept : GoString) : Trace :=
  if inThinking then
    { text := [], think := u, starts := 0, ends := 0, acc := u, closed := [],
      inThinking := true, pending := kept }
  else
    { text := u, think := [], starts := 0, ends := 0, acc := [], closed := [],
      inThinking := false, pending := kept }

/-- Scanning the content `c` in the given mode until it is used up. -/
def scan (inThinking : Bool) (c : GoString) : Trace :=
  if _hc : c = [] then Trace.idle inThinking []
  else
    let i := firstHit (tagOf inThinking) c
    if (tagOf inThinking).isPrefixOf (c.drop i) then
      Trace.seq (Trace.passTag inThinking (c.take i))
        (scan (!inThinking) (c.drop (i + (tagOf inThinking).length)))
    else
      Trace.hold inThinking (c.take i) (c.drop i)
termination_by c.length
decreasing_by
  have h1 : 0 < (tagOf inThinking).length := by cases inThinking <;> decide
  have h2 : 0 < c.length := List.length_pos.mpr _hc
  simp only [List.length_drop]
  omega

/-- Feeding chunks one call at a time, from a mode and pending bytes. -/
def feedTrace (inThinking : Bool) (pending : GoString) : List GoString → Trace
  | [] => Trace.idle inThinking pending
  | chunk :: chunks =>
    Trace.seq (scan inThinking (pending ++ chunk))
      (feedTrace (scan inThinking (pending ++ chunk)).inThinking
        (scan inThinking (pending ++ chunk)).pending chunks)

/-- What the loop state `st'` reached from `st` owes to a run with trace `tr`. -/
structure LoopSpec (st st' : LoopState) (tr : Trace) : Prop where
  text : st'.result.TextDelta = st.result.TextDelta ++ tr.text
  think : st'.result.ThinkingDelta = st.result.ThinkingDelta ++ tr.think
  started : st'.result.ThinkingStarted = (st.result.ThinkingStarted || decide (0 < tr.starts))
  ended : st'.result.ThinkingEnded = (st.result.ThinkingEnded || decide (0 < tr.ends))
  mode : st'.te.inThinkingBlock = tr.inThinking
  buffer : st'.te.buffer = st.te.buffer ++ tr.pending
  sigKeep : tr.ends = 0 → st'.result.Signature = st.result.Signature
  sigNew : 0 < tr.ends → st'.result.Signature ≠ []
  hasPending : st'.result.HasPending = (st.result.HasPending || decide (tr.pending ≠ []))
  acc : st'.te.thinkingContent =
    (if tr.ends = 0 then st.te.thinkingContent else []) ++ tr.acc
  sigOf : 0 < tr.ends → ∃ rnd0, st'.result.Signature =
    (GenerateFakeSignature
      (((if tr.ends = 1 then st.te.thinkingContent else []) ++ tr.closed).length : Int) rnd0).1

/-- What one call of `ProcessTextStreaming` on the extractor `te`, returning `r` and
leaving the extractor `te'`, owes to a run with trace `tr`. -/
structure CallSpec (te : ThinkingExtractor) (r : StreamingExtractResult)
    (te' : ThinkingExtractor) (tr : Trace) : Prop where
  text : r.TextDelta = tr.text
  think : r.ThinkingDelta = tr.think
  started : r.ThinkingStarted = decide (0 < tr.starts)
  ended : r.ThinkingEnded = decide (0 < tr.ends)
  mode : te'.inThinkingBlock = tr.inThinking
  buffer : te'.buffer = tr.pending
  sigKeep : tr.ends = 0 → r.Signature = []
  sigNew : 0 < tr.ends → r.Signature ≠ []
  hasPending : r.HasPending = decide (tr.pending ≠ [])
  acc : te'.thinkingContent = (if tr.ends = 0 then te.thinkingContent else []) ++ tr.acc
  sigOf : 0 < tr.ends → ∃ rnd0, r.Signature =
    (GenerateFakeSignature
      (((if tr.ends = 1 then te.thinkingContent else []) ++ tr.closed).length : Int) rnd0).1

/-- What a sequence of calls of `ProcessTextStreaming`, returning `rs` and leaving the
extractor `te'`, owes to a run with trace `tr`. -/
structure FeedSpec (rs : List StreamingExtractResult) (te' : ThinkingExtractor)
    (tr : Trace) : Prop where
  text : textOf rs = tr.text
  think : thinkingOf rs = tr.think
  startedLe : rs.countP (fun r => r.ThinkingStarted) ≤ tr.starts
  startedPos : 0 < tr.starts → 0 < rs.countP (fun r => r.ThinkingStarted)
  endedLe : rs.countP (fun r => r.ThinkingEnded) ≤ tr.ends
  endedPos : 0 < tr.ends → 0 < rs.countP (fun r => r.ThinkingEnded)
  mode : te'.inThinkingBlock = tr.inThinking
  buffer : te'.buffer = tr.pending
  sigKeep : tr.ends = 0 → ∀ r ∈ rs, r.Signature = []

/-! ## Sequences of calls -/

/-- A call of one of the methods of the extractor that read or change its state. -/
inductive Call where
  | processTextStreaming (text : GoString)
  | flushStreaming
  | flush
  | processText (text : GoString)
  | reset

/-- What a call returned. -/
inductive Returned where
  | streaming (r : StreamingExtractResult)
  | extracted (r : ExtractedContent)
  | nothing

/-- One call on the extractor `te`: what it returned, and the extractor and random
source after it.  `trimSpace` stands for the library function `strings.TrimSpace`. -/
def applyCall (trimSpace : GoString → GoString) (te : ThinkingExtractor)
    (rnd : RandSource) : Call → Option (Returned × ThinkingExtractor × RandSource)
  | Call.processTextStreaming text =>
    (ProcessTextStreaming te rnd text).map fun out =>
      (Returned.streaming out.1, out.2.1, out.2.2)
  | Call.flushStreaming =>
    some (Returned.streaming (FlushStreaming te rnd).1, (FlushStreaming te rnd).2.1,
      (FlushStreaming te rnd).2.2)
  | Call.flush =>
    some (Returned.extracted (Flush trimSpace te).1, (Flush trimSpace te).2, rnd)
  | Call.processText text =>
    (ProcessText te rnd text).map fun out =>
      (Returned.extracted out.1, out.2.1, out.2.2)
  | Call.reset => some (Returned.nothing, Reset te, rnd)

/-- A sequence of calls on the extractor `te`, in order: what each returned, and the
extractor and random source after the last. -/
def runCalls (trimSpace : GoString → GoString) (te : ThinkingExtractor)
    (rnd : RandSource) :
    List Call → Option (List Returned × ThinkingExtractor × RandSource)
  | [] => some ([], te, rnd)
  | call :: calls =>
    (applyCall trimSpace te rnd call).bind fun out =>
      (runCalls trimSpace out.2.1 out.2.2 calls).map fun later =>
        (out.1 :: later.1, later.2.1, later.2.2)

/-- The two facts about the state of the extractor that every call keeps: the pending
buffer is a proper prefix of the awaited tag, and the accumulated thinking content is
empty outside a thinking block. -/
structure Settled (te : ThinkingExtractor) : Prop where
  pending : te.buffer <+: tagOf te.inThinkingBlock
  pendingLt : te.buffer.length < (tagOf te.inThinkingBlock).length
  content : te.inThinkingBlock = false → te.thinkingContent = []

/-! ## Images -/

/-- Go `byte`. -/
abbrev Byte := Fin 256

/-- The index expression `data[i]`; `none` stands for the run-time panic raised when
`0 ≤ i < len(data)` fails. -/
def goIndex (data : List Byte) (i : Int) : Option Byte :=
  if 0 ≤ i ∧ i < (data.length : Int) then data.get? i.toNat else none

/-- The slice expression `data[lo:hi]` on bytes; `none` stands for the run-time panic.
It is raised here when `0 ≤ lo ≤ hi ≤ len(data)` fails, which is stricter than Go, where
`hi` may go up to the capacity of the slice: a read that is in range here is inside the
data. -/
def bytesSlice (data : List Byte) (lo hi : Int) : Option (List Byte) :=
  if 0 ≤ lo ∧ lo ≤ hi ∧ hi ≤ (data.length : Int) then
    some ((data.take hi.toNat).drop lo.toNat)
  else
    none

/-- Library `binary.BigEndian.Uint16`; it panics on fewer than 2 bytes. -/
def bigEndianUint16 : List Byte → Option Nat
  | b0 :: b1 :: _ => some (b0.val * 256 + b1.val)
  | _ => none

/-- Library `binary.BigEndian.Uint32`; it panics on fewer than 4 bytes. -/
def bigEndianUint32 : List Byte → Option Nat
  | b0 :: b1 :: b2 :: b3 :: _ =>
    some (((b0.val * 256 + b1.val) * 256 + b2.val) * 256 + b3.val)
  | _ => none

/-- Library `binary.LittleEndian.Uint16`; it panics on fewer than 2 bytes. -/
def littleEndianUint16 : List Byte → Option Nat
  | b0 :: b1 :: _ => some (b0.val + b1.val * 256)
  | _ => none

/-- Library `binary.LittleEndian.Uint32`; it panics on fewer than 4 bytes. -/
def littleEndianUint32 : List Byte → Option Nat
  | b0 :: b1 :: b2 :: b3 :: _ =>
    some (b0.val + (b1.val + (b2.val + b3.val * 256) * 256) * 256)
  | _ => none

/-- The conversion `int32(x)`: the value wrapped to 32-bit two's complement. -/
def toInt32 (x : Int) : Int :=
  (x + 2 ^ 31) % 2 ^ 32 - 2 ^ 31

/-- The conversion `string(b)` of bytes. -/
def bytesToString (b : List Byte) : GoString :=
  b.map fun x => Char.ofNat x.val

/-- The errors that the image functions return, one for each message of the source. -/
inductive ImageError where
  /-- `DetectImageFormat`: fewer than 12 bytes. -/
  | detectTooSmall
  /-- `DetectImageFormat`: no signature matched. -/
  | unsupportedFormat
  /-- `GetImageDimensions`: fewer than 12 bytes. -/
  | dataTooSmall
  /-- `GetImageDimensions`: the `default` case of the switch on the media type. -/
  | unsupportedMediaType (mediaType : GoString)
  /-- `getPNGDimensions`: fewer than 24 bytes. -/
  | pngIncomplete
  /-- `getJPEGDimensions`: fewer than 2 bytes. -/
  | jpegIncomplete
  /-- `getJPEGDimensions`: a frame marker with fewer than 7 bytes after it. -/
  | jpegSOFIncomplete
  /-- `getJPEGDimensions`: the scan ended without a frame marker. -/
  | jpegNoSOF
  /-- `getGIFDimensions`: fewer than 10 bytes. -/
  | gifIncomplete
  /-- `getWebPDimensions`: fewer than 30 bytes. -/
  | webpIncomplete
  /-- `getWebPDimensions`, chunk `VP8 `: fewer than 30 bytes. -/
  | vp8Incomplete
  /-- `getWebPDimensions`, chunk `VP8L`: fewer than 25 bytes. -/
  | vp8lIncomplete
  /-- `getWebPDimensions`, chunk `VP8X`: fewer than 30 bytes. -/
  | vp8xIncomplete
  /-- `getWebPDimensions`: a chunk type that is none of the three. -/
  | webpUnknownChunk (chunkType : GoString)
  /-- `getBMPDimensions`: fewer than 26 bytes. -/
  | bmpIncomplete
  deriving DecidableEq

deriving instance DecidableEq for Except

/-- What a function `(width, height int, err error)` does: `none` for a panic, an error,
or the two dimensions. -/
abbrev Dimensions := Option (Except ImageError (Int × Int))

/-- A chain of `&&` whose operands may panic: the operands are evaluated from the left
and the first one that is false ends the evaluation. -/
def goAll : List (Option Bool) → Option Bool
  | [] => some true
  | none :: _ => none
  | some false :: _ => some false
  | some true :: rest => goAll rest

/-- The operator `||` on operands that may panic: the right operand is evaluated only
when the left one is false. -/
def goOr (a b : Option Bool) : Option Bool :=
  match a with
  | none => none
  | some true => some true
  | some false => b

/-- The comparison `data[i] == v`. -/
def byteIs (data : List Byte) (i : Int) (v : Byte) : Option Bool :=
  (goIndex data i).map fun b => decide (b = v)

/-- `DetectImageFormat`. -/
def DetectImageFormat (data : List Byte) : Option (Except ImageError GoString) :=
  if data.length < 12 then some (.error .detectTooSmall)
  else
    match goAll [some (decide (data.length ≥ 2)), byteIs data 0 0xFF, byteIs data 1 0xD8] with
    | none => none
    | some true => some (.ok "image/jpeg".toList)
    | some false =>
    match goAll [some (decide (data.length ≥ 8)),
        byteIs data 0 0x89, byteIs data 1 0x50, byteIs data 2 0x4E, byteIs data 3 0x47,
        byteIs data 4 0x0D, byteIs data 5 0x0A, byteIs data 6 0x1A, byteIs data 7 0x0A] with
    | none => none
    | some true => some (.ok "image/png".toList)
    | some false =>
    match goAll [some (decide (data.length ≥ 6)),
        goOr
          (goAll [byteIs data 0 0x47, byteIs data 1 0x49, byteIs data 2 0x46,
            byteIs data 3 0x38, byteIs data 4 0x37, byteIs data 5 0x61])
          (goAll [byteIs data 0 0x47, byteIs data 1 0x49, byteIs data 2 0x46,
            byteIs data 3 0x38, byteIs data 4 0x39, byteIs data 5 0x61])] with
    | none => none
    | some true => some (.ok "image/gif".toList)
    | some false =>
    match goAll [some (decide (data.length ≥ 12)),
        byteIs data 0 0x52, byteIs data 1 0x49, byteIs data 2 0x46, byteIs data 3 0x46,
        byteIs data 8 0x57, byteIs data 9 0x45, byteIs data 10 0x42, byteIs data 11 0x50] with
    | none => none
    | some true => some (.ok "image/webp".toList)
    | some false =>
    match goAll [some (decide (data.length ≥ 2)), byteIs data 0 0x42, byteIs data 1 0x4D] with
    | none => none
    | some true => some (.ok "image/bmp".toList)
    | some false => some (.error .unsupportedFormat)

/-- `getPNGDimensions`. -/
def getPNGDimensions (data : List Byte) : Dimensions :=
  if data.length < 24 then some (.error .pngIncomplete)
  else
    match (bytesSlice data 16 20).bind bigEndianUint32,
      (bytesSlice data 20 24).bind bigEndianUint32 with
    | some width, some height => some (.ok ((width : Int), (height : Int)))
    | _, _ => none

/-- What one iteration of the loop of `getJPEGDimensions` does. -/
inductive JpegStep where
  /-- The iteration ends, by `continue` or at the end of the body, with this offset. -/
  | next (offset : Int)
  /-- The iteration leaves the loop by `break`. -/
  | leave
  /-- The iteration returns from the function. -/
  | done (result : Except ImageError (Int × Int))
  deriving DecidableEq

/-- The frame markers: `SOF0` to `SOF15` without `0xC4`, `0xC8` and `0xCC`. -/
def isSOF (marker : Byte) : Bool :=
  (marker.val ≥ 0xC0 && marker.val ≤ 0xC3) ||
    (marker.val ≥ 0xC5 && marker.val ≤ 0xC7) ||
    (marker.val ≥ 0xC9 && marker.val ≤ 0xCB) ||
    (marker.val ≥ 0xCD && marker.val ≤ 0xCF)

/-- The body of the loop of `getJPEGDimensions` at `offset`.  The offsets stay below
`len(data) + 2 ^ 16 + 2`, within the range of `int`. -/
def jpegStep (data : List Byte) (offset : Int) : Option JpegStep :=
  match goIndex data offset with
  | none => none
  | some b =>
    if b ≠ 0xFF then some (.next (offset + 1))
    else
      match goIndex data (offset + 1) with
      | none => none
      | some marker =>
        let offset := offset + 2
        if isSOF marker then
          if offset + 7 > (data.length : Int) then some (.done (.error .jpegSOFIncomplete))
          else
            match (bytesSlice data (offset + 3) (offset + 5)).bind bigEndianUint16,
              (bytesSlice data (offset + 5) (offset + 7)).bind bigEndianUint16 with
            | some height, some width => some (.done (.ok ((width : Int), (height : Int))))
            | _, _ => none
        else if marker = 0xD8 ∨ marker = 0xD9 ∨ (marker.val ≥ 0xD0 ∧ marker.val ≤ 0xD7) then
          some (.next offset)
        else if offset + 2 > (data.length : Int) then some .leave
        else
          match (bytesSlice data offset (offset + 2)).bind bigEndianUint16 with
          | none => none
          | some segmentLen => some (.next (offset + (segmentLen : Int)))

/-- The loop `for offset < len(data)-1` of `getJPEGDimensions`, followed by the
`return` after it; `none` when the fuel runs out or an iteration panics. -/
def jpegLoop (data : List Byte) : Nat → Int → Dimensions
  | 0, _ => none
  | fuel + 1, offset =>
    if offset < (data.length : Int) - 1 then
      match jpegStep data offset with
      | none => none
      | some (.next offset') => jpegLoop data fuel offset'
      | some .leave => some (.error .jpegNoSOF)
      | some (.done result) => some result
    else
      some (.error .jpegNoSOF)

/-- `getJPEGDimensions` with the given fuel for its loop. -/
def getJPEGDimensionsFuel (fuel : Nat) (data : List Byte) : Dimensions :=
  if data.length < 2 then some (.error .jpegIncomplete)
  else jpegLoop data fuel 2

/-- `getJPEGDimensions`.  The fuel is the length of the data; the loop never uses it
up. -/
def getJPEGDimensions (data : List Byte) : Dimensions :=
  getJPEGDimensionsFuel data.length data

/-- `getGIFDimensions`. -/
def getGIFDimensions (data : List Byte) : Dimensions :=
  if data.length < 10 then some (.error .gifIncomplete)
  else
    match (bytesSlice data 6 8).bind littleEndianUint16,
      (bytesSlice data 8 10).bind littleEndianUint16 with
    | some width, some height => some (.ok ((width : Int), (height : Int)))
    | _, _ => none

/-- `getWebPDimensions`. -/
def getWebPDimensions (data : List Byte) : Dimensions :=
  if data.length < 30 then some (.error .webpIncomplete)
  else
    match bytesSlice data 12 16 with
    | none => none
    | some chunk =>
      let chunkType := bytesToString chunk
      if chunkType = "VP8 ".toList then
        if data.length < 30 then some (.error .vp8Incomplete)
        else
          match (bytesSlice data 26 28).bind littleEndianUint16,
            (bytesSlice data 28 30).bind littleEndianUint16 with
          | some w, some h => some (.ok (((w &&& 0x3FFF : Nat) : Int), ((h &&& 0x3FFF : Nat) : Int)))
          | _, _ => none
      else if chunkType = "VP8L".toList then
        if data.length < 25 then some (.error .vp8lIncomplete)
        else
          match (bytesSlice data 21 25).bind littleEndianUint32 with
          | none => none
          | some bits =>
            some (.ok (((bits &&& 0x3FFF : Nat) : Int) + 1,
              (((bits >>> 14) &&& 0x3FFF : Nat) : Int) + 1))
      else if chunkType = "VP8X".toList then
        if data.length < 30 then some (.error .vp8xIncomplete)
        else
          match goIndex data 24, goIndex data 25, goIndex data 26,
            goIndex data 27, goIndex data 28, goIndex data 29 with
          | some b24, some b25, some b26, some b27, some b28, some b29 =>
            let w : Nat := b24.val ||| (b25.val <<< 8) ||| (b26.val <<< 16)
            let h : Nat := b27.val ||| (b28.val <<< 8) ||| (b29.val <<< 16)
            some (.ok ((w : Int) + 1, (h : Int) + 1))
          | _, _, _, _, _, _ => none
      else
        some (.error (.webpUnknownChunk chunkType))

/-- `getBMPDimensions`.  The height is read as an `int32` and negated as one, so the
negation of `-2 ^ 31` wraps. -/
def getBMPDimensions (data : List Byte) : Dimensions :=
  if data.length < 26 then some (.error .bmpIncomplete)
  else
    match (bytesSlice data 18 22).bind littleEndianUint32,
      (bytesSlice data 22 26).bind littleEndianUint32 with
    | some w, some hu =>
      let width := toInt32 (w : Int)
      let h := toInt32 (hu : Int)
      let height := if h < 0 then toInt32 (-h) else h
      some (.ok (width, height))
    | _, _ => none

/-- `GetImageDimensions`. -/
def GetImageDimensions (data : List Byte) : Dimensions :=
  if data.length < 12 then some (.error .dataTooSmall)
  else
    match DetectImageFormat data with
    | none => none
    | some (.error err) => some (.error err)
    | some (.ok mediaType) =>
      if mediaType = "image/png".toList then getPNGDimensions data
      else if mediaType = "image/jpeg".toList then getJPEGDimensions data
      else if mediaType = "image/gif".toList then getGIFDimensions data
      else if mediaType = "image/webp".toList then getWebPDimensions data
      else if mediaType = "image/bmp".toList then getBMPDimensions data
      else some (.error (.unsupportedMediaType mediaType))

/-- The `float64` operations of `EstimateImageTokens`: the conversions `float64(n)` and
`int(x)`, the product and the quotient.  Nothing is assumed of them. -/
structure Float64Ops where
  /-- The values of type `float64`. -/
  F : Type
  /-- The conversion `float64(n)`. -/
  ofInt : Int → F
  /-- The product `x * y`. -/
  mul : F → F → F
  /-- The quotient `x / y`. -/
  div : F → F → F
  /-- The conversion `int(x)`. -/
  toInt : F → Int

/-- `EstimateImageTokens`.  The product `width * height` is the product of Go's `int`,
which wraps, and its quotient by 750 truncates. -/
def EstimateImageTokens (fl : Float64Ops) (width height : Int) : Int :=
  if width ≤ 0 ∨ height ≤ 0 then 1500
  else
    let maxDim : Int := 1568
    let scaled : Int × Int :=
      if width > maxDim ∨ height > maxDim then
        if width > height then
          let scale := fl.div (fl.ofInt maxDim) (fl.ofInt width)
          (maxDim, fl.toInt (fl.mul (fl.ofInt height) scale))
        else
          let scale := fl.div (fl.ofInt maxDim) (fl.ofInt height)
          (fl.toInt (fl.mul (fl.ofInt width) scale), maxDim)
      else
        (width, height)
    let tokens := (wrapInt (scaled.1 * scaled.2)).tdiv 750
    if tokens < 85 then 85 else tokens

/-! ## The converter -/

/-- Modelled from the spec: the type `types.ImageSource`, whose declaration is not among
the source files and of which the spec says nothing; the fields are those that the
source reads, `Type`, `MediaType` and `Data`, all strings. -/
structure ImageSource where
  /-- The field `Type`. -/
  SourceType : GoString
  /-- The field `MediaType`. -/
  MediaType : GoString
  /-- The field `Data`. -/
  Data : GoString
  deriving DecidableEq

/-- Modelled from the spec: the type `types.CodeWhispererImage`, whose declaration is not
among the source files; the fields are those that `CreateCodeWhispererImage` sets,
`Format` and `Source.Bytes`. -/
structure CodeWhispererImage where
  /-- The field `Format`. -/
  Format : GoString
  /-- The field `Source.Bytes`. -/
  Bytes : GoString
  deriving DecidableEq

/-- Modelled from the spec: the type `types.ContentBlock`, whose declaration is not
among the source files; the fields are those that `processMessageContent` reads: `Type`,
the pointer `Text`, the pointer `Source`, and `Content` of type `any`, here a value of
some type `α` or `nil`.  A pointer is `none` when it is `nil`. -/
structure ContentBlock (α : Type) where
  /-- The field `Type`. -/
  BlockType : GoString
  /-- The field `Text`. -/
  Text : Option GoString
  /-- The field `Source`. -/
  Source : Option ImageSource
  /-- The field `Content`. -/
  Content : Option α

/-- `MaxImageSize`. -/
def MaxImageSize : Int := 20 * 1024 * 1024

/-- `GetImageFormatFromMediaType`. -/
def GetImageFormatFromMediaType (mediaType : GoString) : GoString :=
  if mediaType = "image/jpeg".toList then "jpeg".toList
  else if mediaType = "image/png".toList then "png".toList
  else if mediaType = "image/gif".toList then "gif".toList
  else if mediaType = "image/webp".toList then "webp".toList
  else if mediaType = "image/bmp".toList then "bmp".toList
  else []

/-- `IsSupportedImageFormat`. -/
def IsSupportedImageFormat (mediaType : GoString) : Bool :=
  decide (GetImageFormatFromMediaType mediaType ≠ [])

/-- `CreateCodeWhispererImage`; `none` is the `nil` pointer. -/
def CreateCodeWhispererImage (imageSource : Option ImageSource) : Option CodeWhispererImage :=
  match imageSource with
  | none => none
  | some src =>
    let format := GetImageFormatFromMediaType src.MediaType
    if format = [] then none
    else some { Format := format, Bytes := src.Data }

/-- The errors that `ValidateImageContent` returns, one for each message of the source. -/
inductive ValidationError where
  /-- The source is `nil`, or its data is the empty string. -/
  | imageDataEmpty
  /-- The type of the source is not `"base64"`. -/
  | unsupportedType (sourceType : GoString)
  /-- The media type is not a supported one. -/
  | unsupportedFormat (mediaType : GoString)
  /-- The data is not base64. -/
  | invalidBase64
  /-- The decoded data is longer than `MaxImageSize`. -/
  | tooLarge (size : Int)
  /-- The format detected in the data is not the media type declared. -/
  | formatMismatch (declared detected : GoString)
  deriving DecidableEq

/-- `ValidateImageContent`: `none` for a panic, else the error or `nil`.  `base64Decode`
stands for the library function `base64.StdEncoding.DecodeString`, `none` being its
error. -/
def ValidateImageContent (base64Decode : GoString → Option (List Byte))
    (imageSource : Option ImageSource) : Option (Except ValidationError Unit) :=
  match imageSource with
  | none => some (.error .imageDataEmpty)
  | some src =>
    if src.SourceType ≠ "base64".toList then some (.error (.unsupportedType src.SourceType))
    else if IsSupportedImageFormat src.MediaType = false then
      some (.error (.unsupportedFormat src.MediaType))
    else if src.Data = [] then some (.error .imageDataEmpty)
    else
      match base64Decode src.Data with
      | none => some (.error .invalidBase64)
      | some decodedData =>
        if (decodedData.length : Int) > MaxImageSize then
          some (.error (.tooLarge (decodedData.length : Int)))
        else
          match DetectImageFormat decodedData with
          | none => none
          | some (.error _) => some (.ok ())
          | some (.ok detectedType) =>
            if detectedType ≠ src.MediaType then
              some (.error (.formatMismatch src.MediaType detectedType))
            else some (.ok ())

/-- Library `strings.Join(parts, sep)`. -/
def stringsJoin : List GoString → GoString → GoString
  | [], _ => []
  | [a], _ => a
  | a :: b :: rest, sep => a ++ (sep ++ stringsJoin (b :: rest) sep)

/-- The three variables that the loop of `processMessageContent` appends to. -/
structure Parts where
  /-- The variable `thinkingParts`. -/
  thinkingParts : List GoString
  /-- The variable `textParts`. -/
  textParts : List GoString
  /-- The variable `images`. -/
  images : List CodeWhispererImage
  deriving DecidableEq

/-- The body of the loop `for _, block := range v` of `processMessageContent` in the case
`[]types.ContentBlock`: the switch on `block.Type`.  `none` stands for a panic, an error
for the `return` with the validation error wrapped.  `parseToolResultContent` stands for
`utils.ParseToolResultContent`, which is not among the source files; the calls of
`utils.Log` have no effect on what is returned. -/
def processBlock {α : Type} (parseToolResultContent : α → GoString)
    (base64Decode : GoString → Option (List Byte)) (parts : Parts) (block : ContentBlock α) :
    Option (Except ValidationError Parts) :=
  if block.BlockType = "text".toList then
    match block.Text with
    | some text => some (.ok { parts with textParts := parts.textParts ++ [text] })
    | none => some (.ok parts)
  else if block.BlockType = "image".toList then
    match block.Source with
    | none => some (.ok parts)
    | some src =>
      match ValidateImageContent base64Decode (some src) with
      | none => none
      | some (.error err) => some (.error err)
      | some (.ok _) =>
        match CreateCodeWhispererImage (some src) with
        | some cwImage => some (.ok { parts with images := parts.images ++ [cwImage] })
        | none => some (.ok parts)
  else if block.BlockType = "tool_result".toList then
    match block.Content with
    | none => some (.ok parts)
    | some content =>
      let parsedContent := parseToolResultContent content
      let parsedContent :=
        if parsedContent = [] then "Tool executed successfully".toList else parsedContent
      some (.ok { parts with textParts := parts.textParts ++ [parsedContent] })
  else if block.BlockType = "thinking".toList then
    match block.Text with
    | some text =>
      if text ≠ [] then
        some (.ok { parts with
          thinkingParts := parts.thinkingParts ++
            ["<thinking>\n".toList ++ text ++ "\n</thinking>".toList] })
      else some (.ok parts)
    | none => some (.ok parts)
  else
    some (.ok parts)

/-- The loop `for _, block := range v` of `processMessageContent`. -/
def processBlocks {α : Type} (parseToolResultContent : α → GoString)
    (base64Decode : GoString → Option (List Byte)) :
    List (ContentBlock α) → Parts → Option (Except ValidationError Parts)
  | [], parts => some (.ok parts)
  | block :: rest, parts =>
    match processBlock parseToolResultContent base64Decode parts block with
    | none => none
    | some (.error err) => some (.error err)
    | some (.ok parts') => processBlocks parseToolResultContent base64Decode rest parts'

/-- `processMessageContent` on a value `v` of type `[]types.ContentBlock`: that case of
the type switch on `content`, followed by the code after the switch.  The other cases
(`string`, `[]any` and `default`) are not embedded.  `none` stands for a panic; the error
is the validation error that the source wraps in its message. -/
def processMessageContent {α : Type} (parseToolResultContent : α → GoString)
    (base64Decode : GoString → Option (List Byte)) (v : List (ContentBlock α)) :
    Option (Except ValidationError (GoString × List CodeWhispererImage)) :=
  match processBlocks parseToolResultContent base64Decode v
      { thinkingParts := [], textParts := [], images := [] } with
  | none => none
  | some (.error err) => some (.error err)
  | some (.ok parts) =>
    let allParts := parts.thinkingParts ++ parts.textParts
    let result := stringsJoin allParts "\n\n".toList
    some (.ok (result, parts.images))

/-! # Properties -/

/-! ## Agreement with a tag -/

theorem compat_nil_right (u : GoString) : compat u [] = true := by
  cases u <;> rfl

theorem compat_of_isPrefixOf {tag u : GoString} (h : tag.isPrefixOf u = true) :
    compat tag u = true := by
  induction tag generalizing u with
  | nil => rfl
  | cons a t ih =>
    cases u with
    | nil => rfl
    | cons b u =>
      simp only [List.isPrefixOf, Bool.and_eq_true, beq_iff_eq] at h
      simp [compat, h.1, ih h.2]

theorem isPrefixOf_of_compat_of_le {tag u : GoString} (h : compat tag u = true)
    (hl : tag.length ≤ u.length) : tag.isPrefixOf u = true := by
  induction tag generalizing u with
  | nil => simp
  | cons a t ih =>
    cases u with
    | nil => simp at hl
    | cons b u =>
      simp only [compat, Bool.and_eq_true, decide_eq_true_eq] at h
      simp only [List.length_cons, Nat.add_le_add_iff_right] at hl
      simp [List.isPrefixOf, h.1, ih h.2 hl]

theorem compat_comm (a b : GoString) : compat a b = compat b a := by
  induction a generalizing b with
  | nil => simp [compat, compat_nil_right]
  | cons x a ih =>
    cases b with
    | nil => rfl
    | cons y b => simp only [compat, ih b, eq_comm]

theorem compat_append_right {tag u : GoString} (y : GoString)
    (h : compat tag (u ++ y) = true) : compat tag u = true := by
  induction tag generalizing u with
  | nil => rfl
  | cons a t ih =>
    cases u with
    | nil => rfl
    | cons b u =>
      simp only [List.cons_append, compat, Bool.and_eq_true, decide_eq_true_eq] at h ⊢
      exact ⟨h.1, ih h.2⟩

theorem compat_append_left (a b c : GoString) : compat (a ++ b) (a ++ c) = compat b c := by
  induction a with
  | nil => rfl
  | cons x a ih => simp [compat, ih]

theorem isPrefixOf_length_le {a b : GoString} (h : a.isPrefixOf b = true) :
    a.length ≤ b.length :=
  (List.isPrefixOf_iff_prefix.mp h).length_le

theorem firstHit_le (tag c : GoString) : firstHit tag c ≤ c.length := by
  induction c with
  | nil => simp [firstHit]
  | cons a s ih =>
    simp only [firstHit]
    split
    · simp
    · simp only [List.length_cons]; omega

theorem compat_drop_firstHit (tag c : GoString) :
    compat tag (c.drop (firstHit tag c)) = true := by
  induction c with
  | nil => simp [firstHit, compat_nil_right]
  | cons a s ih =>
    simp only [firstHit]
    split
    · simpa
    · simpa using ih

theorem not_compat_before (tag c : GoString) (j : Nat) (h : j < firstHit tag c) :
    compat tag (c.drop j) = false := by
  induction c generalizing j with
  | nil => simp [firstHit] at h
  | cons a s ih =>
    simp only [firstHit] at h
    split at h
    · omega
    · rename_i hc
      cases j with
      | zero => simpa using hc
      | succ j => simpa using ih j (by omega)

theorem firstHit_eq {tag c : GoString} {i : Nat}
    (hc : compat tag (c.drop i) = true)
    (hb : ∀ j, j < i → compat tag (c.drop j) = false) : firstHit tag c = i := by
  rcases Nat.lt_trichotomy (firstHit tag c) i with h | h | h
  · have := hb _ h
    rw [compat_drop_firstHit] at this
    cases this
  · exact h
  · have := not_compat_before tag c i h
    rw [hc] at this
    cases this

theorem firstHit_append (tag x y : GoString) :
    firstHit tag (x ++ y) =
      firstHit tag x + firstHit tag (x.drop (firstHit tag x) ++ y) := by
  induction x with
  | nil => simp [firstHit]
  | cons a s ih =>
    by_cases hc : compat tag (a :: s) = true
    · simp [firstHit, hc]
    · have hc2 : ¬ compat tag (a :: s ++ y) = true := fun h => hc (compat_append_right y h)
      simp only [List.cons_append] at hc2 ⊢
      simp only [firstHit, hc, hc2, if_false, List.drop_succ_cons, Bool.false_eq_true]
      rw [ih]; omega

/-- The piece of `c` from its first hit on is shorter than the tag unless the tag
occurs there. -/
theorem hold_length_lt {tag c : GoString}
    (h : tag.isPrefixOf (c.drop (firstHit tag c)) = false) :
    c.length - firstHit tag c < tag.length := by
  by_contra hlt
  have hle : tag.length ≤ (c.drop (firstHit tag c)).length := by
    simp only [List.length_drop]; omega
  rw [isPrefixOf_of_compat_of_le (compat_drop_firstHit tag c) hle] at h
  cases h

theorem hold_isPrefixOf {tag c : GoString}
    (h : tag.isPrefixOf (c.drop (firstHit tag c)) = false) :
    (c.drop (firstHit tag c)).isPrefixOf tag = true := by
  apply isPrefixOf_of_compat_of_le
  · rw [compat_comm]; exact compat_drop_firstHit tag c
  · have := hold_length_lt h
    simp only [List.length_drop]; omega

/-! ## `strings.Index` in terms of the first hit -/

theorem firstOccurrence_bound {sub s : GoString} {i : Nat}
    (h : firstOccurrence sub s = some i) : i + sub.length ≤ s.length := by
  induction s generalizing i with
  | nil =>
    simp only [firstOccurrence] at h
    split at h
    · rename_i hp
      have := isPrefixOf_length_le hp
      cases h
      simpa using this
    · cases h
  | cons a s ih =>
    simp only [firstOccurrence] at h
    split at h
    · rename_i hp
      have := isPrefixOf_length_le hp
      cases h
      simpa using this
    · cases hq : firstOccurrence sub s with
      | none => rw [hq] at h; cases h
      | some k =>
        rw [hq] at h
        cases h
        have := ih hq
        simp only [List.length_cons]; omega

theorem firstOccurrence_eq (tag c : GoString) :
    firstOccurrence tag c =
      if tag.isPrefixOf (c.drop (firstHit tag c)) then some (firstHit tag c) else none := by
  induction c with
  | nil => simp [firstOccurrence, firstHit]
  | cons a s ih =>
    by_cases hp : tag.isPrefixOf (a :: s) = true
    · simp [firstOccurrence, firstHit, hp, compat_of_isPrefixOf hp]
    · by_cases hc : compat tag (a :: s) = true
      · have hnone : firstOccurrence tag s = none := by
          cases hq : firstOccurrence tag s with
          | none => rfl
          | some k =>
            exfalso
            have h1 := firstOccurrence_bound hq
            have h2 : tag.length ≤ (a :: s).length := by
              simp only [List.length_cons]; omega
            exact hp (isPrefixOf_of_compat_of_le hc h2)
        simp [firstOccurrence, firstHit, hp, hc, hnone]
      · simp only [firstOccurrence, firstHit, hp, hc, if_false, Bool.false_eq_true, ih,
          List.drop_succ_cons]
        split <;> simp

theorem stringsIndex_of_hit {tag c : GoString}
    (h : tag.isPrefixOf (c.drop (firstHit tag c)) = true) :
    stringsIndex c tag = (firstHit tag c : Int) := by
  simp [stringsIndex, firstOccurrence_eq, h]

theorem stringsIndex_of_hold {tag c : GoString}
    (h : tag.isPrefixOf (c.drop (firstHit tag c)) = false) :
    stringsIndex c tag = -1 := by
  simp [stringsIndex, firstOccurrence_eq, h]

theorem hit_bound {tag c : GoString}
    (h : tag.isPrefixOf (c.drop (firstHit tag c)) = true) :
    firstHit tag c + tag.length ≤ c.length := by
  have := isPrefixOf_length_le h
  have := firstHit_le tag c
  simp only [List.length_drop] at *
  omega

/-! ## Slices -/

theorem goSlice_to (s : GoString) (n : Nat) (h : n ≤ s.length) :
    goSlice s 0 (n : Int) = some (s.take n) := by
  have h2 : (n : Int) ≤ (s.length : Int) := by omega
  simp [goSlice, h2]

theorem goSlice_from (s : GoString) (n : Nat) (h : n ≤ s.length) :
    goSlice s (n : Int) (s.length : Int) = some (s.drop n) := by
  have h2 : (n : Int) ≤ (s.length : Int) := by omega
  simp [goSlice, h2]

/-! ## The partial-tag loop -/

theorem findPartialTagLoop_none_found (tag s : GoString) :
    ∀ (fuel i : Nat), tag.length + 1 ≤ i + fuel → i ≤ tag.length →
      (∀ j, i ≤ j → j < tag.length → j ≤ s.length →
        (s.drop (s.length - j)).isPrefixOf tag = false) →
      findPartialTagLoop tag s fuel (i : Int) = some 0 := by
  intro fuel
  induction fuel with
  | zero =>
    intro i hf hi _
    exfalso; omega
  | succ f ih =>
    intro i hf _ hall
    unfold findPartialTagLoop
    by_cases hcond : (i : Int) < (tag.length : Int) ∧ (i : Int) ≤ (s.length : Int)
    · have h1 : i < tag.length := by omega
      have h2 : i ≤ s.length := by omega
      have hs : goSlice s ((s.length : Int) - (i : Int)) (s.length : Int)
          = some (s.drop (s.length - i)) := by
        have := goSlice_from s (s.length - i) (by omega)
        rwa [Nat.cast_sub h2] at this
      rw [if_pos hcond, hs]
      simp only [stringsHasPrefix, hall i (le_refl _) h1 h2, Bool.false_eq_true, if_false]
      have := ih (i + 1) (by omega) (by omega) (fun j hj => hall j (by omega))
      simpa using this
    · rw [if_neg hcond]

theorem findPartialTagLoop_found (tag s : GoString) (k : Nat) (hk : k < tag.length)
    (hks : k ≤ s.length) (hp : (s.drop (s.length - k)).isPrefixOf tag = true) :
    ∀ (fuel i : Nat), tag.length + 1 ≤ i + fuel → i ≤ k →
      (∀ j, i ≤ j → j < k → (s.drop (s.length - j)).isPrefixOf tag = false) →
      findPartialTagLoop tag s fuel (i : Int) = some (k : Int) := by
  intro fuel
  induction fuel with
  | zero =>
    intro i hf hik _
    exfalso; omega
  | succ f ih =>
    intro i hf hik hall
    unfold findPartialTagLoop
    have hcond : (i : Int) < (tag.length : Int) ∧ (i : Int) ≤ (s.length : Int) := by
      constructor <;> omega
    have h2 : i ≤ s.length := by omega
    have hs : goSlice s ((s.length : Int) - (i : Int)) (s.length : Int)
        = some (s.drop (s.length - i)) := by
      have := goSlice_from s (s.length - i) (by omega)
      rwa [Nat.cast_sub h2] at this
    rw [if_pos hcond, hs]
    by_cases hik2 : i = k
    · subst hik2
      simp [stringsHasPrefix, hp]
    · simp only [stringsHasPrefix, hall i (le_refl _) (by omega), Bool.false_eq_true, if_false]
      have := ih (i + 1) (by omega) (by omega) (fun j hj => hall j (by omega))
      simpa using this

/-- A piece of a tag prefix that starts after its first byte is not a tag prefix,
when the first byte of the tag does not occur again in the tag. -/
theorem not_isPrefixOf_drop {h : Char} {tl r : GoString} (hno : h ∉ tl)
    (hr : r.isPrefixOf (h :: tl) = true) (d : Nat) (hd0 : 0 < d) (hd : d < r.length) :
    (r.drop d).isPrefixOf (h :: tl) = false := by
  cases r with
  | nil => simp at hd
  | cons a r' =>
    simp only [List.isPrefixOf, Bool.and_eq_true, beq_iff_eq] at hr
    obtain ⟨d', rfl⟩ : ∃ d', d = d' + 1 := ⟨d - 1, by omega⟩
    simp only [List.drop_succ_cons]
    cases hx : r'.drop d' with
    | nil =>
      have := congrArg List.length hx
      simp only [List.length_drop, List.length_nil, List.length_cons] at this hd
      omega
    | cons x rest =>
      have hxm : x ∈ r'.drop d' := by rw [hx]; exact List.mem_cons_self _ _
      have hxt : x ∈ tl :=
        (List.isPrefixOf_iff_prefix.mp hr.2).subset (List.mem_of_mem_drop hxm)
      have hne : x ≠ h := fun e => hno (e ▸ hxt)
      simp [List.isPrefixOf, hne]

/-- What the partial-tag loop returns when the tag does not occur in `c`: the length
of the piece of `c` from its first hit on. -/
theorem findPartialTagLoop_of_hold {h : Char} {tl c : GoString} (hno : h ∉ tl)
    (hh : (h :: tl).isPrefixOf (c.drop (firstHit (h :: tl) c)) = false) :
    findPartialTagLoop (h :: tl) c (h :: tl).length 1 =
      some ((c.length - firstHit (h :: tl) c : Nat) : Int) := by
  have hlt := hold_length_lt hh
  have hpre := hold_isPrefixOf hh
  have hle := firstHit_le (h :: tl) c
  by_cases hk : c.length - firstHit (h :: tl) c = 0
  · rw [hk]
    have := findPartialTagLoop_none_found (h :: tl) c (h :: tl).length 1 (by omega)
      (by simp) (fun j hj1 _ hj3 => by
        have hb := not_compat_before (h :: tl) c (c.length - j) (by omega)
        cases hq : ((c.drop (c.length - j)).isPrefixOf (h :: tl)) with
        | false => rfl
        | true =>
          have := compat_of_isPrefixOf hq
          rw [compat_comm, hb] at this
          cases this)
    simpa using this
  · have hdrop : c.drop (c.length - (c.length - firstHit (h :: tl) c))
        = c.drop (firstHit (h :: tl) c) := by
      congr 1; omega
    have := findPartialTagLoop_found (h :: tl) c (c.length - firstHit (h :: tl) c) hlt
      (by omega) (by rw [hdrop]; exact hpre) (h :: tl).length 1 (by omega) (by omega)
      (fun j hj1 hj2 => by
        have hd : c.drop (c.length - j)
            = (c.drop (firstHit (h :: tl) c)).drop
                (c.length - firstHit (h :: tl) c - j) := by
          rw [List.drop_drop]; congr 1; omega
        rw [hd]
        apply not_isPrefixOf_drop hno hpre
        · omega
        · simp only [List.length_drop]; omega)
    simpa using this

theorem openTag_eq : openTag = '<' :: "thinking>".toList := by decide

theorem closeTag_eq : closeTag = '<' :: "/thinking>".toList := by decide

theorem findPartialStartTag_of_hold {c : GoString}
    (hh : openTag.isPrefixOf (c.drop (firstHit openTag c)) = false) :
    findPartialStartTag c = some ((c.length - firstHit openTag c : Nat) : Int) := by
  unfold findPartialStartTag
  rw [openTag_eq] at hh ⊢
  exact findPartialTagLoop_of_hold (by decide) hh

theorem findPartialEndTag_of_hold {c : GoString}
    (hh : closeTag.isPrefixOf (c.drop (firstHit closeTag c)) = false) :
    findPartialEndTag c = some ((c.length - firstHit closeTag c : Nat) : Int) := by
  unfold findPartialEndTag
  rw [closeTag_eq] at hh ⊢
  exact findPartialTagLoop_of_hold (by decide) hh

/-! ## Signatures -/

theorem base64StdEncode_ne_nil : ∀ (l : List Nat), l ≠ [] → base64StdEncode l ≠ []
  | [], h => absurd rfl h
  | [_], _ => by simp [base64StdEncode]
  | [_, _], _ => by simp [base64StdEncode]
  | _ :: _ :: _ :: _, _ => by simp [base64StdEncode]

theorem randRead_length (rnd : RandSource) (n : Nat) : (randRead rnd n).1.length = n := by
  simp [randRead]

theorem generateSignature_ne_nil (te : ThinkingExtractor) (rnd : RandSource) :
    (generateSignature te rnd).1 ≠ [] := by
  unfold generateSignature
  apply base64StdEncode_ne_nil
  intro h
  have := congrArg List.length h
  rw [randRead_length] at this
  simp only [List.length_nil] at this
  split_ifs at this <;> omega

/-! ## One iteration of the loop -/

theorem LoopSpec.refl (st : LoopState) :
    LoopSpec st st (Trace.idle st.te.inThinkingBlock []) := by
  constructor <;> simp [Trace.idle]

theorem LoopSpec.trans {a b c : LoopState} {t u : Trace} (h1 : LoopSpec a b t)
    (ht : t.pending = []) (h2 : LoopSpec b c u) (hu0 : u.ends = 0 → u.closed = []) :
    LoopSpec a c (Trace.seq t u) := by
  constructor
  · simp [Trace.seq, h2.text, h1.text]
  · simp [Trace.seq, h2.think, h1.think]
  · rw [h2.started, h1.started]
    cases a.result.ThinkingStarted <;> simp [Trace.seq]
  · rw [h2.ended, h1.ended]
    cases a.result.ThinkingEnded <;> simp [Trace.seq]
  · simp [Trace.seq, h2.mode]
  · simp [Trace.seq, h2.buffer, h1.buffer, ht]
  · intro h
    simp only [Trace.seq] at h
    rw [h2.sigKeep (by omega), h1.sigKeep (by omega)]
  · intro h
    simp only [Trace.seq] at h
    by_cases hu : u.ends = 0
    · rw [h2.sigKeep hu]
      exact h1.sigNew (by omega)
    · exact h2.sigNew (by omega)
  · rw [h2.hasPending, h1.hasPending, ht]
    simp [Trace.seq]
  · rw [h2.acc, h1.acc]
    simp only [Trace.seq]
    by_cases hu : u.ends = 0
    · by_cases htz : t.ends = 0
      · simp [hu, htz]
      · simp [hu, htz]
    · have : ¬ (t.ends + u.ends = 0) := by omega
      simp [hu, this]
  · intro h
    simp only [Trace.seq] at h ⊢
    by_cases hu : u.ends = 0
    · obtain ⟨rnd0, hs⟩ := h1.sigOf (by omega)
      refine ⟨rnd0, ?_⟩
      rw [h2.sigKeep hu, hs]
      simp [hu, hu0 hu]
    · obtain ⟨rnd0, hs⟩ := h2.sigOf (by omega)
      refine ⟨rnd0, ?_⟩
      rw [hs, h1.acc]
      by_cases hu1 : u.ends = 1
      · by_cases htz : t.ends = 0
        · simp [hu1, htz]
        · simp [hu1, htz]
      · have : ¬ (t.ends + u.ends = 1) := by omega
        simp [hu, hu1, this]

theorem thinkingBranch_hit (st : LoopState)
    (hh : closeTag.isPrefixOf (st.content.drop (firstHit closeTag st.content)) = true) :
    ∃ st', thinkingBranch st = some st' ∧
      st'.content = st.content.drop (firstHit closeTag st.content + closeTag.length) ∧
      LoopSpec st st' (Trace.passTag true (st.content.take (firstHit closeTag st.content))) := by
  obtain ⟨te, rnd, result, content⟩ := st
  simp only at hh ⊢
  have hb := hit_bound hh
  have hidx := stringsIndex_of_hit hh
  have hrest : goSlice content ((firstHit closeTag content : Int) + (closeTag.length : Int))
      (content.length : Int) = some (content.drop (firstHit closeTag content + closeTag.length)) := by
    have := goSlice_from content (firstHit closeTag content + closeTag.length) hb
    rwa [Nat.cast_add] at this
  have hnn : (firstHit closeTag content : Int) ≥ 0 := by omega
  by_cases h0 : firstHit closeTag content = 0
  · simp only [thinkingBranch, hidx, hnn, if_true, hrest]
    simp only [h0, Nat.cast_zero, gt_iff_lt, lt_self_iff_false, if_false, Option.some_bind,
      Option.map_some', Option.some.injEq]
    refine ⟨_, rfl, by simp, ?_⟩
    constructor <;>
      first
      | (intro _
         refine ⟨rnd, ?_⟩
         simp [Trace.passTag, generateSignature, GenerateFakeSignature])
      | simp [Trace.passTag, generateSignature_ne_nil]
  · have hpos : (firstHit closeTag content : Int) > 0 := by omega
    have hto := goSlice_to content (firstHit closeTag content) (by omega)
    simp only [thinkingBranch, hidx, hnn, if_true, hpos, hrest, hto]
    simp only [Option.map_some', Option.some_bind, Option.some.injEq]
    refine ⟨_, rfl, by simp, ?_⟩
    constructor <;>
      first
      | (intro _
         refine ⟨rnd, ?_⟩
         simp [Trace.passTag, generateSignature, GenerateFakeSignature])
      | simp [Trace.passTag, generateSignature_ne_nil]

theorem thinkingBranch_hold (st : LoopState) (hm : st.te.inThinkingBlock = true)
    (hh : closeTag.isPrefixOf (st.content.drop (firstHit closeTag st.content)) = false) :
    ∃ st', thinkingBranch st = some st' ∧ st'.content = [] ∧
      LoopSpec st st' (Trace.hold true (st.content.take (firstHit closeTag st.content))
        (st.content.drop (firstHit closeTag st.content))) := by
  obtain ⟨te, rnd, result, content⟩ := st
  simp only at hh hm ⊢
  have hle := firstHit_le closeTag content
  have hidx := stringsIndex_of_hold hh
  have hpart := findPartialEndTag_of_hold hh
  have hcast : ((content.length : Int) - ((content.length - firstHit closeTag content : Nat) : Int))
      = (firstHit closeTag content : Int) := by omega
  have hfrom := goSlice_from content (firstHit closeTag content) hle
  have hto := goSlice_to content (firstHit closeTag content) hle
  have hneg : ¬ ((-1 : Int) ≥ 0) := by omega
  by_cases hk : content.length - firstHit closeTag content = 0
  · have hall : firstHit closeTag content = content.length := by omega
    simp only [thinkingBranch, hidx, hneg, if_false, hpart, Option.some_bind, hk,
      Nat.cast_zero, gt_iff_lt, lt_self_iff_false, Option.some.injEq]
    refine ⟨_, rfl, rfl, ?_⟩
    constructor <;> simp [Trace.hold, hall, hm]
  · have hpos : ((content.length - firstHit closeTag content : Nat) : Int) > 0 := by omega
    have hlt : firstHit closeTag content < content.length := by omega
    have hc0 : content ≠ [] := by
      intro h
      rw [h] at hlt
      simp at hlt
    by_cases h0 : firstHit closeTag content = 0
    · have hnot : ¬ ((content.length : Int) >
          ((content.length - firstHit closeTag content : Nat) : Int)) := by omega
      simp only [thinkingBranch, hidx, hneg, if_false, hpart, Option.some_bind, hpos, if_true,
        hnot, hcast, hfrom, Option.map_some', Option.some.injEq]
      refine ⟨_, rfl, rfl, ?_⟩
      constructor <;> simp [Trace.hold, h0, hm, hc0]
    · have hyes : ((content.length : Int) >
          ((content.length - firstHit closeTag content : Nat) : Int)) := by omega
      simp only [thinkingBranch, hidx, hneg, if_false, hpart, Option.some_bind, hpos, if_true,
        hyes, hcast, hfrom, hto, Option.map_some', Option.some.injEq]
      refine ⟨_, rfl, rfl, ?_⟩
      constructor <;> simp [Trace.hold, hm, hlt]

theorem plainBranch_hit (st : LoopState)
    (hh : openTag.isPrefixOf (st.content.drop (firstHit openTag st.content)) = true) :
    ∃ st', plainBranch st = some st' ∧
      st'.content = st.content.drop (firstHit openTag st.content + openTag.length) ∧
      LoopSpec st st' (Trace.passTag false (st.content.take (firstHit openTag st.content))) := by
  obtain ⟨te, rnd, result, content⟩ := st
  simp only at hh ⊢
  have hb := hit_bound hh
  have hidx := stringsIndex_of_hit hh
  have hrest : goSlice content ((firstHit openTag content : Int) + (openTag.length : Int))
      (content.length : Int) = some (content.drop (firstHit openTag content + openTag.length)) := by
    have := goSlice_from content (firstHit openTag content + openTag.length) hb
    rwa [Nat.cast_add] at this
  have hnn : (firstHit openTag content : Int) ≥ 0 := by omega
  by_cases h0 : firstHit openTag content = 0
  · simp only [plainBranch, hidx, hnn, if_true, hrest]
    simp only [h0, Nat.cast_zero, gt_iff_lt, lt_self_iff_false, if_false, Option.some_bind,
      Option.map_some', Option.some.injEq]
    refine ⟨_, rfl, by simp, ?_⟩
    constructor <;> simp [Trace.passTag, h0]
  · have hpos : (firstHit openTag content : Int) > 0 := by omega
    have hto := goSlice_to content (firstHit openTag content) (by omega)
    simp only [plainBranch, hidx, hnn, if_true, hpos, hrest, hto]
    simp only [Option.map_some', Option.some_bind, Option.some.injEq]
    refine ⟨_, rfl, by simp, ?_⟩
    constructor <;> simp [Trace.passTag]

theorem plainBranch_hold (st : LoopState) (hm : st.te.inThinkingBlock = false)
    (hh : openTag.isPrefixOf (st.content.drop (firstHit openTag st.content)) = false) :
    ∃ st', plainBranch st = some st' ∧ st'.content = [] ∧
      LoopSpec st st' (Trace.hold false (st.content.take (firstHit openTag st.content))
        (st.content.drop (firstHit openTag st.content))) := by
  obtain ⟨te, rnd, result, content⟩ := st
  simp only at hh hm ⊢
  have hle := firstHit_le openTag content
  have hidx := stringsIndex_of_hold hh
  have hpart := findPartialStartTag_of_hold hh
  have hcast : ((content.length : Int) - ((content.length - firstHit openTag content : Nat) : Int))
      = (firstHit openTag content : Int) := by omega
  have hfrom := goSlice_from content (firstHit openTag content) hle
  have hto := goSlice_to content (firstHit openTag content) hle
  have hneg : ¬ ((-1 : Int) ≥ 0) := by omega
  by_cases hk : content.length - firstHit openTag content = 0
  · have hall : firstHit openTag content = content.length := by omega
    simp only [plainBranch, hidx, hneg, if_false, hpart, Option.some_bind, hk,
      Nat.cast_zero, gt_iff_lt, lt_self_iff_false, Option.some.injEq]
    refine ⟨_, rfl, rfl, ?_⟩
    constructor <;> simp [Trace.hold, hall, hm]
  · have hpos : ((content.length - firstHit openTag content : Nat) : Int) > 0 := by omega
    have hlt : firstHit openTag content < content.length := by omega
    have hc0 : content ≠ [] := by
      intro h
      rw [h] at hlt
      simp at hlt
    by_cases h0 : firstHit openTag content = 0
    · have hnot : ¬ ((content.length : Int) >
          ((content.length - firstHit openTag content : Nat) : Int)) := by omega
      simp only [plainBranch, hidx, hneg, if_false, hpart, Option.some_bind, hpos, if_true,
        hnot, hcast, hfrom, Option.map_some', Option.some.injEq]
      refine ⟨_, rfl, rfl, ?_⟩
      constructor <;> simp [Trace.hold, h0, hm, hc0]
    · have hyes : ((content.length : Int) >
          ((content.length - firstHit openTag content : Nat) : Int)) := by omega
      simp only [plainBranch, hidx, hneg, if_false, hpart, Option.some_bind, hpos, if_true,
        hyes, hcast, hfrom, hto, Option.map_some', Option.some.injEq]
      refine ⟨_, rfl, rfl, ?_⟩
      constructor <;> simp [Trace.hold, hm, hlt]

/-! ## The loop as a scan -/

theorem scan_nil (m : Bool) : scan m [] = Trace.idle m [] := by
  rw [scan]; simp

theorem scan_hit {m : Bool} {c : GoString} (hc : c ≠ [])
    (hh : (tagOf m).isPrefixOf (c.drop (firstHit (tagOf m) c)) = true) :
    scan m c = Trace.seq (Trace.passTag m (c.take (firstHit (tagOf m) c)))
      (scan (!m) (c.drop (firstHit (tagOf m) c + (tagOf m).length))) := by
  rw [scan]; simp [hc, hh]

theorem scan_hold {m : Bool} {c : GoString} (hc : c ≠ [])
    (hh : (tagOf m).isPrefixOf (c.drop (firstHit (tagOf m) c)) = false) :
    scan m c = Trace.hold m (c.take (firstHit (tagOf m) c))
      (c.drop (firstHit (tagOf m) c)) := by
  rw [scan]; simp [hc, hh]

theorem tagOf_length_pos (m : Bool) : 0 < (tagOf m).length := by
  cases m <;> decide

theorem passTag_pending (m : Bool) (u : GoString) : (Trace.passTag m u).pending = [] := by
  cases m <;> rfl

theorem passTag_inThinking (m : Bool) (u : GoString) :
    (Trace.passTag m u).inThinking = !m := by
  cases m <;> rfl

/-- Induction along a scan: a property of the scan of `c` in mode `m` that holds of the
idle run, of a run that holds, and of a run that passes a tag when it holds of the scan
of the rest, holds of every scan. -/
theorem scan_induction (P : Bool → GoString → Trace → Prop)
    (hidle : ∀ m, P m [] (Trace.idle m []))
    (hhold : ∀ m c, c ≠ [] →
      (tagOf m).isPrefixOf (c.drop (firstHit (tagOf m) c)) = false →
      P m c (Trace.hold m (c.take (firstHit (tagOf m) c)) (c.drop (firstHit (tagOf m) c))))
    (hhit : ∀ m c, c ≠ [] →
      (tagOf m).isPrefixOf (c.drop (firstHit (tagOf m) c)) = true →
      P (!m) (c.drop (firstHit (tagOf m) c + (tagOf m).length))
        (scan (!m) (c.drop (firstHit (tagOf m) c + (tagOf m).length))) →
      P m c (Trace.seq (Trace.passTag m (c.take (firstHit (tagOf m) c)))
        (scan (!m) (c.drop (firstHit (tagOf m) c + (tagOf m).length))))) :
    ∀ (m : Bool) (c : GoString), P m c (scan m c) := by
  have key : ∀ (n : Nat) (m : Bool) (c : GoString), c.length ≤ n → P m c (scan m c) := by
    intro n
    induction n with
    | zero =>
      intro m c hn
      have hc : c = [] := List.length_eq_zero.mp (by omega)
      subst hc
      rw [scan_nil]; exact hidle m
    | succ n ih =>
      intro m c hn
      by_cases hc : c = []
      · subst hc
        rw [scan_nil]; exact hidle m
      · cases hh : (tagOf m).isPrefixOf (c.drop (firstHit (tagOf m) c)) with
        | false => rw [scan_hold hc hh]; exact hhold m c hc hh
        | true =>
          rw [scan_hit hc hh]
          apply hhit m c hc hh
          apply ih
          have h1 := tagOf_length_pos m
          have h2 : 0 < c.length := List.length_pos.mpr hc
          simp only [List.length_drop]
          omega
  intro m c
  exact key c.length m c (le_refl _)

/-- A scan that closed no block has no last closed block. -/
theorem scan_closed_nil (m : Bool) (c : GoString) :
    (scan m c).ends = 0 → (scan m c).closed = [] := by
  apply scan_induction (fun _ _ t => t.ends = 0 → t.closed = [])
  · intro m _; rfl
  · intro m c _ _ _
    cases m <;> rfl
  · intro m c _ _ ih h
    cases m
    · simp only [Trace.seq, Trace.passTag, Bool.false_eq_true, if_false, Nat.zero_add] at h ⊢
      rw [if_pos h, ih h]
      rfl
    · simp [Trace.seq, Trace.passTag] at h

/-- One iteration on non-empty content either passes a tag and leaves strictly less
content, or releases or holds everything and leaves none. -/
theorem loopBody_spec (st : LoopState) :
    ∃ st', loopBody st = some st' ∧
      ((tagOf st.te.inThinkingBlock).isPrefixOf
          (st.content.drop (firstHit (tagOf st.te.inThinkingBlock) st.content)) = true ∧
        st'.content = st.content.drop
          (firstHit (tagOf st.te.inThinkingBlock) st.content +
            (tagOf st.te.inThinkingBlock).length) ∧
        LoopSpec st st' (Trace.passTag st.te.inThinkingBlock
          (st.content.take (firstHit (tagOf st.te.inThinkingBlock) st.content))) ∨
       (tagOf st.te.inThinkingBlock).isPrefixOf
          (st.content.drop (firstHit (tagOf st.te.inThinkingBlock) st.content)) = false ∧
        st'.content = [] ∧
        LoopSpec st st' (Trace.hold st.te.inThinkingBlock
          (st.content.take (firstHit (tagOf st.te.inThinkingBlock) st.content))
          (st.content.drop (firstHit (tagOf st.te.inThinkingBlock) st.content)))) := by
  cases hm : st.te.inThinkingBlock with
  | true =>
    simp only [loopBody, hm, if_true, tagOf]
    cases hh : closeTag.isPrefixOf (st.content.drop (firstHit closeTag st.content)) with
    | true =>
      obtain ⟨st', h1, h2, h3⟩ := thinkingBranch_hit st hh
      exact ⟨st', h1, Or.inl ⟨rfl, h2, h3⟩⟩
    | false =>
      obtain ⟨st', h1, h2, h3⟩ := thinkingBranch_hold st hm hh
      exact ⟨st', h1, Or.inr ⟨rfl, h2, h3⟩⟩
  | false =>
    simp only [loopBody, hm, if_false, tagOf, Bool.false_eq_true]
    cases hh : openTag.isPrefixOf (st.content.drop (firstHit openTag st.content)) with
    | true =>
      obtain ⟨st', h1, h2, h3⟩ := plainBranch_hit st hh
      exact ⟨st', h1, Or.inl ⟨rfl, h2, h3⟩⟩
    | false =>
      obtain ⟨st', h1, h2, h3⟩ := plainBranch_hold st hm hh
      exact ⟨st', h1, Or.inr ⟨rfl, h2, h3⟩⟩

theorem processLoop_spec : ∀ (n : Nat) (st : LoopState) (fuel : Nat),
    st.content.length ≤ n → st.content.length ≤ fuel →
    ∃ st', processLoop fuel st = some st' ∧ st'.content = [] ∧
      LoopSpec st st' (scan st.te.inThinkingBlock st.content) := by
  intro n
  induction n with
  | zero =>
    intro st fuel hn _
    have hc : st.content = [] := List.length_eq_zero.mp (by omega)
    refine ⟨st, ?_, hc, ?_⟩
    · cases fuel <;> simp [processLoop, hc]
    · rw [hc, scan_nil]; exact LoopSpec.refl st
  | succ n ih =>
    intro st fuel hn hf
    by_cases hc : st.content = []
    · refine ⟨st, ?_, hc, ?_⟩
      · cases fuel <;> simp [processLoop, hc]
      · rw [hc, scan_nil]; exact LoopSpec.refl st
    · have hpos : 0 < st.content.length := List.length_pos.mpr hc
      obtain ⟨f, rfl⟩ : ∃ f, fuel = f + 1 := ⟨fuel - 1, by omega⟩
      obtain ⟨st1, hb, hcase⟩ := loopBody_spec st
      simp only [processLoop, hpos, gt_iff_lt, if_true, hb, Option.some_bind]
      rcases hcase with ⟨hh, hcont, hspec⟩ | ⟨hh, hcont, hspec⟩
      · have htag := tagOf_length_pos st.te.inThinkingBlock
        have hlen : st1.content.length < st.content.length := by
          rw [hcont, List.length_drop]; omega
        obtain ⟨st2, h1, h2, h3⟩ := ih st1 f (by omega) (by omega)
        refine ⟨st2, h1, h2, ?_⟩
        rw [scan_hit hc hh]
        have hmode : st1.te.inThinkingBlock = !st.te.inThinkingBlock := by
          rw [hspec.mode, passTag_inThinking]
        rw [hmode, hcont] at h3
        exact LoopSpec.trans hspec (passTag_pending _ _) h3 (scan_closed_nil _ _)
      · refine ⟨st1, ?_, hcont, ?_⟩
        · cases f <;> simp [processLoop, hcont]
        · rw [scan_hold hc hh]; exact hspec

/-! ## Scanning a concatenation -/

theorem Trace.seq_assoc (a b c : Trace) :
    Trace.seq (Trace.seq a b) c = Trace.seq a (Trace.seq b c) := by
  simp only [Trace.seq, Nat.add_assoc, List.append_assoc, Trace.mk.injEq, true_and, and_true]
  by_cases hb : b.ends = 0 <;> by_cases hc : c.ends = 0 <;> by_cases hc1 : c.ends = 1 <;>
    by_cases hb1 : b.ends = 1 <;> simp [hb, hc, hc1, hb1]
  all_goals omega

theorem Trace.idle_seq (m : Bool) (t : Trace) : Trace.seq (Trace.idle m []) t = t := by
  simp [Trace.seq, Trace.idle]

theorem Trace.hold_seq_passTag (m : Bool) (a r b : GoString) (t : Trace) :
    Trace.seq (Trace.hold m a r) (Trace.seq (Trace.passTag m b) t) =
      Trace.seq (Trace.passTag m (a ++ b)) t := by
  cases m <;> by_cases ht : t.ends = 0 <;> simp [Trace.seq, Trace.hold, Trace.passTag, ht]

theorem Trace.hold_seq_hold (m : Bool) (a r b r' : GoString) :
    Trace.seq (Trace.hold m a r) (Trace.hold m b r') = Trace.hold m (a ++ b) r' := by
  cases m <;> simp [Trace.seq, Trace.hold]

theorem Trace.hold_seq_idle (m : Bool) (a : GoString) :
    Trace.seq (Trace.hold m a []) (Trace.idle m []) = Trace.hold m a [] := by
  cases m <;> simp [Trace.seq, Trace.hold, Trace.idle]

theorem hold_inThinking (m : Bool) (a r : GoString) : (Trace.hold m a r).inThinking = m := by
  cases m <;> rfl

theorem hold_pending (m : Bool) (a r : GoString) : (Trace.hold m a r).pending = r := by
  cases m <;> rfl

theorem firstHit_of_compat {tag c : GoString} (h : compat tag c = true) :
    firstHit tag c = 0 := by
  cases c with
  | nil => rfl
  | cons a s => simp [firstHit, h]

theorem isPrefixOf_append_right {a b : GoString} (y : GoString) (h : a.isPrefixOf b = true) :
    a.isPrefixOf (b ++ y) = true :=
  List.isPrefixOf_iff_prefix.mpr
    ((List.isPrefixOf_iff_prefix.mp h).trans (List.prefix_append b y))

theorem scan_append_aux : ∀ (n : Nat) (m : Bool) (x y : GoString), x.length ≤ n →
    scan m (x ++ y) =
      Trace.seq (scan m x) (scan (scan m x).inThinking ((scan m x).pending ++ y)) := by
  intro n
  induction n with
  | zero =>
    intro m x y hn
    have hx : x = [] := List.length_eq_zero.mp (by omega)
    subst hx
    simp [scan_nil, Trace.idle, Trace.seq]
  | succ n ih =>
    intro m x y hn
    by_cases hx : x = []
    · subst hx
      simp [scan_nil, Trace.idle, Trace.seq]
    · have hxy : x ++ y ≠ [] := by simp [hx]
      have hle := firstHit_le (tagOf m) x
      have hsplit := firstHit_append (tagOf m) x y
      have hdrop : (x ++ y).drop (firstHit (tagOf m) x) = x.drop (firstHit (tagOf m) x) ++ y :=
        List.drop_append_of_le_length hle
      have htake : (x ++ y).take (firstHit (tagOf m) x) = x.take (firstHit (tagOf m) x) :=
        List.take_append_of_le_length hle
      cases hh : (tagOf m).isPrefixOf (x.drop (firstHit (tagOf m) x)) with
      | true =>
        have hb := hit_bound hh
        have htag := tagOf_length_pos m
        have h0 : firstHit (tagOf m) (x.drop (firstHit (tagOf m) x) ++ y) = 0 :=
          firstHit_of_compat (compat_of_isPrefixOf (isPrefixOf_append_right y hh))
        have hfh : firstHit (tagOf m) (x ++ y) = firstHit (tagOf m) x := by
          rw [hsplit, h0]; rfl
        have hh2 : (tagOf m).isPrefixOf ((x ++ y).drop (firstHit (tagOf m) (x ++ y))) = true := by
          rw [hfh, hdrop]; exact isPrefixOf_append_right y hh
        rw [scan_hit hxy hh2, scan_hit hx hh, hfh, htake,
          List.drop_append_of_le_length hb, Trace.seq_assoc]
        rw [ih (!m) _ y (by simp only [List.length_drop]; omega)]
        rfl
      | false =>
        rw [scan_hold hx hh, hold_inThinking, hold_pending]
        by_cases hry : x.drop (firstHit (tagOf m) x) ++ y = []
        · have hy : y = [] := (List.append_eq_nil.mp hry).2
          have hr : x.drop (firstHit (tagOf m) x) = [] := (List.append_eq_nil.mp hry).1
          subst hy
          rw [List.append_nil, scan_hold hx hh, hr, List.append_nil, scan_nil,
            Trace.hold_seq_idle]
        · have hfh : firstHit (tagOf m) (x ++ y) = firstHit (tagOf m) x +
              firstHit (tagOf m) (x.drop (firstHit (tagOf m) x) ++ y) := hsplit
          have hdd : (x ++ y).drop (firstHit (tagOf m) (x ++ y)) =
              (x.drop (firstHit (tagOf m) x) ++ y).drop
                (firstHit (tagOf m) (x.drop (firstHit (tagOf m) x) ++ y)) := by
            rw [hfh, ← hdrop, List.drop_drop, Nat.add_comm]
          have htt : (x ++ y).take (firstHit (tagOf m) (x ++ y)) =
              x.take (firstHit (tagOf m) x) ++ (x.drop (firstHit (tagOf m) x) ++ y).take
                (firstHit (tagOf m) (x.drop (firstHit (tagOf m) x) ++ y)) := by
            rw [hfh, List.take_add, htake, hdrop]
          cases hh2 : (tagOf m).isPrefixOf ((x.drop (firstHit (tagOf m) x) ++ y).drop
              (firstHit (tagOf m) (x.drop (firstHit (tagOf m) x) ++ y))) with
          | true =>
            have hh3 : (tagOf m).isPrefixOf ((x ++ y).drop (firstHit (tagOf m) (x ++ y)))
                = true := by rw [hdd]; exact hh2
            have hd3 : (x ++ y).drop (firstHit (tagOf m) (x ++ y) + (tagOf m).length) =
                (x.drop (firstHit (tagOf m) x) ++ y).drop
                  (firstHit (tagOf m) (x.drop (firstHit (tagOf m) x) ++ y) +
                    (tagOf m).length) := by
              rw [← List.drop_drop, hdd, List.drop_drop]
            rw [scan_hit hxy hh3, scan_hit hry hh2, Trace.hold_seq_passTag, htt, hd3]
          | false =>
            have hh3 : (tagOf m).isPrefixOf ((x ++ y).drop (firstHit (tagOf m) (x ++ y)))
                = false := by rw [hdd]; exact hh2
            rw [scan_hold hxy hh3, scan_hold hry hh2, Trace.hold_seq_hold, htt, hdd]

/-- Scanning `x ++ y` is scanning `x` and then scanning what `x` left pending followed
by `y`. -/
theorem scan_append (m : Bool) (x y : GoString) :
    scan m (x ++ y) =
      Trace.seq (scan m x) (scan (scan m x).inThinking ((scan m x).pending ++ y)) :=
  scan_append_aux x.length m x y (le_refl _)

/-- The mode and pending bytes a scan ends with are at rest: scanning the pending
bytes alone releases nothing and keeps them pending. -/
theorem scan_rest (m : Bool) (x : GoString) :
    scan (scan m x).inThinking (scan m x).pending =
      Trace.idle (scan m x).inThinking (scan m x).pending := by
  have h := scan_append m x []
  rw [List.append_nil, List.append_nil] at h
  generalize scan (scan m x).inThinking (scan m x).pending = S at h ⊢
  generalize scan m x = T at h ⊢
  obtain ⟨t1, t2, t3, t4, ta, tc, t5, t6⟩ := T
  obtain ⟨s1, s2, s3, s4, sa, sc, s5, s6⟩ := S
  simp only [Trace.seq, Trace.mk.injEq] at h
  obtain ⟨h1, h2, h3, h4, ha, hc, h5, h6⟩ := h
  have e1 : s1 = [] := by simpa using h1
  have e2 : s2 = [] := by simpa using h2
  have e3 : s3 = 0 := by omega
  have e4 : s4 = 0 := by omega
  have ea : sa = [] := by
    rw [e4, if_pos rfl] at ha
    simpa using ha
  have ec : sc = [] := by
    rw [e4, if_pos rfl] at hc
    simpa using hc
  simp [Trace.idle, e1, e2, e3, e4, ea, ec, h5, h6]

theorem feedTrace_eq : ∀ (chunks : List GoString) (m : Bool) (p : GoString),
    scan m p = Trace.idle m p → feedTrace m p chunks = scan m (p ++ chunks.flatten)
  | [], m, p, h => by simp [feedTrace, h]
  | c :: cs, m, p, _ => by
    rw [feedTrace, feedTrace_eq cs _ _ (scan_rest m (p ++ c)), List.flatten_cons,
      ← List.append_assoc, ← scan_append]

theorem ProcessTextStreaming_spec (te : ThinkingExtractor) (rnd : RandSource)
    (text : GoString) :
    ∃ r te' rnd', ProcessTextStreaming te rnd text = some (r, te', rnd') ∧
      CallSpec te r te' (scan te.inThinkingBlock (te.buffer ++ text)) := by
  obtain ⟨st', h1, _, h3⟩ := processLoop_spec (te.buffer ++ text).length
    { te := { te with buffer := [] }, rnd := rnd, result := emptyResult,
      content := te.buffer ++ text } (te.buffer ++ text).length (le_refl _) (le_refl _)
  refine ⟨st'.result, st'.te, st'.rnd, ?_, ?_⟩
  · simp only [ProcessTextStreaming, ProcessTextStreamingFuel, h1, Option.map_some']
  · constructor
    · simpa [emptyResult] using h3.text
    · simpa [emptyResult] using h3.think
    · simpa [emptyResult] using h3.started
    · simpa [emptyResult] using h3.ended
    · simpa using h3.mode
    · simpa using h3.buffer
    · simpa [emptyResult] using h3.sigKeep
    · simpa [emptyResult] using h3.sigNew
    · simpa [emptyResult] using h3.hasPending
    · simpa using h3.acc
    · simpa using h3.sigOf

theorem feedChunks_spec : ∀ (chunks : List GoString) (te : ThinkingExtractor)
    (rnd : RandSource),
    ∃ rs te' rnd', feedChunks te rnd chunks = some (rs, te', rnd') ∧
      FeedSpec rs te' (feedTrace te.inThinkingBlock te.buffer chunks)
  | [], te, rnd => by
    refine ⟨[], te, rnd, rfl, ?_⟩
    constructor <;> simp [textOf, thinkingOf, feedTrace, Trace.idle]
  | c :: cs, te, rnd => by
    obtain ⟨r, te1, rnd1, hcall, hc⟩ := ProcessTextStreaming_spec te rnd c
    obtain ⟨rs, te2, rnd2, hfeed, hf⟩ := feedChunks_spec cs te1 rnd1
    refine ⟨r :: rs, te2, rnd2, ?_, ?_⟩
    · simp [feedChunks, hcall, hfeed]
    · rw [hc.mode, hc.buffer] at hf
      rw [feedTrace]
      constructor
      · simp [textOf, Trace.seq, hc.text, ← hf.text]
      · simp [thinkingOf, Trace.seq, hc.think, ← hf.think]
      · have := hf.startedLe
        simp only [List.countP_cons, hc.started, Trace.seq, decide_eq_true_eq]
        split <;> omega
      · intro h
        have := hf.startedPos
        simp only [List.countP_cons, hc.started, Trace.seq, decide_eq_true_eq] at h ⊢
        split <;> omega
      · have := hf.endedLe
        simp only [List.countP_cons, hc.ended, Trace.seq, decide_eq_true_eq]
        split <;> omega
      · intro h
        have := hf.endedPos
        simp only [List.countP_cons, hc.ended, Trace.seq, decide_eq_true_eq] at h ⊢
        split <;> omega
      · simp [Trace.seq, hf.mode]
      · simp [Trace.seq, hf.buffer]
      · intro h r' hr'
        simp only [Trace.seq] at h
        rcases List.mem_cons.mp hr' with rfl | hmem
        · exact hc.sigKeep (by omega)
        · exact hf.sigKeep (by omega) r' hmem

/-- Feeding any chunks to a fresh extractor amounts to scanning their concatenation
in one go. -/
theorem feedChunks_fresh (rnd : RandSource) (chunks : List GoString) :
    ∃ rs te' rnd', feedChunks NewThinkingExtractor rnd chunks = some (rs, te', rnd') ∧
      FeedSpec rs te' (scan false chunks.flatten) := by
  obtain ⟨rs, te', rnd', h1, h2⟩ := feedChunks_spec chunks NewThinkingExtractor rnd
  refine ⟨rs, te', rnd', h1, ?_⟩
  have := feedTrace_eq chunks false [] (scan_nil false)
  simp only [NewThinkingExtractor] at h2
  rwa [this, List.nil_append] at h2

/-! ## Scans of particular inputs -/

theorem isPrefixOf_false_of_absent {tag s : GoString} (h : ¬ tag <:+: s) (i : Nat) :
    tag.isPrefixOf (s.drop i) = false := by
  cases hq : tag.isPrefixOf (s.drop i) with
  | false => rfl
  | true =>
    exfalso
    exact h ((List.isPrefixOf_iff_prefix.mp hq).isInfix.trans (List.drop_suffix i s).isInfix)

theorem hold_nil (m : Bool) : Trace.hold m [] [] = Trace.idle m [] := by
  cases m <;> rfl

/-- Content without the awaited tag is released up to its first hit; the rest stays
pending. -/
theorem scan_of_not_infix {m : Bool} {s : GoString} (h : ¬ tagOf m <:+: s) :
    scan m s = Trace.hold m (s.take (firstHit (tagOf m) s)) (s.drop (firstHit (tagOf m) s)) := by
  by_cases hs : s = []
  · subst hs
    simp [scan_nil, firstHit, hold_nil]
  · exact scan_hold hs (isPrefixOf_false_of_absent h _)

theorem tagOf_cons (m : Bool) : ∃ tl, tagOf m = '<' :: tl ∧ '<' ∉ tl := by
  cases m
  · exact ⟨"thinking>".toList, by decide, by decide⟩
  · exact ⟨"/thinking>".toList, by decide, by decide⟩

/-- In `u ++ tag ++ rest` the first hit is the tag after `u`, when the tag does not
occur in `u` and the first byte of the tag does not occur again in the tag. -/
theorem firstHit_before_tag {h : Char} {tl u : GoString} (hno : h ∉ tl)
    (hu : ¬ (h :: tl) <:+: u) (rest : GoString) :
    firstHit (h :: tl) (u ++ ((h :: tl) ++ rest)) = u.length := by
  apply firstHit_eq
  · rw [List.drop_left]
    exact compat_of_isPrefixOf (List.isPrefixOf_iff_prefix.mpr (List.prefix_append _ _))
  · intro j hj
    rw [List.drop_append_of_le_length (by omega)]
    cases hq : compat (h :: tl) (u.drop j ++ ((h :: tl) ++ rest)) with
    | false => rfl
    | true =>
      exfalso
      have hv := compat_append_right _ hq
      by_cases hlen : (h :: tl).length ≤ (u.drop j).length
      · exact hu ((List.isPrefixOf_iff_prefix.mp (isPrefixOf_of_compat_of_le hv hlen)).isInfix.trans
          (List.drop_suffix j u).isInfix)
      · have hpre : (u.drop j).isPrefixOf (h :: tl) = true := by
          apply isPrefixOf_of_compat_of_le
          · rw [compat_comm]; exact hv
          · omega
        obtain ⟨z, hz⟩ := List.isPrefixOf_iff_prefix.mp hpre
        have hq2 : compat (u.drop j ++ z) (u.drop j ++ ((h :: tl) ++ rest)) = true := by
          rw [hz]; exact hq
        rw [compat_append_left] at hq2
        cases hv' : u.drop j with
        | nil =>
          have := congrArg List.length hv'
          simp only [List.length_drop, List.length_nil] at this
          omega
        | cons a v' =>
          rw [hv'] at hz
          cases z with
          | nil =>
            have := congrArg List.length hz
            rw [List.append_nil, ← hv'] at this
            omega
          | cons x z' =>
            simp only [List.cons_append, List.cons.injEq] at hz
            simp only [List.cons_append, compat, Bool.and_eq_true, decide_eq_true_eq] at hq2
            apply hno
            rw [← hz.2, ← hq2.1]
            simp

/-- Content that reaches the awaited tag after `u`, in which the tag does not occur:
`u` is released, the tag is passed, and the scan goes on in the other mode. -/
theorem scan_before_tag {m : Bool} {u : GoString} (hu : ¬ tagOf m <:+: u)
    (rest : GoString) :
    scan m (u ++ (tagOf m ++ rest)) = Trace.seq (Trace.passTag m u) (scan (!m) rest) := by
  obtain ⟨tl, htag, hno⟩ := tagOf_cons m
  have hfh : firstHit (tagOf m) (u ++ (tagOf m ++ rest)) = u.length := by
    rw [htag] at hu ⊢
    exact firstHit_before_tag hno hu rest
  have hne : u ++ (tagOf m ++ rest) ≠ [] := by
    rw [htag]; simp
  have hh : (tagOf m).isPrefixOf
      ((u ++ (tagOf m ++ rest)).drop (firstHit (tagOf m) (u ++ (tagOf m ++ rest)))) = true := by
    rw [hfh, List.drop_left]
    exact List.isPrefixOf_iff_prefix.mpr (List.prefix_append _ _)
  rw [scan_hit hne hh, hfh, List.take_left, ← List.drop_drop, List.drop_left, List.drop_left]

/-! ## The flush -/

theorem FlushStreaming_TextDelta (te : ThinkingExtractor) (rnd : RandSource) :
    (FlushStreaming te rnd).1.TextDelta = te.buffer := by
  cases hb : te.buffer with
  | nil => cases hm : te.inThinkingBlock <;> simp [FlushStreaming, hb, hm, emptyResult]
  | cons a b => cases hm : te.inThinkingBlock <;> simp [FlushStreaming, hb, hm, emptyResult]

theorem FlushStreaming_ThinkingDelta (te : ThinkingExtractor) (rnd : RandSource) :
    (FlushStreaming te rnd).1.ThinkingDelta = [] := by
  cases hb : te.buffer with
  | nil => cases hm : te.inThinkingBlock <;> simp [FlushStreaming, hb, hm, emptyResult]
  | cons a b => cases hm : te.inThinkingBlock <;> simp [FlushStreaming, hb, hm, emptyResult]

theorem FlushStreaming_ThinkingEnded (te : ThinkingExtractor) (rnd : RandSource) :
    (FlushStreaming te rnd).1.ThinkingEnded = te.inThinkingBlock := by
  cases hb : te.buffer with
  | nil => cases hm : te.inThinkingBlock <;> simp [FlushStreaming, hb, hm, emptyResult]
  | cons a b => cases hm : te.inThinkingBlock <;> simp [FlushStreaming, hb, hm, emptyResult]

theorem FlushStreaming_Signature (te : ThinkingExtractor) (rnd : RandSource) :
    (FlushStreaming te rnd).1.Signature =
      if te.inThinkingBlock then (generateSignature te rnd).1 else [] := by
  cases hb : te.buffer with
  | nil => cases hm : te.inThinkingBlock <;> simp [FlushStreaming, hb, hm, emptyResult]
  | cons a b => cases hm : te.inThinkingBlock <;> simp [FlushStreaming, hb, hm, emptyResult]

theorem FlushStreaming_extractor (te : ThinkingExtractor) (rnd : RandSource) :
    (FlushStreaming te rnd).2.1 = NewThinkingExtractor := by
  cases hb : te.buffer with
  | nil => cases hm : te.inThinkingBlock <;> simp [FlushStreaming, hb, hm, NewThinkingExtractor]
  | cons a b =>
    cases hm : te.inThinkingBlock <;> simp [FlushStreaming, hb, hm, NewThinkingExtractor]

/-- A whole stream on a fresh extractor amounts to scanning the concatenation of its
chunks in one go and flushing the extractor that leaves. -/
theorem runStream_spec (rnd : RandSource) (chunks : List GoString) :
    ∃ rs te rnd', feedChunks NewThinkingExtractor rnd chunks = some (rs, te, rnd') ∧
      runStream rnd chunks = some (rs, (FlushStreaming te rnd').1, NewThinkingExtractor) ∧
      FeedSpec rs te (scan false chunks.flatten) := by
  obtain ⟨rs, te, rnd', h1, h2⟩ := feedChunks_fresh rnd chunks
  refine ⟨rs, te, rnd', h1, ?_, h2⟩
  simp [runStream, h1, FlushStreaming_extractor]

theorem feedChunks_length : ∀ (chunks : List GoString) (te : ThinkingExtractor)
    (rnd : RandSource) (rs : List StreamingExtractResult) (te' : ThinkingExtractor)
    (rnd' : RandSource), feedChunks te rnd chunks = some (rs, te', rnd') →
    rs.length = chunks.length
  | [], te, rnd, rs, te', rnd', h => by
    simp only [feedChunks, Option.some.injEq, Prod.mk.injEq] at h
    rw [← h.1]; rfl
  | c :: cs, te, rnd, rs, te', rnd', h => by
    simp only [feedChunks] at h
    cases hc : ProcessTextStreaming te rnd c with
    | none => rw [hc] at h; cases h
    | some out =>
      rw [hc, Option.some_bind] at h
      cases hf : feedChunks out.2.1 out.2.2 cs with
      | none => rw [hf] at h; cases h
      | some later =>
        rw [hf, Option.map_some', Option.some.injEq, Prod.mk.injEq] at h
        have := feedChunks_length cs _ _ later.1 later.2.1 later.2.2 (by rw [hf])
        rw [← h.1, List.length_cons, List.length_cons, this]

/-! ## The claims about the streaming extractor -/

/-- C1, chunking invariance: two ways of splitting the same input into chunks, each
fed in order to a fresh extractor and followed by `FlushStreaming`, give the same
concatenation of all `TextDelta` values, the flush's included, and the same
concatenation of all `ThinkingDelta` values. -/
theorem chunking_invariance (s : GoString) (chunksA chunksB : List GoString)
    (rndA rndB : RandSource) (hA : chunksA.flatten = s) (hB : chunksB.flatten = s) :
    ∃ rsA flA teA rsB flB teB,
      runStream rndA chunksA = some (rsA, flA, teA) ∧
      runStream rndB chunksB = some (rsB, flB, teB) ∧
      textOf rsA ++ flA.TextDelta = textOf rsB ++ flB.TextDelta ∧
      thinkingOf rsA ++ flA.ThinkingDelta = thinkingOf rsB ++ flB.ThinkingDelta := by
  obtain ⟨rsA, teA, rA, _, hrunA, hspecA⟩ := runStream_spec rndA chunksA
  obtain ⟨rsB, teB, rB, _, hrunB, hspecB⟩ := runStream_spec rndB chunksB
  rw [hA] at hspecA
  rw [hB] at hspecB
  refine ⟨rsA, _, _, rsB, _, _, hrunA, hrunB, ?_, ?_⟩
  · rw [FlushStreaming_TextDelta, FlushStreaming_TextDelta, hspecA.text, hspecB.text,
      hspecA.buffer, hspecB.buffer]
  · rw [FlushStreaming_ThinkingDelta, FlushStreaming_ThinkingDelta, hspecA.think,
      hspecB.think]

/-- The chunking invariance at `"<thinking>hello</thinking>world"`, fed whole and fed
as `"<thi"`, `"nking>hello</thi"`, `"nking>world"`. -/
theorem chunking_invariance_witness :
    ["<thinking>hello</thinking>world".toList].flatten
        = "<thinking>hello</thinking>world".toList ∧
      ["<thi".toList, "nking>hello</thi".toList, "nking>world".toList].flatten
        = "<thinking>hello</thinking>world".toList ∧
      ∃ rsA flA teA rsB flB teB,
        runStream (fun _ => 0) ["<thinking>hello</thinking>world".toList]
          = some (rsA, flA, teA) ∧
        runStream (fun i => i)
            ["<thi".toList, "nking>hello</thi".toList, "nking>world".toList]
          = some (rsB, flB, teB) ∧
        textOf rsA ++ flA.TextDelta = textOf rsB ++ flB.TextDelta ∧
        thinkingOf rsA ++ flA.ThinkingDelta = thinkingOf rsB ++ flB.ThinkingDelta :=
  ⟨by decide, by decide,
    chunking_invariance "<thinking>hello</thinking>world".toList _ _ _ _
      (by decide) (by decide)⟩

theorem countP_eq_one_of {rs : List StreamingExtractResult}
    {f : StreamingExtractResult → Bool} (hle : rs.countP f ≤ 1) (hpos : 0 < rs.countP f) :
    rs.countP f = 1 := by
  omega

/-- C2, single-block reconstruction: for `p` and `q` without `"<thinking>"` and `t`
without `"</thinking>"`, the input `p ++ "<thinking>" ++ t ++ "</thinking>" ++ q`, fed
to a fresh extractor under any chunking and flushed, gives aggregate thinking `t`,
aggregate text `p ++ q`, exactly one call with `ThinkingStarted`, exactly one with
`ThinkingEnded`, and a flush with `ThinkingEnded = false`. -/
theorem single_block_reconstruction (p t q : GoString) (chunks : List GoString)
    (rnd : RandSource) (hp : ¬ openTag <:+: p) (hq : ¬ openTag <:+: q)
    (ht : ¬ closeTag <:+: t)
    (hs : chunks.flatten = p ++ (openTag ++ (t ++ (closeTag ++ q)))) :
    ∃ rs fl te', runStream rnd chunks = some (rs, fl, te') ∧
      thinkingOf rs ++ fl.ThinkingDelta = t ∧
      textOf rs ++ fl.TextDelta = p ++ q ∧
      rs.countP (fun r => r.ThinkingStarted) = 1 ∧
      rs.countP (fun r => r.ThinkingEnded) = 1 ∧
      fl.ThinkingEnded = false := by
  obtain ⟨rs, te, rnd', _, hrun, hspec⟩ := runStream_spec rnd chunks
  have hscan : scan false (p ++ (openTag ++ (t ++ (closeTag ++ q)))) =
      Trace.seq (Trace.passTag false p) (Trace.seq (Trace.passTag true t)
        (Trace.hold false (q.take (firstHit openTag q)) (q.drop (firstHit openTag q)))) := by
    have h1 := scan_before_tag (m := false) hp (t ++ (closeTag ++ q))
    have h2 := scan_before_tag (m := true) ht q
    have h3 := scan_of_not_infix (m := false) hq
    simp only [tagOf, if_true, if_false, Bool.not_true, Bool.not_false, Bool.false_eq_true]
      at h1 h2 h3
    rw [h1, h2, h3]
  rw [hs, hscan] at hspec
  refine ⟨rs, _, _, hrun, ?_, ?_, ?_, ?_, ?_⟩
  · rw [FlushStreaming_ThinkingDelta, hspec.think]
    simp [Trace.seq, Trace.passTag, Trace.hold]
  · rw [FlushStreaming_TextDelta, hspec.text, hspec.buffer]
    simp [Trace.seq, Trace.passTag, Trace.hold]
  · have h1 := hspec.startedLe
    have h2 := hspec.startedPos
    simp only [Trace.seq, Trace.passTag, Trace.hold, Bool.false_eq_true, if_false, if_true]
      at h1 h2
    exact countP_eq_one_of h1 (h2 (by omega))
  · have h1 := hspec.endedLe
    have h2 := hspec.endedPos
    simp only [Trace.seq, Trace.passTag, Trace.hold, Bool.false_eq_true, if_false, if_true]
      at h1 h2
    exact countP_eq_one_of h1 (h2 (by omega))
  · rw [FlushStreaming_ThinkingEnded, hspec.mode]
    rfl

/-- The single-block reconstruction at `"<thinking>hello</thinking>world"` fed as
`"<thi"`, `"nking>hello</thi"`, `"nking>world"`: thinking `"hello"`, text `"world"`. -/
theorem single_block_reconstruction_witness :
    ∃ rs fl te',
      runStream (fun i => i) ["<thi".toList, "nking>hello</thi".toList, "nking>world".toList]
        = some (rs, fl, te') ∧
      thinkingOf rs ++ fl.ThinkingDelta = "hello".toList ∧
      textOf rs ++ fl.TextDelta = [] ++ "world".toList ∧
      rs.countP (fun r => r.ThinkingStarted) = 1 ∧
      rs.countP (fun r => r.ThinkingEnded) = 1 ∧
      fl.ThinkingEnded = false :=
  single_block_reconstruction [] "hello".toList "world".toList
    ["<thi".toList, "nking>hello</thi".toList, "nking>world".toList] (fun i => i)
    (by decide) (by decide) (by decide) (by decide)

theorem absent_of_initial {tag a b : GoString} (h : ¬ tag <:+: b) (hab : a <+: b) :
    ¬ tag <:+: a :=
  fun hi => h (hi.trans hab.isInfix)

theorem flatten_take_initial (chunks : List GoString) (k : Nat) :
    (chunks.take k).flatten <+: chunks.flatten := by
  conv_rhs => rw [← List.take_append_drop k chunks, List.flatten_append]
  exact List.prefix_append _ _

/-- C3, no open tag, no thinking: when the input contains no `"<thinking>"`, then
under any chunking, after any number `k` of the chunks fed to a fresh extractor, there
has been one result per chunk fed, each with `ThinkingStarted = false`,
`ThinkingEnded = false`, `ThinkingDelta = ""` and `Signature = ""`, and the extractor
is not in a thinking block. -/
theorem no_open_tag_no_thinking (chunks : List GoString) (rnd : RandSource)
    (h : ¬ openTag <:+: chunks.flatten) (k : Nat) :
    ∃ rs te' rnd', feedChunks NewThinkingExtractor rnd (chunks.take k) = some (rs, te', rnd') ∧
      rs.length = (chunks.take k).length ∧
      IsInThinkingBlock te' = false ∧
      ∀ r ∈ rs, r.ThinkingStarted = false ∧ r.ThinkingEnded = false ∧
        r.ThinkingDelta = [] ∧ r.Signature = [] := by
  obtain ⟨rs, te, rnd', hfeed, hspec⟩ := feedChunks_fresh rnd (chunks.take k)
  have hno := absent_of_initial h (flatten_take_initial chunks k)
  have hscan := scan_of_not_infix (m := false) hno
  simp only [tagOf, if_false, Bool.false_eq_true] at hscan
  rw [hscan] at hspec
  refine ⟨rs, te, rnd', hfeed, feedChunks_length _ _ _ _ _ _ hfeed, ?_, ?_⟩
  · rw [IsInThinkingBlock, hspec.mode]; rfl
  · intro r hr
    have hst : rs.countP (fun r => r.ThinkingStarted) = 0 :=
      Nat.le_zero.mp hspec.startedLe
    have hen : rs.countP (fun r => r.ThinkingEnded) = 0 :=
      Nat.le_zero.mp hspec.endedLe
    have hth : thinkingOf rs = [] := hspec.think
    refine ⟨?_, ?_, ?_, hspec.sigKeep rfl r hr⟩
    · have := (List.countP_eq_zero.mp hst) r hr
      simpa using this
    · have := (List.countP_eq_zero.mp hen) r hr
      simpa using this
    · simp only [thinkingOf, List.flatten_eq_nil_iff, List.mem_map, forall_exists_index,
        and_imp, forall_apply_eq_imp_iff₂] at hth
      exact hth r hr

/-- The claim C3 at `"a </thinking> b"`, a stray close tag, fed as `"a </thi"`,
`"nking> b"`. -/
theorem no_open_tag_no_thinking_witness :
    ¬ openTag <:+: ["a </thi".toList, "nking> b".toList].flatten ∧
    ∃ rs te' rnd',
      feedChunks NewThinkingExtractor (fun _ => 0)
        (["a </thi".toList, "nking> b".toList].take 2) = some (rs, te', rnd') ∧
      rs.length = (["a </thi".toList, "nking> b".toList].take 2).length ∧
      IsInThinkingBlock te' = false ∧
      ∀ r ∈ rs, r.ThinkingStarted = false ∧ r.ThinkingEnded = false ∧
        r.ThinkingDelta = [] ∧ r.Signature = [] :=
  ⟨by decide,
    no_open_tag_no_thinking ["a </thi".toList, "nking> b".toList] (fun _ => 0) (by decide) 2⟩

/-- C4, pending bytes are never dropped at end of stream: when the input contains no
`"<thinking>"`, then under any chunking the `TextDelta` of every call in order,
followed by the `TextDelta` of `FlushStreaming`, is the input, and the flush has an
empty `ThinkingDelta`. -/
theorem pending_never_dropped (chunks : List GoString) (rnd : RandSource)
    (h : ¬ openTag <:+: chunks.flatten) :
    ∃ rs fl te', runStream rnd chunks = some (rs, fl, te') ∧
      textOf rs ++ fl.TextDelta = chunks.flatten ∧ fl.ThinkingDelta = [] := by
  obtain ⟨rs, te, rnd', _, hrun, hspec⟩ := runStream_spec rnd chunks
  have hscan := scan_of_not_infix (m := false) h
  simp only [tagOf, if_false, Bool.false_eq_true] at hscan
  rw [hscan] at hspec
  refine ⟨rs, _, _, hrun, ?_, FlushStreaming_ThinkingDelta _ _⟩
  rw [FlushStreaming_TextDelta, hspec.text, hspec.buffer]
  simp [Trace.hold]

/-- The claim C4 at `"hello <thi"`: `"hello "` while streaming and `"<thi"` from the
flush. -/
theorem pending_never_dropped_witness :
    ¬ openTag <:+: ["hello <thi".toList].flatten ∧
    (∃ rs fl te', runStream (fun _ => 0) ["hello <thi".toList] = some (rs, fl, te') ∧
      textOf rs ++ fl.TextDelta = ["hello <thi".toList].flatten ∧ fl.ThinkingDelta = []) ∧
    (runStream (fun _ => 0) ["hello <thi".toList]).map
        (fun out => (textOf out.1, out.2.1.TextDelta))
      = some ("hello ".toList, "<thi".toList) :=
  ⟨by decide, pending_never_dropped ["hello <thi".toList] (fun _ => 0) (by decide),
    by decide⟩

/-- What stays pending of content without the awaited tag is empty when the content
does not end with a non-empty proper prefix of the tag. -/
theorem hold_nothing {tag s : GoString} (h : ¬ tag <:+: s)
    (hend : ∀ k, 1 ≤ k → k < tag.length → ¬ tag.take k <:+ s) :
    s.drop (firstHit tag s) = [] ∧ s.take (firstHit tag s) = s := by
  have hh := isPrefixOf_false_of_absent h (firstHit tag s)
  have hlt := hold_length_lt hh
  have hpre := List.isPrefixOf_iff_prefix.mp (hold_isPrefixOf hh)
  have hle := firstHit_le tag s
  have hall : firstHit tag s = s.length := by
    by_contra hne
    apply hend (s.length - firstHit tag s) (by omega) hlt
    have := List.prefix_iff_eq_take.mp hpre
    rw [List.length_drop] at this
    rw [← this]
    exact List.drop_suffix _ _
  rw [hall]
  simp

/-- The pending piece of content without the awaited tag is a proper prefix of it. -/
theorem hold_proper_piece {tag s : GoString} (h : ¬ tag <:+: s) :
    s.drop (firstHit tag s) <+: tag ∧ (s.drop (firstHit tag s)).length < tag.length := by
  have hh := isPrefixOf_false_of_absent h (firstHit tag s)
  have hlt := hold_length_lt hh
  refine ⟨List.isPrefixOf_iff_prefix.mp (hold_isPrefixOf hh), ?_⟩
  rw [List.length_drop]; exact hlt

/-- Counterexample to C5 as worded: `"hello <thi"` contains neither tag, and fed whole
to a fresh extractor the `TextDelta` values of the calls make `"hello "`, not the
input. -/
theorem no_tag_text_without_flush_counterexample :
    ¬ openTag <:+: ["hello <thi".toList].flatten ∧
    ¬ closeTag <:+: ["hello <thi".toList].flatten ∧
    (feedChunks NewThinkingExtractor (fun _ => 0) ["hello <thi".toList]).map
        (fun out => textOf out.1) = some "hello ".toList ∧
    "hello ".toList ≠ ["hello <thi".toList].flatten := by
  decide

/-- C5 amended: when the input contains neither tag, then under any chunking the
`TextDelta` values of the calls, followed by the bytes left in the pending buffer, make
the input; the pending buffer is a proper prefix of `"<thinking>"`; and the `TextDelta`
values alone make the input when it does not end with a non-empty proper prefix of
`"<thinking>"`. -/
theorem no_tag_text_without_flush (chunks : List GoString) (rnd : RandSource)
    (ho : ¬ openTag <:+: chunks.flatten) (_hc : ¬ closeTag <:+: chunks.flatten) :
    ∃ rs te' rnd', feedChunks NewThinkingExtractor rnd chunks = some (rs, te', rnd') ∧
      textOf rs ++ te'.buffer = chunks.flatten ∧
      te'.buffer <+: openTag ∧ te'.buffer.length < openTag.length ∧
      ((∀ k, 1 ≤ k → k < openTag.length → ¬ openTag.take k <:+ chunks.flatten) →
        textOf rs = chunks.flatten) := by
  obtain ⟨rs, te, rnd', hfeed, hspec⟩ := feedChunks_fresh rnd chunks
  have hscan := scan_of_not_infix (m := false) ho
  simp only [tagOf, if_false, Bool.false_eq_true] at hscan
  rw [hscan] at hspec
  have htext : textOf rs = chunks.flatten.take (firstHit openTag chunks.flatten) := hspec.text
  have hbuf : te.buffer = chunks.flatten.drop (firstHit openTag chunks.flatten) := hspec.buffer
  refine ⟨rs, te, rnd', hfeed, ?_, ?_, ?_, ?_⟩
  · rw [htext, hbuf, List.take_append_drop]
  · rw [hbuf]; exact (hold_proper_piece ho).1
  · rw [hbuf]; exact (hold_proper_piece ho).2
  · intro hend
    rw [htext, (hold_nothing ho hend).2]

/-- The amended C5 at `"hello <thi"` fed one byte at a time, and at `"hello"`, which
does not end with a piece of the open tag. -/
theorem no_tag_text_without_flush_witness :
    (¬ openTag <:+: ("hello <thi".toList.map fun c => [c]).flatten) ∧
    (¬ closeTag <:+: ("hello <thi".toList.map fun c => [c]).flatten) ∧
    (∃ rs te' rnd',
      feedChunks NewThinkingExtractor (fun _ => 0) ("hello <thi".toList.map fun c => [c])
        = some (rs, te', rnd') ∧
      textOf rs ++ te'.buffer = ("hello <thi".toList.map fun c => [c]).flatten ∧
      te'.buffer <+: openTag ∧ te'.buffer.length < openTag.length ∧
      ((∀ k, 1 ≤ k → k < openTag.length →
          ¬ openTag.take k <:+ ("hello <thi".toList.map fun c => [c]).flatten) →
        textOf rs = ("hello <thi".toList.map fun c => [c]).flatten)) ∧
    (∃ rs, (feedChunks NewThinkingExtractor (fun _ => 0) ["hello".toList]).map
        (fun out => out.1) = some rs ∧ textOf rs = "hello".toList) :=
  ⟨by decide, by decide,
    no_tag_text_without_flush ("hello <thi".toList.map fun c => [c]) (fun _ => 0)
      (by decide) (by decide),
    by
      obtain ⟨rs, te', rnd', h1, _, _, _, h5⟩ :=
        no_tag_text_without_flush ["hello".toList] (fun _ => 0) (by decide) (by decide)
      exact ⟨rs, by rw [h1]; rfl, h5 (by decide)⟩⟩

/-- C6, unterminated block at end of stream: for `t` without `"</thinking>"` that does
not end with a non-empty proper prefix of `"</thinking>"`, the input
`"<thinking>" ++ t`, fed to a fresh extractor under any chunking and flushed, gives
exactly one call with `ThinkingStarted`, no call with `ThinkingEnded`, aggregate
thinking `t`, and a flush with `ThinkingEnded = true` and a non-empty `Signature`;
afterwards the extractor is not in a thinking block. -/
theorem unterminated_block (t : GoString) (chunks : List GoString) (rnd : RandSource)
    (ht : ¬ closeTag <:+: t)
    (hend : ∀ k, 1 ≤ k → k < closeTag.length → ¬ closeTag.take k <:+ t)
    (hs : chunks.flatten = openTag ++ t) :
    ∃ rs fl te', runStream rnd chunks = some (rs, fl, te') ∧
      rs.countP (fun r => r.ThinkingStarted) = 1 ∧
      (∀ r ∈ rs, r.ThinkingEnded = false) ∧
      thinkingOf rs = t ∧
      fl.ThinkingEnded = true ∧ fl.Signature ≠ [] ∧
      IsInThinkingBlock te' = false := by
  obtain ⟨rs, te, rnd', _, hrun, hspec⟩ := runStream_spec rnd chunks
  have hscan : scan false (openTag ++ t) =
      Trace.seq (Trace.passTag false []) (Trace.hold true t []) := by
    have hnil : ¬ tagOf false <:+: [] := by
      rw [List.infix_nil]; decide
    have h1 := scan_before_tag (m := false) hnil (t ++ [])
    have h2 := scan_of_not_infix (m := true) ht
    simp only [tagOf, if_true, if_false, Bool.not_false, Bool.false_eq_true,
      List.nil_append, List.append_nil] at h1 h2
    rw [h1, h2, (hold_nothing ht hend).1, (hold_nothing ht hend).2]
  rw [hs, hscan] at hspec
  have hmode : te.inThinkingBlock = true := hspec.mode
  refine ⟨rs, _, _, hrun, ?_, ?_, ?_, ?_, ?_, rfl⟩
  · have h1 := hspec.startedLe
    have h2 := hspec.startedPos
    simp only [Trace.seq, Trace.passTag, Trace.hold, Bool.false_eq_true, if_false, if_true]
      at h1 h2
    exact countP_eq_one_of h1 (h2 (by omega))
  · intro r hr
    have hen : rs.countP (fun r => r.ThinkingEnded) = 0 := Nat.le_zero.mp hspec.endedLe
    have := (List.countP_eq_zero.mp hen) r hr
    simpa using this
  · rw [hspec.think]
    simp [Trace.seq, Trace.passTag, Trace.hold]
  · rw [FlushStreaming_ThinkingEnded, hmode]
  · rw [FlushStreaming_Signature, hmode, if_pos rfl]
    exact generateSignature_ne_nil _ _

/-- The claim C6 at `"<thinking>partial"` fed as `"<think"`, `"ing>par"`, `"tial"`. -/
theorem unterminated_block_witness :
    ∃ rs fl te',
      runStream (fun _ => 0) ["<think".toList, "ing>par".toList, "tial".toList]
        = some (rs, fl, te') ∧
      rs.countP (fun r => r.ThinkingStarted) = 1 ∧
      (∀ r ∈ rs, r.ThinkingEnded = false) ∧
      thinkingOf rs = "partial".toList ∧
      fl.ThinkingEnded = true ∧ fl.Signature ≠ [] ∧
      IsInThinkingBlock te' = false :=
  unterminated_block "partial".toList ["<think".toList, "ing>par".toList, "tial".toList]
    (fun _ => 0) (by decide) (by decide) (by decide)

/-! ## The signature length -/

theorem base64StdEncode_length : ∀ (l : List Nat),
    (base64StdEncode l).length = 4 * ((l.length + 2) / 3)
  | [] => rfl
  | [_] => by simp [base64StdEncode]
  | [_, _] => by simp [base64StdEncode]
  | _ :: _ :: _ :: rest => by
    simp only [base64StdEncode, List.length_cons, base64StdEncode_length rest]
    omega

theorem randRead_byte (rnd : RandSource) (n : Nat) : ∀ b ∈ (randRead rnd n).1, b < 256 := by
  intro b hb
  simp only [randRead, List.mem_map, List.mem_range] at hb
  obtain ⟨i, _, rfl⟩ := hb
  exact Nat.mod_lt _ (by decide)

theorem wrapInt_of_inRange {x : Int} (h1 : -2 ^ 63 ≤ x) (h2 : x ≤ 2 ^ 63 - 1) :
    wrapInt x = x := by
  unfold wrapInt
  rw [Int.emod_eq_of_lt (by omega) (by omega)]
  omega

/-- Counterexample to C7 as worded: the content length `2 ^ 62` is a non-negative Go
`int`, the claimed number of bytes is `clamp(2 ^ 62 * 3 / 2, 200, 1000) = 1000`, but
the product `contentLen * 3` wraps to a negative `int`, so `GenerateFakeSignature`
encodes 200 bytes, and no sequence of 1000 bytes has that encoding. -/
theorem signature_length_law_counterexample :
    (0 : Int) ≤ 2 ^ 62 ∧ (2 ^ 62 : Int) ≤ 2 ^ 63 - 1 ∧
    clampInt ((2 ^ 62 : Int) * 3 / 2) 200 1000 = 1000 ∧
    (GenerateFakeSignature (2 ^ 62) (fun _ => 0)).1
      = base64StdEncode (randRead (fun _ => 0) 200).1 ∧
    ¬ ∃ bytes : List Nat, bytes.length = 1000 ∧
      (GenerateFakeSignature (2 ^ 62) (fun _ => 0)).1 = base64StdEncode bytes := by
  have hsig : (GenerateFakeSignature (2 ^ 62) (fun _ => 0)).1
      = base64StdEncode (randRead (fun _ => 0) 200).1 := by
    have hw : wrapInt ((2 ^ 62 : Int) * 3) = -2 ^ 62 := by decide
    have hd : (-2 ^ 62 : Int).tdiv 2 = -2 ^ 61 := by decide
    simp only [GenerateFakeSignature, hw, hd]
    rfl
  refine ⟨by decide, by decide, by decide, hsig, ?_⟩
  rintro ⟨bytes, hlen, heq⟩
  have h1 := congrArg List.length heq
  rw [hsig, base64StdEncode_length, base64StdEncode_length, randRead_length, hlen] at h1
  omega

/-- C7 amended: for every content length `contentLen` with `0 ≤ contentLen` and
`contentLen * 3 ≤ 2 ^ 63 - 1`, so that the product does not overflow a Go `int`, and
whatever bytes the random source delivers, `GenerateFakeSignature(contentLen)` is the
padded standard base64 encoding of the first `clamp(contentLen * 3 / 2, 200, 1000)`
bytes drawn, which are that many bytes. -/
theorem signature_length_law (contentLen : Int) (rnd : RandSource) (h0 : 0 ≤ contentLen)
    (hmax : contentLen * 3 ≤ 2 ^ 63 - 1) :
    (GenerateFakeSignature contentLen rnd).1 =
        base64StdEncode (randRead rnd (clampInt (contentLen * 3 / 2) 200 1000).toNat).1 ∧
      ((randRead rnd (clampInt (contentLen * 3 / 2) 200 1000).toNat).1.length : Int) =
        clampInt (contentLen * 3 / 2) 200 1000 ∧
      ∀ b ∈ (randRead rnd (clampInt (contentLen * 3 / 2) 200 1000).toNat).1, b < 256 := by
  have hw : wrapInt (contentLen * 3) = contentLen * 3 :=
    wrapInt_of_inRange (by omega) hmax
  have hd : (contentLen * 3).tdiv 2 = contentLen * 3 / 2 :=
    Int.tdiv_eq_ediv (by omega) (by omega)
  have hclamp : (if (if contentLen * 3 / 2 < 200 then (200 : Int) else contentLen * 3 / 2) > 1000
      then (1000 : Int) else (if contentLen * 3 / 2 < 200 then 200 else contentLen * 3 / 2))
      = clampInt (contentLen * 3 / 2) 200 1000 := by
    unfold clampInt
    split_ifs <;> omega
  refine ⟨?_, ?_, randRead_byte _ _⟩
  · simp only [GenerateFakeSignature, hw, hd, hclamp]
  · rw [randRead_length]
    unfold clampInt
    omega

/-- The amended C7 at the content lengths 0, 100, 530 and 800: 200, 200, 795 and 1000
bytes are encoded. -/
theorem signature_length_law_witness :
    (GenerateFakeSignature 0 (fun i => i)).1
      = base64StdEncode (randRead (fun i => i) 200).1 ∧
    (GenerateFakeSignature 100 (fun i => i)).1
      = base64StdEncode (randRead (fun i => i) 200).1 ∧
    (GenerateFakeSignature 530 (fun i => i)).1
      = base64StdEncode (randRead (fun i => i) 795).1 ∧
    (GenerateFakeSignature 800 (fun i => i)).1
      = base64StdEncode (randRead (fun i => i) 1000).1 :=
  ⟨(signature_length_law 0 (fun i => i) (by decide) (by decide)).1,
   (signature_length_law 100 (fun i => i) (by decide) (by decide)).1,
   (signature_length_law 530 (fun i => i) (by decide) (by decide)).1,
   (signature_length_law 800 (fun i => i) (by decide) (by decide)).1⟩

/-! ## The batch extractor as the scan of the specification -/

theorem firstOccurrence_some {sub s : GoString} {i : Nat}
    (h : firstOccurrence sub s = some i) :
    sub.isPrefixOf (s.drop i) = true ∧ ∀ k, k < i → sub.isPrefixOf (s.drop k) = false := by
  induction s generalizing i with
  | nil =>
    simp only [firstOccurrence] at h
    split at h
    · cases h
      rename_i hp
      exact ⟨by simpa using hp, fun k hk => by omega⟩
    · cases h
  | cons a s ih =>
    simp only [firstOccurrence] at h
    split at h
    · cases h
      rename_i hp
      exact ⟨by simpa using hp, fun k hk => by omega⟩
    · rename_i hp
      cases hq : firstOccurrence sub s with
      | none => rw [hq] at h; cases h
      | some j =>
        rw [hq] at h
        simp only [Option.map_some', Option.some.injEq] at h
        subst h
        obtain ⟨h1, h2⟩ := ih hq
        refine ⟨by simpa using h1, ?_⟩
        intro k hk
        cases k with
        | zero => simpa only [List.drop_zero, Bool.not_eq_true] using hp
        | succ k => simpa using h2 k (by omega)

theorem firstOccurrence_none {sub s : GoString} (h : firstOccurrence sub s = none) (k : Nat) :
    sub.isPrefixOf (s.drop k) = false := by
  induction s generalizing k with
  | nil =>
    simp only [firstOccurrence] at h
    split at h
    · cases h
    · rename_i hp
      simpa only [List.drop_nil, Bool.not_eq_true] using hp
  | cons a s ih =>
    simp only [firstOccurrence] at h
    split at h
    · cases h
    · rename_i hp
      cases hq : firstOccurrence sub s with
      | some j => rw [hq] at h; cases h
      | none =>
        cases k with
        | zero => simpa only [List.drop_zero, Bool.not_eq_true] using hp
        | succ k => simpa using ih hq k

theorem firstOccurrence_none_drop {sub s : GoString} (h : firstOccurrence sub s = none)
    (d : Nat) : firstOccurrence sub (s.drop d) = none := by
  cases hq : firstOccurrence sub (s.drop d) with
  | none => rfl
  | some j =>
    have h1 := (firstOccurrence_some hq).1
    rw [List.drop_drop] at h1
    rw [firstOccurrence_none h] at h1
    cases h1

theorem firstOccurrence_none_of_absent {sub s : GoString} (h : ¬ sub <:+: s) :
    firstOccurrence sub s = none := by
  cases hq : firstOccurrence sub s with
  | none => rfl
  | some j =>
    have h1 := (firstOccurrence_some hq).1
    rw [isPrefixOf_false_of_absent h] at h1
    cases h1

theorem regexFindAllFrom_skip : ∀ (s : GoString) (k : Nat),
    regexFindAllFrom s k = regexFindAllFrom (s.drop k) 0
  | [], k => by simp [regexFindAllFrom]
  | _ :: _, 0 => rfl
  | _ :: s, k + 1 => by
    rw [regexFindAllFrom, List.drop_succ_cons]
    exact regexFindAllFrom_skip s k

theorem regexReplaceAllFrom_skip : ∀ (s : GoString) (k : Nat),
    regexReplaceAllFrom s k = regexReplaceAllFrom (s.drop k) 0
  | [], k => by simp [regexReplaceAllFrom]
  | _ :: _, 0 => rfl
  | _ :: s, k + 1 => by
    rw [regexReplaceAllFrom, List.drop_succ_cons]
    exact regexReplaceAllFrom_skip s k

/-- Positions at which the pattern does not match are passed over: nothing is found
there and their bytes are kept. -/
theorem regex_pass : ∀ (i : Nat) (s : GoString), i ≤ s.length →
    (∀ k, k < i → matchPattern (s.drop k) = none) →
    regexFindAllFrom s 0 = regexFindAllFrom (s.drop i) 0 ∧
      regexReplaceAllFrom s 0 = s.take i ++ regexReplaceAllFrom (s.drop i) 0
  | 0, s, _, _ => by simp
  | i + 1, [], h, _ => by simp at h
  | i + 1, c :: s, h, hall => by
    have h0 : matchPattern (c :: s) = none := by simpa using hall 0 (by omega)
    have ih := regex_pass i s (by simpa using h)
      (fun k hk => by simpa using hall (k + 1) (by omega))
    simp only [regexFindAllFrom, regexReplaceAllFrom, h0, List.drop_succ_cons,
      List.take_succ_cons, List.cons_append]
    exact ⟨ih.1, by rw [ih.2]⟩

theorem matchLazyGroup_eq : ∀ (s : GoString),
    matchLazyGroup s =
      (firstOccurrence closeTag s).map fun j => (s.take j, j + closeTag.length)
  | [] => by
    have : closeTag.isPrefixOf [] = false := by decide
    simp [matchLazyGroup, firstOccurrence, this]
  | c :: s => by
    by_cases hp : closeTag.isPrefixOf (c :: s) = true
    · simp [matchLazyGroup, firstOccurrence, hp]
    · simp only [matchLazyGroup, firstOccurrence, hp, if_false, Bool.false_eq_true,
        matchLazyGroup_eq s, Option.map_map]
      cases firstOccurrence closeTag s with
      | none => rfl
      | some j => simp [Nat.add_right_comm]

theorem matchPattern_none_of_not_open {s : GoString} (h : openTag.isPrefixOf s = false) :
    matchPattern s = none := by
  simp [matchPattern, h]

theorem matchPattern_none_of_not_close {s : GoString}
    (h : firstOccurrence closeTag (s.drop openTag.length) = none) :
    matchPattern s = none := by
  simp only [matchPattern, matchLazyGroup_eq, h, Option.map_none']
  split <;> rfl

theorem matchPattern_some {s : GoString} {j : Nat} (ho : openTag.isPrefixOf s = true)
    (h : firstOccurrence closeTag (s.drop openTag.length) = some j) :
    matchPattern s =
      some ((s.drop openTag.length).take j, openTag.length + (j + closeTag.length)) := by
  simp [matchPattern, matchLazyGroup_eq, h, ho]

theorem specExtract_of_no_open {s : GoString} (h : firstOccurrence openTag s = none) :
    specExtract s = ([], s) := by
  rw [specExtract]
  split
  · rfl
  · rename_i i hi
    rw [h] at hi; cases hi

theorem specExtract_of_no_close {s : GoString} {i : Nat}
    (h : firstOccurrence openTag s = some i)
    (hc : firstOccurrence closeTag (s.drop (i + openTag.length)) = none) :
    specExtract s = ([], s) := by
  rw [specExtract]
  split
  · rfl
  · rename_i i' hi
    rw [h] at hi
    cases hi
    simp only [hc]

theorem specExtract_of_span {s : GoString} {i j : Nat}
    (h : firstOccurrence openTag s = some i)
    (hc : firstOccurrence closeTag (s.drop (i + openTag.length)) = some j) :
    specExtract s =
      ((s.drop (i + openTag.length)).take j ::
          (specExtract (s.drop (i + openTag.length + j + closeTag.length))).1,
        s.take i ++ (specExtract (s.drop (i + openTag.length + j + closeTag.length))).2) := by
  rw [specExtract]
  split
  · rename_i hn
    rw [h] at hn; cases hn
  · rename_i i' hi
    rw [h] at hi
    cases hi
    simp only [hc]

theorem regex_no_match {s : GoString} (hall : ∀ k, matchPattern (s.drop k) = none) :
    regexFindAllFrom s 0 = [] ∧ regexReplaceAllFrom s 0 = s := by
  have h := regex_pass s.length s (le_refl _) (fun k _ => hall k)
  simp only [List.drop_length, List.take_length, regexFindAllFrom, regexReplaceAllFrom,
    List.append_nil] at h
  exact h

theorem matchPattern_none_after {s : GoString} {i : Nat}
    (h : firstOccurrence openTag s = some i)
    (hc : firstOccurrence closeTag (s.drop (i + openTag.length)) = none) (k : Nat) :
    matchPattern (s.drop k) = none := by
  cases ho : openTag.isPrefixOf (s.drop k) with
  | false => exact matchPattern_none_of_not_open ho
  | true =>
    have hik : i ≤ k := by
      by_contra hlt
      rw [(firstOccurrence_some h).2 k (by omega)] at ho
      cases ho
    apply matchPattern_none_of_not_close
    have := firstOccurrence_none_drop hc (k - i)
    rw [List.drop_drop] at this ⊢
    rw [← this]
    congr 2
    omega

/-- The matches the library finds are the spans of the specification: group 1 of the
successive matches, and the text with them left out. -/
theorem regex_eq_spec : ∀ (n : Nat) (s : GoString), s.length ≤ n →
    (regexFindAllFrom s 0).map (fun m => m.getD 1 []) = (specExtract s).1 ∧
      (∀ m ∈ regexFindAllFrom s 0, m.length = 2) ∧
      regexReplaceAllFrom s 0 = (specExtract s).2 := by
  intro n
  induction n with
  | zero =>
    intro s hs
    have : s = [] := List.length_eq_zero.mp (by omega)
    subst this
    have h : firstOccurrence openTag [] = none := by decide
    rw [specExtract_of_no_open h]
    simp [regexFindAllFrom, regexReplaceAllFrom]
  | succ n ih =>
    intro s hs
    cases h : firstOccurrence openTag s with
    | none =>
      rw [specExtract_of_no_open h]
      have := regex_no_match (s := s)
        (fun k => matchPattern_none_of_not_open (firstOccurrence_none h k))
      simp [this.1, this.2]
    | some i =>
      cases hc : firstOccurrence closeTag (s.drop (i + openTag.length)) with
      | none =>
        rw [specExtract_of_no_close h hc]
        have := regex_no_match (s := s) (matchPattern_none_after h hc)
        simp [this.1, this.2]
      | some j =>
        rw [specExtract_of_span h hc]
        have hb := firstOccurrence_bound h
        have hopen := firstOccurrence_some h
        have hpass := regex_pass i s (by omega)
          (fun k hk => matchPattern_none_of_not_open (hopen.2 k hk))
        have hdd : (s.drop i).drop openTag.length = s.drop (i + openTag.length) := by
          rw [List.drop_drop]
        have hm : matchPattern (s.drop i) = some ((s.drop (i + openTag.length)).take j,
            openTag.length + (j + closeTag.length)) := by
          have := matchPattern_some hopen.1 (by rw [hdd]; exact hc)
          rwa [hdd] at this
        have hlen : 0 < openTag.length := by decide
        cases hsd : s.drop i with
        | nil =>
          have := congrArg List.length hsd
          simp only [List.length_drop, List.length_nil] at this
          omega
        | cons c s' =>
          have hrest : s'.drop (openTag.length + (j + closeTag.length) - 1) =
              s.drop (i + openTag.length + j + closeTag.length) := by
            have : (c :: s').drop (openTag.length + (j + closeTag.length)) =
                s.drop (i + openTag.length + j + closeTag.length) := by
              rw [← hsd, List.drop_drop]
              congr 1
              omega
            rw [← this]
            obtain ⟨d, hd⟩ : ∃ d, openTag.length + (j + closeTag.length) = d + 1 :=
              ⟨openTag.length + (j + closeTag.length) - 1, by omega⟩
            rw [hd, List.drop_succ_cons]
            rfl
          rw [hsd] at hm hpass
          have hshort : (s.drop (i + openTag.length + j + closeTag.length)).length ≤ n := by
            simp only [List.length_drop]; omega
          obtain ⟨ih1, ih2, ih3⟩ := ih _ hshort
          rw [hpass.1, hpass.2]
          simp only [regexFindAllFrom, regexReplaceAllFrom, hm]
          rw [regexFindAllFrom_skip, regexReplaceAllFrom_skip, hrest]
          refine ⟨?_, ?_, ?_⟩
          · rw [List.map_cons, ih1]; rfl
          · intro m hmem
            rcases List.mem_cons.mp hmem with rfl | hmem
            · rfl
            · exact ih2 m hmem
          · rw [ih3]

theorem collect_blocks (f : List GoString → GoString) :
    ∀ (found : List (List GoString)) (blocks : List GoString),
      (∀ m ∈ found, m.length = 2) →
      found.foldl (fun blocks m => if m.length > 1 then blocks ++ [f m] else blocks) blocks
        = blocks ++ found.map f
  | [], blocks, _ => by simp
  | m :: found, blocks, h => by
    have hm : m.length > 1 := by
      have := h m (List.mem_cons_self _ _)
      omega
    rw [List.foldl_cons, if_pos hm,
      collect_blocks f found _ (fun m' hm' => h m' (List.mem_cons_of_mem _ hm'))]
    simp

theorem ExtractThinkingFromFinalText_eq (trimSpace : GoString → GoString)
    (text : GoString) :
    ExtractThinkingFromFinalText trimSpace text =
      ((specExtract text).1.map trimSpace, trimSpace (specExtract text).2) := by
  obtain ⟨h1, h2, h3⟩ := regex_eq_spec text.length text (le_refl _)
  simp only [ExtractThinkingFromFinalText, regexFindAllStringSubmatch, regexReplaceAllString]
  rw [collect_blocks (fun m => trimSpace (m.getD 1 [])) _ _ h2, h3, ← h1]
  simp [List.map_map, Function.comp_def]

/-- C8, batch extraction: for every text, and whatever `strings.TrimSpace` does,
`ExtractThinkingFromFinalText` returns as `thinkingBlocks` the trimmed inner texts, in
order, of the spans found by scanning from the left for the next `"<thinking>"` and
pairing it with the nearest `"</thinking>"` after it, and as `cleanText` the trimmed
text with those spans left out.  At
`"pre <thinking>A</thinking> mid <thinking>B</thinking> post"` that is `["A", "B"]` and
`"pre  mid  post"`; the inner text may hold line breaks. -/
theorem batch_extraction :
    (∀ (trimSpace : GoString → GoString) (text : GoString),
      ExtractThinkingFromFinalText trimSpace text =
        ((specExtract text).1.map trimSpace, trimSpace (specExtract text).2)) ∧
    ExtractThinkingFromFinalText trimSpaceAscii
        "pre <thinking>A</thinking> mid <thinking>B</thinking> post".toList
      = (["A".toList, "B".toList], "pre  mid  post".toList) ∧
    ExtractThinkingFromFinalText trimSpaceAscii
        " x<thinking>\n a\nb </thinking>y<thinking></thinking>".toList
      = (["a\nb".toList, []], "xy".toList) :=
  ⟨ExtractThinkingFromFinalText_eq, by decide, by decide⟩

/-- C9, batch extraction without a match: when no `"<thinking>"` of the text has a
`"</thinking>"` after it, `ExtractThinkingFromFinalText` returns no thinking blocks and
the trimmed text, whatever `strings.TrimSpace` does. -/
theorem batch_extraction_no_match (trimSpace : GoString → GoString) (text : GoString)
    (h : ∀ i, i < text.length → openTag.isPrefixOf (text.drop i) = true →
      ¬ closeTag <:+: text.drop (i + openTag.length)) :
    ExtractThinkingFromFinalText trimSpace text = ([], trimSpace text) := by
  have hspec : specExtract text = ([], text) := by
    cases ho : firstOccurrence openTag text with
    | none => exact specExtract_of_no_open ho
    | some i =>
      have hb := firstOccurrence_bound ho
      have hlen : 0 < openTag.length := by decide
      exact specExtract_of_no_close ho
        (firstOccurrence_none_of_absent (h i (by omega) (firstOccurrence_some ho).1))
  rw [ExtractThinkingFromFinalText_eq, hspec]
  rfl

/-- The claim C9 at the empty string, at a text with only an unterminated open tag, at
a text with only a stray close tag, and at a close tag followed by an open tag. -/
theorem batch_extraction_no_match_witness :
    ExtractThinkingFromFinalText trimSpaceAscii [] = ([], trimSpaceAscii []) ∧
    ExtractThinkingFromFinalText trimSpaceAscii " <thinking>abc ".toList
      = ([], trimSpaceAscii " <thinking>abc ".toList) ∧
    ExtractThinkingFromFinalText trimSpaceAscii "abc</thinking> d".toList
      = ([], trimSpaceAscii "abc</thinking> d".toList) ∧
    ExtractThinkingFromFinalText trimSpaceAscii "</thinking><thinking>".toList
      = ([], trimSpaceAscii "</thinking><thinking>".toList) ∧
    trimSpaceAscii " <thinking>abc ".toList = "<thinking>abc".toList :=
  ⟨batch_extraction_no_match trimSpaceAscii [] (by decide),
   batch_extraction_no_match trimSpaceAscii " <thinking>abc ".toList (by decide),
   batch_extraction_no_match trimSpaceAscii "abc</thinking> d".toList (by decide),
   batch_extraction_no_match trimSpaceAscii "</thinking><thinking>".toList (by decide),
   by decide⟩

/-! ## Totality of the streaming scanner -/

theorem processLoop_fuel : ∀ (n : Nat) (st : LoopState) (f1 f2 : Nat),
    st.content.length ≤ n → st.content.length ≤ f1 → st.content.length ≤ f2 →
    processLoop f1 st = processLoop f2 st := by
  intro n
  induction n with
  | zero =>
    intro st f1 f2 hn _ _
    have hc : st.content = [] := List.length_eq_zero.mp (by omega)
    cases f1 <;> cases f2 <;> simp [processLoop, hc]
  | succ n ih =>
    intro st f1 f2 hn h1 h2
    by_cases hc : st.content = []
    · cases f1 <;> cases f2 <;> simp [processLoop, hc]
    · have hpos : 0 < st.content.length := List.length_pos.mpr hc
      obtain ⟨a, rfl⟩ : ∃ a, f1 = a + 1 := ⟨f1 - 1, by omega⟩
      obtain ⟨b, rfl⟩ : ∃ b, f2 = b + 1 := ⟨f2 - 1, by omega⟩
      obtain ⟨st1, hb, hcase⟩ := loopBody_spec st
      have hlt : st1.content.length < st.content.length := by
        rcases hcase with ⟨_, hcont, _⟩ | ⟨_, hcont, _⟩
        · have htag := tagOf_length_pos st.te.inThinkingBlock
          rw [hcont, List.length_drop]; omega
        · rw [hcont]; exact hpos
      simp only [processLoop, hpos, gt_iff_lt, if_true, hb, Option.some_bind]
      exact ih st1 a b (by omega) (by omega) (by omega)

/-- C10, totality of the streaming scanner.  One iteration of the loop, from any state,
takes only slices that are in range and so yields a state; that state has no content
left, or has the content after a complete occurrence of the awaited tag, and in both
cases strictly less content when there was some.  `ProcessTextStreaming` therefore
returns for every extractor state and every input, the empty string included, and more
fuel than the length of the content does not change what it returns.  On a fresh
extractor the empty string gives the empty result and leaves the extractor as it was. -/
theorem ProcessTextStreaming_total :
    (∀ st : LoopState, ∃ st', loopBody st = some st' ∧
      (st'.content = [] ∨
        ∃ i, (tagOf st.te.inThinkingBlock).isPrefixOf (st.content.drop i) = true ∧
          st'.content = st.content.drop (i + (tagOf st.te.inThinkingBlock).length)) ∧
      (st.content ≠ [] → st'.content.length < st.content.length)) ∧
    (∀ (te : ThinkingExtractor) (rnd : RandSource) (text : GoString),
      ∃ out, ProcessTextStreaming te rnd text = some out) ∧
    (∀ (te : ThinkingExtractor) (rnd : RandSource) (text : GoString) (fuel : Nat),
      (te.buffer ++ text).length ≤ fuel →
        ProcessTextStreamingFuel fuel te rnd text = ProcessTextStreaming te rnd text) ∧
    (∀ rnd : RandSource,
      ProcessTextStreaming NewThinkingExtractor rnd [] =
        some (emptyResult, NewThinkingExtractor, rnd)) := by
  refine ⟨?_, ?_, ?_, ?_⟩
  · intro st
    obtain ⟨st1, hb, hcase⟩ := loopBody_spec st
    refine ⟨st1, hb, ?_, ?_⟩
    · rcases hcase with ⟨hh, hcont, _⟩ | ⟨_, hcont, _⟩
      · exact Or.inr ⟨_, hh, hcont⟩
      · exact Or.inl hcont
    · intro hc
      have hpos : 0 < st.content.length := List.length_pos.mpr hc
      rcases hcase with ⟨_, hcont, _⟩ | ⟨_, hcont, _⟩
      · have htag := tagOf_length_pos st.te.inThinkingBlock
        rw [hcont, List.length_drop]; omega
      · rw [hcont]; exact hpos
  · intro te rnd text
    obtain ⟨r, te', rnd', h, _⟩ := ProcessTextStreaming_spec te rnd text
    exact ⟨_, h⟩
  · intro te rnd text fuel hf
    simp only [ProcessTextStreaming, ProcessTextStreamingFuel]
    rw [processLoop_fuel (te.buffer ++ text).length _ fuel (te.buffer ++ text).length
      (le_refl _) hf (le_refl _)]
  · intro rnd
    rfl

/-! ## What every call keeps -/

/-- What a scan leaves pending is a proper prefix of the tag awaited in the mode it
ends in. -/
theorem scan_pending (m : Bool) (c : GoString) :
    (scan m c).pending <+: tagOf (scan m c).inThinking ∧
      (scan m c).pending.length < (tagOf (scan m c).inThinking).length := by
  apply scan_induction
    (fun _ _ t => t.pending <+: tagOf t.inThinking ∧ t.pending.length < (tagOf t.inThinking).length)
  · intro m
    exact ⟨List.nil_prefix, tagOf_length_pos m⟩
  · intro m c _ hh
    rw [hold_pending, hold_inThinking]
    refine ⟨List.isPrefixOf_iff_prefix.mp (hold_isPrefixOf hh), ?_⟩
    rw [List.length_drop]
    exact hold_length_lt hh
  · intro m c _ _ ih
    exact ih

/-- A scan that ends outside a thinking block has released no thinking bytes since the
last block it closed, and if it closed none it started outside a thinking block. -/
theorem scan_plain_acc (m : Bool) (c : GoString) :
    (scan m c).inThinking = false →
      (scan m c).acc = [] ∧ ((scan m c).ends = 0 → m = false) := by
  apply scan_induction (fun m _ t => t.inThinking = false → t.acc = [] ∧ (t.ends = 0 → m = false))
  · intro m h
    exact ⟨rfl, fun _ => h⟩
  · intro m c _ _ h
    rw [hold_inThinking] at h
    subst h
    exact ⟨rfl, fun _ => rfl⟩
  · intro m c _ _ ih h
    obtain ⟨h1, h2⟩ := ih h
    refine ⟨?_, ?_⟩
    · simp only [Trace.seq]
      rw [h1]
      cases m <;> simp [Trace.passTag]
    · intro he
      cases m
      · rfl
      · simp [Trace.seq, Trace.passTag] at he

theorem ProcessTextStreaming_settled {te te' : ThinkingExtractor} {rnd rnd' : RandSource}
    {text : GoString} {r : StreamingExtractResult}
    (hte : te.inThinkingBlock = false → te.thinkingContent = [])
    (h : ProcessTextStreaming te rnd text = some (r, te', rnd')) : Settled te' := by
  obtain ⟨r0, te0, rnd0, h0, hspec⟩ := ProcessTextStreaming_spec te rnd text
  rw [h0] at h
  simp only [Option.some.injEq, Prod.mk.injEq] at h
  obtain ⟨_, rfl, _⟩ := h
  have hp := scan_pending te.inThinkingBlock (te.buffer ++ text)
  refine ⟨?_, ?_, ?_⟩
  · rw [hspec.buffer, hspec.mode]; exact hp.1
  · rw [hspec.buffer, hspec.mode]; exact hp.2
  · intro hm
    rw [hspec.mode] at hm
    obtain ⟨h1, h2⟩ := scan_plain_acc _ _ hm
    rw [hspec.acc, h1]
    by_cases he : (scan te.inThinkingBlock (te.buffer ++ text)).ends = 0
    · rw [if_pos he, hte (h2 he)]
      rfl
    · rw [if_neg he]
      rfl

theorem settled_fresh : Settled NewThinkingExtractor :=
  ⟨List.nil_prefix, by decide, fun _ => rfl⟩

theorem Flush_settled (trimSpace : GoString → GoString) {te : ThinkingExtractor}
    (hte : Settled te) : Settled (Flush trimSpace te).2 := by
  have hb : (Flush trimSpace te).2.buffer = [] := by
    cases hbuf : te.buffer <;> simp [Flush, hbuf] <;> split <;> simp [hbuf]
  have hm : (Flush trimSpace te).2.inThinkingBlock = false := rfl
  refine ⟨?_, ?_, ?_⟩
  · rw [hb]; exact List.nil_prefix
  · rw [hb, hm]; decide
  · intro _
    cases hin : te.inThinkingBlock with
    | false =>
      have := hte.content hin
      cases hbuf : te.buffer <;> simp [Flush, hbuf, hin, this]
    | true =>
      cases htc : te.thinkingContent with
      | nil => cases hbuf : te.buffer <;> simp [Flush, hbuf, hin, htc]
      | cons a b => cases hbuf : te.buffer <;> simp [Flush, hbuf, hin, htc]

theorem applyCall_settled (trimSpace : GoString → GoString) {te te' : ThinkingExtractor}
    {rnd rnd' : RandSource} {call : Call} {ret : Returned} (hte : Settled te)
    (h : applyCall trimSpace te rnd call = some (ret, te', rnd')) : Settled te' := by
  cases call with
  | processTextStreaming text =>
    simp only [applyCall] at h
    cases hp : ProcessTextStreaming te rnd text with
    | none => rw [hp] at h; cases h
    | some out =>
      rw [hp, Option.map_some', Option.some.injEq, Prod.mk.injEq, Prod.mk.injEq] at h
      obtain ⟨_, rfl, _⟩ := h
      exact ProcessTextStreaming_settled hte.content hp
  | flushStreaming =>
    simp only [applyCall, Option.some.injEq, Prod.mk.injEq] at h
    obtain ⟨_, rfl, _⟩ := h
    rw [FlushStreaming_extractor]
    exact settled_fresh
  | flush =>
    simp only [applyCall, Option.some.injEq, Prod.mk.injEq] at h
    obtain ⟨_, rfl, _⟩ := h
    exact Flush_settled trimSpace hte
  | processText text =>
    simp only [applyCall, ProcessText] at h
    cases hp : ProcessTextStreaming te rnd text with
    | none => rw [hp] at h; cases h
    | some out =>
      rw [hp, Option.map_some', Option.map_some', Option.some.injEq, Prod.mk.injEq,
        Prod.mk.injEq] at h
      obtain ⟨_, rfl, _⟩ := h
      exact ProcessTextStreaming_settled hte.content hp
  | reset =>
    simp only [applyCall, Option.some.injEq, Prod.mk.injEq] at h
    obtain ⟨_, rfl, _⟩ := h
    exact settled_fresh

theorem applyCall_total (trimSpace : GoString → GoString) (te : ThinkingExtractor)
    (rnd : RandSource) (call : Call) : ∃ out, applyCall trimSpace te rnd call = some out := by
  cases call with
  | processTextStreaming text =>
    obtain ⟨r, te', rnd', h, _⟩ := ProcessTextStreaming_spec te rnd text
    exact ⟨(Returned.streaming r, te', rnd'), by simp [applyCall, h]⟩
  | flushStreaming => exact ⟨_, rfl⟩
  | flush => exact ⟨_, rfl⟩
  | processText text =>
    obtain ⟨r, te', rnd', h, _⟩ := ProcessTextStreaming_spec te rnd text
    simp only [applyCall, ProcessText, h, Option.map_some']
    exact ⟨_, rfl⟩
  | reset => exact ⟨_, rfl⟩

/-- Every sequence of calls returns, and leaves a settled extractor when it started from
one. -/
theorem runCalls_settled (trimSpace : GoString → GoString) :
    ∀ (calls : List Call) (te : ThinkingExtractor) (rnd : RandSource), Settled te →
      ∃ rets te' rnd', runCalls trimSpace te rnd calls = some (rets, te', rnd') ∧ Settled te'
  | [], te, rnd, hte => ⟨[], te, rnd, rfl, hte⟩
  | call :: calls, te, rnd, hte => by
    obtain ⟨⟨ret, te1, rnd1⟩, h1⟩ := applyCall_total trimSpace te rnd call
    obtain ⟨rets, te2, rnd2, h2, hs⟩ :=
      runCalls_settled trimSpace calls te1 rnd1 (applyCall_settled trimSpace hte h1)
    exact ⟨ret :: rets, te2, rnd2, by simp [runCalls, h1, h2], hs⟩

/-! ## The claims about the state of the extractor -/

theorem tagOf_eq (m : Bool) : tagOf m = if m then closeTag else openTag := rfl

theorem not_infix_of_length_lt {tag b : GoString} (h : b.length < tag.length) :
    ¬ tag <:+: b :=
  fun hi => absurd hi.length_le (by omega)

/-- C11, pending-buffer invariant: after any sequence of `ProcessTextStreaming`,
`FlushStreaming`, `Flush`, `ProcessText` and `Reset` calls on a fresh extractor, which
always returns, the pending buffer is a proper prefix of the awaited tag
(`"<thinking>"` outside a thinking block, `"</thinking>"` inside one), so it is empty
or a non-empty proper prefix; its length is at most 9 outside and at most 10 inside a
thinking block; and neither tag occurs in it. -/
theorem pending_buffer_invariant (trimSpace : GoString → GoString) (rnd : RandSource)
    (calls : List Call) :
    ∃ rets te' rnd', runCalls trimSpace NewThinkingExtractor rnd calls = some (rets, te', rnd') ∧
      te'.buffer <+: (if te'.inThinkingBlock then closeTag else openTag) ∧
      te'.buffer ≠ (if te'.inThinkingBlock then closeTag else openTag) ∧
      te'.buffer.length ≤ (if te'.inThinkingBlock then 10 else 9) ∧
      ¬ openTag <:+: te'.buffer ∧ ¬ closeTag <:+: te'.buffer := by
  obtain ⟨rets, te', rnd', hrun, hs⟩ :=
    runCalls_settled trimSpace calls NewThinkingExtractor rnd settled_fresh
  have hp := hs.pending
  have hl := hs.pendingLt
  rw [tagOf_eq] at hp hl
  refine ⟨rets, te', rnd', hrun, hp, ?_, ?_, ?_, ?_⟩
  · intro he
    rw [← he] at hl
    exact absurd hl (Nat.lt_irrefl _)
  · cases hm : te'.inThinkingBlock
    · rw [hm] at hl
      have : openTag.length = 10 := by decide
      simp only [Bool.false_eq_true, if_false] at hl ⊢
      omega
    · rw [hm] at hl
      have : closeTag.length = 11 := by decide
      simp only [if_true] at hl ⊢
      omega
  · cases hm : te'.inThinkingBlock
    · rw [hm] at hl
      exact not_infix_of_length_lt hl
    · rw [hm] at hl hp
      simp only [if_true] at hl hp
      intro hi
      have h10 : openTag.length = 10 := by decide
      have h11 : closeTag.length = 11 := by decide
      have hlen : te'.buffer.length = 10 := by
        have := hi.length_le
        omega
      have hb : te'.buffer = closeTag.take 10 := by
        have := List.prefix_iff_eq_take.mp hp
        rwa [hlen] at this
      have ho : openTag = te'.buffer := hi.sublist.eq_of_length (by omega)
      rw [hb] at ho
      exact absurd ho (by decide)
  · apply not_infix_of_length_lt
    cases hm : te'.inThinkingBlock
    · rw [hm] at hl
      have h10 : openTag.length = 10 := by decide
      have h11 : closeTag.length = 11 := by decide
      simp only [Bool.false_eq_true, if_false] at hl
      omega
    · rw [hm] at hl
      exact hl

/-- C12, accumulator invariant: after any sequence of `ProcessTextStreaming`,
`FlushStreaming`, `Flush`, `ProcessText` and `Reset` calls on a fresh extractor, which
always returns, the accumulated thinking content is empty whenever the extractor is not
in a thinking block. -/
theorem accumulator_invariant (trimSpace : GoString → GoString) (rnd : RandSource)
    (calls : List Call) :
    ∃ rets te' rnd', runCalls trimSpace NewThinkingExtractor rnd calls = some (rets, te', rnd') ∧
      (IsInThinkingBlock te' = false → te'.thinkingContent = []) := by
  obtain ⟨rets, te', rnd', hrun, hs⟩ :=
    runCalls_settled trimSpace calls NewThinkingExtractor rnd settled_fresh
  exact ⟨rets, te', rnd', hrun, hs.content⟩

/-- C13, signature presence: for every extractor state and input, the result of
`ProcessTextStreaming`, and likewise the result of `FlushStreaming`, has a non-empty
`Signature` if and only if its `ThinkingEnded` flag is true. -/
theorem signature_presence :
    (∀ (te : ThinkingExtractor) (rnd : RandSource) (text : GoString),
      ∃ r te' rnd', ProcessTextStreaming te rnd text = some (r, te', rnd') ∧
        (r.Signature ≠ [] ↔ r.ThinkingEnded = true)) ∧
    (∀ (te : ThinkingExtractor) (rnd : RandSource),
      ((FlushStreaming te rnd).1.Signature ≠ [] ↔
        (FlushStreaming te rnd).1.ThinkingEnded = true)) := by
  constructor
  · intro te rnd text
    obtain ⟨r, te', rnd', h, hspec⟩ := ProcessTextStreaming_spec te rnd text
    refine ⟨r, te', rnd', h, ?_⟩
    rw [hspec.ended, decide_eq_true_eq]
    constructor
    · intro hne
      by_contra hz
      exact hne (hspec.sigKeep (by omega))
    · exact hspec.sigNew
  · intro te rnd
    rw [FlushStreaming_Signature, FlushStreaming_ThinkingEnded]
    cases hm : te.inThinkingBlock
    · simp
    · simp [generateSignature_ne_nil]

/-- C14, `HasPending` exactness: for every extractor state and every input chunk,
`ProcessTextStreaming` returns, and its `HasPending` flag is true if and only if the
pending buffer of the extractor is non-empty when the call returns. -/
theorem hasPending_exact (te : ThinkingExtractor) (rnd : RandSource) (text : GoString) :
    ∃ r te' rnd', ProcessTextStreaming te rnd text = some (r, te', rnd') ∧
      (r.HasPending = true ↔ te'.buffer ≠ []) := by
  obtain ⟨r, te', rnd', h, hspec⟩ := ProcessTextStreaming_spec te rnd text
  refine ⟨r, te', rnd', h, ?_⟩
  rw [hspec.hasPending, hspec.buffer, decide_eq_true_eq]

/-- C15, `Reset` restores the initial state: after `Reset` on any extractor state the
extractor is not in a thinking block, its pending buffer and accumulated thinking
content are empty, it is the fresh extractor, and every sequence of calls on it returns
what it returns on a fresh extractor with the same random source. -/
theorem reset_restores_initial (te : ThinkingExtractor) :
    IsInThinkingBlock (Reset te) = false ∧ (Reset te).buffer = [] ∧
      (Reset te).thinkingContent = [] ∧ Reset te = NewThinkingExtractor ∧
      ∀ (trimSpace : GoString → GoString) (rnd : RandSource) (calls : List Call),
        runCalls trimSpace (Reset te) rnd calls =
          runCalls trimSpace NewThinkingExtractor rnd calls :=
  ⟨rfl, rfl, rfl, rfl, fun _ _ _ => rfl⟩

/-! ## The straddle length -/

/-- The piece `tag.take j` ends `s` exactly when the last `j` bytes of `s` exist and
the tag begins with them. -/
theorem take_suffix_iff {tag s : GoString} {j : Nat} (hj : j ≤ tag.length) :
    tag.take j <:+ s ↔ j ≤ s.length ∧ (s.drop (s.length - j)).isPrefixOf tag = true := by
  have hlen : (tag.take j).length = j := by
    rw [List.length_take]; omega
  constructor
  · intro h
    have hle := h.length_le
    rw [hlen] at hle
    have hd := List.suffix_iff_eq_drop.mp h
    rw [hlen] at hd
    refine ⟨hle, ?_⟩
    rw [← hd]
    exact List.isPrefixOf_iff_prefix.mpr (List.take_prefix j tag)
  · rintro ⟨hle, hp⟩
    have hp' := List.prefix_iff_eq_take.mp (List.isPrefixOf_iff_prefix.mp hp)
    rw [List.length_drop] at hp'
    have hjj : s.length - (s.length - j) = j := by omega
    rw [hjj] at hp'
    rw [← hp']
    exact List.drop_suffix _ _

/-- Of two different lengths below the length of the tag, at most the longer gives a
final piece of `s` that begins the tag, when the first byte of the tag does not occur
again in the tag. -/
theorem straddle_unique {h : Char} {tl s : GoString} (hno : h ∉ tl) {j k : Nat}
    (hj : 1 ≤ j) (hjk : j < k) (hks : k ≤ s.length)
    (hp : (s.drop (s.length - k)).isPrefixOf (h :: tl) = true) :
    (s.drop (s.length - j)).isPrefixOf (h :: tl) = false := by
  have hd : s.drop (s.length - j) = (s.drop (s.length - k)).drop (k - j) := by
    rw [List.drop_drop]; congr 1; omega
  rw [hd]
  apply not_isPrefixOf_drop hno hp
  · omega
  · simp only [List.length_drop]; omega

/-- What the partial-tag loop returns on any `s`: the length of the longest final piece
of `s` that is a non-empty proper prefix of the tag, or 0 when there is none. -/
theorem findPartialTagLoop_longest {h : Char} {tl : GoString} (hno : h ∉ tl)
    (s : GoString) :
    ∃ k : Nat, findPartialTagLoop (h :: tl) s (h :: tl).length 1 = some (k : Int) ∧
      k < (h :: tl).length ∧
      (1 ≤ k → (h :: tl).take k <:+ s) ∧
      ∀ j, 1 ≤ j → j < (h :: tl).length → (h :: tl).take j <:+ s → j ≤ k := by
  by_cases hex : ∃ k, 1 ≤ k ∧ k < (h :: tl).length ∧ k ≤ s.length ∧
      (s.drop (s.length - k)).isPrefixOf (h :: tl) = true
  · obtain ⟨k, hk1, hk2, hk3, hk4⟩ := hex
    refine ⟨k, ?_, hk2, fun _ => (take_suffix_iff (by omega)).mpr ⟨hk3, hk4⟩, ?_⟩
    · have := findPartialTagLoop_found (h :: tl) s k hk2 hk3 hk4 (h :: tl).length 1
        (by omega) hk1 (fun j hj1 hj2 => straddle_unique hno hj1 hj2 hk3 hk4)
      simpa using this
    · intro j hj1 hj2 hj3
      obtain ⟨hj4, hj5⟩ := (take_suffix_iff (by omega)).mp hj3
      by_contra hlt
      have := straddle_unique hno hk1 (by omega : k < j) hj4 hj5
      rw [hk4] at this
      cases this
  · refine ⟨0, ?_, by simp, fun h0 => by omega, ?_⟩
    · have := findPartialTagLoop_none_found (h :: tl) s (h :: tl).length 1 (by omega)
        (by simp) (fun j hj1 hj2 hj3 => by
          cases hq : (s.drop (s.length - j)).isPrefixOf (h :: tl) with
          | false => rfl
          | true => exact absurd ⟨j, hj1, hj2, hj3, hq⟩ hex)
      simpa using this
    · intro j hj1 hj2 hj3
      obtain ⟨hj4, hj5⟩ := (take_suffix_iff (by omega)).mp hj3
      exact absurd ⟨j, hj1, hj2, hj4, hj5⟩ hex

/-- C17, the straddle length is the longest match: for every string `s`,
`findPartialEndTag(s)` returns the length, from 1 to 10, of the longest final piece of
`s` that is a non-empty proper prefix of `"</thinking>"`, or 0 when there is none, and
`findPartialStartTag(s)` the same for `"<thinking>"`, from 1 to 9 or 0, although the
loop returns the first length that matches when counting up from 1.  So
`"ab</th"` gives 4, `"<thinking"` gives 9, `"<<"` gives 1 and `"<thinking>"` gives 0. -/
theorem straddle_longest :
    (∀ s : GoString, ∃ k : Nat, findPartialEndTag s = some (k : Int) ∧ k ≤ 10 ∧
      (1 ≤ k → closeTag.take k <:+ s) ∧
      ∀ j, 1 ≤ j → j ≤ 10 → closeTag.take j <:+ s → j ≤ k) ∧
    (∀ s : GoString, ∃ k : Nat, findPartialStartTag s = some (k : Int) ∧ k ≤ 9 ∧
      (1 ≤ k → openTag.take k <:+ s) ∧
      ∀ j, 1 ≤ j → j ≤ 9 → openTag.take j <:+ s → j ≤ k) ∧
    findPartialEndTag "ab</th".toList = some 4 ∧
    findPartialStartTag "<thinking".toList = some 9 ∧
    findPartialStartTag "<<".toList = some 1 ∧
    findPartialStartTag "<thinking>".toList = some 0 := by
  refine ⟨?_, ?_, by decide, by decide, by decide, by decide⟩
  · intro s
    have h := @findPartialTagLoop_longest '<' "/thinking>".toList (by decide) s
    rw [← closeTag_eq] at h
    obtain ⟨k, h1, h2, h3, h4⟩ := h
    have h11 : closeTag.length = 11 := by decide
    exact ⟨k, h1, by omega, h3, fun j hj1 hj2 hj3 => h4 j hj1 (by omega) hj3⟩
  · intro s
    have h := @findPartialTagLoop_longest '<' "thinking>".toList (by decide) s
    rw [← openTag_eq] at h
    obtain ⟨k, h1, h2, h3, h4⟩ := h
    have h10 : openTag.length = 10 := by decide
    exact ⟨k, h1, by omega, h3, fun j hj1 hj2 hj3 => h4 j hj1 (by omega) hj3⟩

/-! ## The flush in any state -/

theorem generateSignature_eq (te : ThinkingExtractor) (rnd : RandSource) :
    generateSignature te rnd = GenerateFakeSignature (te.thinkingContent.length : Int) rnd :=
  rfl

/-- C18, flush inside a thinking block with a dangling partial close tag: in every
state in which the extractor is in a thinking block and its pending buffer `b` is
non-empty, `FlushStreaming` returns `ThinkingEnded = true`, `TextDelta = b` and
`ThinkingDelta = ""`, and its `Signature` is what `GenerateFakeSignature` returns for
the length of the accumulated thinking content, which does not include `b`. -/
theorem flush_in_block_with_pending (te : ThinkingExtractor) (rnd : RandSource)
    (hm : te.inThinkingBlock = true) (_hb : te.buffer ≠ []) :
    (FlushStreaming te rnd).1.ThinkingEnded = true ∧
      (FlushStreaming te rnd).1.TextDelta = te.buffer ∧
      (FlushStreaming te rnd).1.ThinkingDelta = [] ∧
      (FlushStreaming te rnd).1.Signature =
        (GenerateFakeSignature (te.thinkingContent.length : Int) rnd).1 := by
  refine ⟨?_, FlushStreaming_TextDelta te rnd, FlushStreaming_ThinkingDelta te rnd, ?_⟩
  · rw [FlushStreaming_ThinkingEnded, hm]
  · rw [FlushStreaming_Signature, hm, if_pos rfl, generateSignature_eq]

/-- The claim C18 at the state reached by feeding `"<thinking>abc</thi"` to a fresh
extractor: thinking block open, `"</thi"` pending, `"abc"` accumulated; the flush
returns `"</thi"` as text and a signature of 200 encoded bytes. -/
theorem flush_in_block_with_pending_witness :
    (feedChunks NewThinkingExtractor (fun _ => 0) ["<thinking>abc</thi".toList]).map
        (fun out => (out.2.1.buffer, out.2.1.inThinkingBlock, out.2.1.thinkingContent))
      = some ("</thi".toList, true, "abc".toList) ∧
    ((FlushStreaming
        { buffer := "</thi".toList, inThinkingBlock := true, thinkingContent := "abc".toList }
        (fun _ => 0)).1.ThinkingEnded = true ∧
      (FlushStreaming
        { buffer := "</thi".toList, inThinkingBlock := true, thinkingContent := "abc".toList }
        (fun _ => 0)).1.TextDelta = "</thi".toList ∧
      (FlushStreaming
        { buffer := "</thi".toList, inThinkingBlock := true, thinkingContent := "abc".toList }
        (fun _ => 0)).1.ThinkingDelta = [] ∧
      (FlushStreaming
        { buffer := "</thi".toList, inThinkingBlock := true, thinkingContent := "abc".toList }
        (fun _ => 0)).1.Signature = (GenerateFakeSignature 3 (fun _ => 0)).1) ∧
    (GenerateFakeSignature 3 (fun _ => 0)).1 = base64StdEncode (randRead (fun _ => 0) 200).1 :=
  ⟨by decide,
    flush_in_block_with_pending
      { buffer := "</thi".toList, inThinkingBlock := true, thinkingContent := "abc".toList }
      (fun _ => 0) rfl (by decide),
    rfl⟩

/-- C19, flush returns to the neutral state: after `FlushStreaming` on any extractor
state the extractor is not in a thinking block and its pending buffer and accumulated
thinking content are empty, as on a fresh extractor, and a second `FlushStreaming`
right after returns `ThinkingEnded = false` and empty `TextDelta`, `ThinkingDelta` and
`Signature`. -/
theorem flush_returns_neutral (te : ThinkingExtractor) (rnd : RandSource) :
    IsInThinkingBlock (FlushStreaming te rnd).2.1 = false ∧
      (FlushStreaming te rnd).2.1.buffer = [] ∧
      (FlushStreaming te rnd).2.1.thinkingContent = [] ∧
      (FlushStreaming te rnd).2.1 = NewThinkingExtractor ∧
      (FlushStreaming (FlushStreaming te rnd).2.1 (FlushStreaming te rnd).2.2).1.ThinkingEnded
        = false ∧
      (FlushStreaming (FlushStreaming te rnd).2.1 (FlushStreaming te rnd).2.2).1.TextDelta
        = [] ∧
      (FlushStreaming (FlushStreaming te rnd).2.1 (FlushStreaming te rnd).2.2).1.ThinkingDelta
        = [] ∧
      (FlushStreaming (FlushStreaming te rnd).2.1 (FlushStreaming te rnd).2.2).1.Signature
        = [] := by
  rw [FlushStreaming_extractor]
  exact ⟨rfl, rfl, rfl, rfl, rfl, rfl, rfl, rfl⟩

/-! ## Streaming and batch extraction -/

theorem firstOccurrence_of_hit {tag c : GoString}
    (h : tag.isPrefixOf (c.drop (firstHit tag c)) = true) :
    firstOccurrence tag c = some (firstHit tag c) := by
  rw [firstOccurrence_eq, if_pos h]

theorem firstOccurrence_of_hold {tag c : GoString}
    (h : tag.isPrefixOf (c.drop (firstHit tag c)) = false) :
    firstOccurrence tag c = none := by
  rw [firstOccurrence_eq, h]
  rfl

theorem scan_plain_hit {c : GoString} (hc : c ≠ [])
    (hh : openTag.isPrefixOf (c.drop (firstHit openTag c)) = true) :
    scan false c = Trace.seq (Trace.passTag false (c.take (firstHit openTag c)))
      (scan true (c.drop (firstHit openTag c + openTag.length))) :=
  scan_hit (m := false) hc hh

theorem scan_plain_hold {c : GoString} (hc : c ≠ [])
    (hh : openTag.isPrefixOf (c.drop (firstHit openTag c)) = false) :
    scan false c = Trace.hold false (c.take (firstHit openTag c))
      (c.drop (firstHit openTag c)) :=
  scan_hold (m := false) hc hh

theorem scan_think_hit {c : GoString} (hc : c ≠ [])
    (hh : closeTag.isPrefixOf (c.drop (firstHit closeTag c)) = true) :
    scan true c = Trace.seq (Trace.passTag true (c.take (firstHit closeTag c)))
      (scan false (c.drop (firstHit closeTag c + closeTag.length))) :=
  scan_hit (m := true) hc hh

theorem scan_think_hold {c : GoString} (hc : c ≠ [])
    (hh : closeTag.isPrefixOf (c.drop (firstHit closeTag c)) = false) :
    scan true c = Trace.hold true (c.take (firstHit closeTag c))
      (c.drop (firstHit closeTag c)) :=
  scan_hold (m := true) hc hh

/-- A scan from outside a thinking block that ends outside one released, as text and
pending bytes, the input without the spans of the specification, and as thinking bytes
the inner texts of those spans. -/
theorem scan_eq_specExtract : ∀ (n : Nat) (s : GoString), s.length ≤ n →
    (scan false s).inThinking = false →
    (scan false s).text ++ (scan false s).pending = (specExtract s).2 ∧
      (scan false s).think = (specExtract s).1.flatten := by
  intro n
  induction n with
  | zero =>
    intro s hs _
    have : s = [] := List.length_eq_zero.mp (by omega)
    subst this
    rw [scan_nil, specExtract_of_no_open (by decide)]
    exact ⟨rfl, rfl⟩
  | succ n ih =>
    intro s hs hplain
    by_cases hnil : s = []
    · subst hnil
      rw [scan_nil, specExtract_of_no_open (by decide)]
      exact ⟨rfl, rfl⟩
    · cases hh : openTag.isPrefixOf (s.drop (firstHit openTag s)) with
      | false =>
        rw [scan_plain_hold hnil hh, specExtract_of_no_open (firstOccurrence_of_hold hh)]
        exact ⟨List.take_append_drop _ _, rfl⟩
      | true =>
        have hopen := firstOccurrence_of_hit hh
        rw [scan_plain_hit hnil hh] at hplain ⊢
        generalize hr : s.drop (firstHit openTag s + openTag.length) = rest at hplain ⊢
        have hplain1 : (scan true rest).inThinking = false := hplain
        by_cases hrest : rest = []
        · rw [hrest, scan_nil] at hplain1
          cases hplain1
        · cases hc : closeTag.isPrefixOf (rest.drop (firstHit closeTag rest)) with
          | false =>
            rw [scan_think_hold hrest hc, hold_inThinking] at hplain1
            cases hplain1
          | true =>
            have hclose := firstOccurrence_of_hit hc
            have hb1 := hit_bound hh
            rw [scan_think_hit hrest hc] at hplain1 ⊢
            have hrest2 : rest.drop (firstHit closeTag rest + closeTag.length)
                = s.drop (firstHit openTag s + openTag.length + firstHit closeTag rest +
                    closeTag.length) := by
              rw [← hr, List.drop_drop]; congr 1
            have hplain2 : (scan false
                (rest.drop (firstHit closeTag rest + closeTag.length))).inThinking = false :=
              hplain1
            have hlen : (rest.drop (firstHit closeTag rest + closeTag.length)).length ≤ n := by
              have h10 : 0 < openTag.length := by decide
              have hpos : 0 < s.length := List.length_pos.mpr hnil
              rw [hrest2]
              simp only [List.length_drop]
              omega
            obtain ⟨ih1, ih2⟩ := ih _ hlen hplain2
            rw [← hr] at hclose
            rw [specExtract_of_span hopen hclose, hr, ← hrest2]
            simp only [Trace.seq, Trace.passTag, Bool.false_eq_true, if_false, if_true,
              List.nil_append, List.append_assoc, List.flatten_cons]
            exact ⟨by rw [ih1], by rw [ih2]⟩

/-! ## The signature of a streamed block -/

theorem feedChunks_snoc : ∀ (chunks : List GoString) (te : ThinkingExtractor)
    (rnd : RandSource) (last : GoString),
    feedChunks te rnd (chunks ++ [last]) =
      (feedChunks te rnd chunks).bind fun out =>
        (ProcessTextStreaming out.2.1 out.2.2 last).map fun o =>
          (out.1 ++ [o.1], o.2.1, o.2.2)
  | [], te, rnd, last => by
    simp only [List.nil_append, feedChunks, Option.some_bind]
    cases ProcessTextStreaming te rnd last <;> simp
  | c :: cs, te, rnd, last => by
    simp only [List.cons_append, feedChunks]
    cases hc : ProcessTextStreaming te rnd c with
    | none => simp
    | some out =>
      simp only [Option.some_bind, List.append_eq]
      rw [feedChunks_snoc cs out.2.1 out.2.2 last]
      cases feedChunks out.2.1 out.2.2 cs with
      | none => rfl
      | some later =>
        simp only [Option.some_bind, Option.map_some']
        cases ProcessTextStreaming later.2.1 later.2.2 last <;> simp

/-- The accumulated thinking content after feeding chunks, in terms of the trace of the
feeding. -/
theorem feedChunks_content : ∀ (chunks : List GoString) (te : ThinkingExtractor)
    (rnd : RandSource) (rs : List StreamingExtractResult) (te' : ThinkingExtractor)
    (rnd' : RandSource), feedChunks te rnd chunks = some (rs, te', rnd') →
    te'.thinkingContent =
      (if (feedTrace te.inThinkingBlock te.buffer chunks).ends = 0 then te.thinkingContent
        else []) ++ (feedTrace te.inThinkingBlock te.buffer chunks).acc
  | [], te, rnd, rs, te', rnd', h => by
    simp only [feedChunks, Option.some.injEq, Prod.mk.injEq] at h
    obtain ⟨_, rfl, _⟩ := h
    simp [feedTrace, Trace.idle]
  | c :: cs, te, rnd, rs, te', rnd', h => by
    obtain ⟨r, te1, rnd1, hcall, hc⟩ := ProcessTextStreaming_spec te rnd c
    simp only [feedChunks, hcall, Option.some_bind] at h
    cases hf : feedChunks te1 rnd1 cs with
    | none => rw [hf] at h; cases h
    | some later =>
      rw [hf, Option.map_some', Option.some.injEq, Prod.mk.injEq, Prod.mk.injEq] at h
      obtain ⟨_, hte, _⟩ := h
      have ih := feedChunks_content cs te1 rnd1 later.1 later.2.1 later.2.2 (by rw [hf])
      rw [hte, hc.mode, hc.buffer, hc.acc] at ih
      rw [ih, feedTrace]
      simp only [Trace.seq]
      by_cases h2 : (feedTrace (scan te.inThinkingBlock (te.buffer ++ c)).inThinking
          (scan te.inThinkingBlock (te.buffer ++ c)).pending cs).ends = 0
      · by_cases h1 : (scan te.inThinkingBlock (te.buffer ++ c)).ends = 0
        · simp [h1, h2]
        · simp [h1, h2]
      · have : ¬ ((scan te.inThinkingBlock (te.buffer ++ c)).ends +
            (feedTrace (scan te.inThinkingBlock (te.buffer ++ c)).inThinking
              (scan te.inThinkingBlock (te.buffer ++ c)).pending cs).ends = 0) := by omega
        simp [h2, this]

/-- After feeding chunks to a fresh extractor the accumulated thinking content is the
thinking bytes released since the last block closed. -/
theorem feedChunks_fresh_content {chunks : List GoString} {rnd rnd' : RandSource}
    {rs : List StreamingExtractResult} {te' : ThinkingExtractor}
    (h : feedChunks NewThinkingExtractor rnd chunks = some (rs, te', rnd')) :
    te'.thinkingContent = (scan false chunks.flatten).acc := by
  have h1 := feedChunks_content chunks NewThinkingExtractor rnd rs te' rnd' h
  have h2 := feedTrace_eq chunks false [] (scan_nil false)
  simp only [NewThinkingExtractor] at h1
  rw [h2, List.nil_append] at h1
  rw [h1]
  split <;> rfl

/-- Content without a close tag, scanned from outside a thinking block, closes no
block. -/
theorem scan_ends_of_no_close {c : GoString} (hc : ¬ closeTag <:+: c) :
    (scan false c).ends = 0 := by
  by_cases hnil : c = []
  · subst hnil
    rw [scan_nil]; rfl
  · cases hh : openTag.isPrefixOf (c.drop (firstHit openTag c)) with
    | false => rw [scan_plain_hold hnil hh]; rfl
    | true =>
      have hrest : ¬ tagOf true <:+: c.drop (firstHit openTag c + openTag.length) :=
        fun hi => hc (hi.trans (List.drop_suffix _ _).isInfix)
      rw [scan_plain_hit hnil hh, scan_of_not_infix hrest]
      rfl

/-- The scan of an input in which a block opens after `pre` and closes after `t`. -/
theorem scan_block {pre t : GoString} (post : GoString)
    (hpre : (scan false pre).inThinking = false) (ht : ¬ closeTag <:+: t) :
    scan false (pre ++ (openTag ++ (t ++ (closeTag ++ post)))) =
      Trace.seq (scan false pre) (Trace.seq (Trace.passTag false (scan false pre).pending)
        (Trace.seq (Trace.passTag true t) (scan false post))) := by
  have hp := scan_pending false pre
  rw [hpre] at hp
  have hno : ¬ tagOf false <:+: (scan false pre).pending := not_infix_of_length_lt hp.2
  rw [scan_append, hpre]
  have h1 := scan_before_tag (m := false) hno (t ++ (closeTag ++ post))
  have h2 := scan_before_tag (m := true) ht post
  simp only [tagOf, if_true, if_false, Bool.not_true, Bool.not_false, Bool.false_eq_true]
    at h1 h2
  rw [h1, h2]

/-- The scan of an input in which a block opens after `pre` and does not close. -/
theorem scan_open_block {pre u : GoString}
    (hpre : (scan false pre).inThinking = false) (hu : ¬ closeTag <:+: u) :
    scan false (pre ++ (openTag ++ u)) =
      Trace.seq (scan false pre) (Trace.seq (Trace.passTag false (scan false pre).pending)
        (Trace.hold true (u.take (firstHit closeTag u)) (u.drop (firstHit closeTag u)))) := by
  have hp := scan_pending false pre
  rw [hpre] at hp
  have hno : ¬ tagOf false <:+: (scan false pre).pending := not_infix_of_length_lt hp.2
  rw [scan_append, hpre]
  have h1 := scan_before_tag (m := false) hno u
  have h2 := scan_of_not_infix (m := true) hu
  simp only [tagOf, if_true, if_false, Bool.not_true, Bool.not_false, Bool.false_eq_true]
    at h1 h2
  rw [h1, h2]

theorem fakeSignature_inRange (contentLen : Int) (rnd : RandSource) (h0 : 0 ≤ contentLen)
    (hmax : contentLen * 3 ≤ 2 ^ 63 - 1) :
    (GenerateFakeSignature contentLen rnd).1 =
        base64StdEncode (randRead rnd (clampInt (contentLen * 3 / 2) 200 1000).toNat).1 ∧
      ((randRead rnd (clampInt (contentLen * 3 / 2) 200 1000).toNat).1.length : Int) =
        clampInt (contentLen * 3 / 2) 200 1000 := by
  have hw : wrapInt (contentLen * 3) = contentLen * 3 :=
    wrapInt_of_inRange (by omega) hmax
  have hd : (contentLen * 3).tdiv 2 = contentLen * 3 / 2 :=
    Int.tdiv_eq_ediv (by omega) (by omega)
  have hclamp : (if (if contentLen * 3 / 2 < 200 then (200 : Int) else contentLen * 3 / 2) > 1000
      then (1000 : Int) else (if contentLen * 3 / 2 < 200 then 200 else contentLen * 3 / 2))
      = clampInt (contentLen * 3 / 2) 200 1000 := by
    unfold clampInt
    split_ifs <;> omega
  refine ⟨?_, ?_⟩
  · simp only [GenerateFakeSignature, hw, hd, hclamp]
  · rw [randRead_length]
    unfold clampInt
    omega

/-- Whether the extractor is in a thinking block after `pre`, read off the scan. -/
theorem plain_after {pre : GoString} {rnd : RandSource}
    (h : (feedChunks NewThinkingExtractor rnd [pre]).map
      (fun out => IsInThinkingBlock out.2.1) = some false) :
    (scan false pre).inThinking = false ∧
      (feedChunks NewThinkingExtractor rnd [pre]).map (fun out => thinkingOf out.1)
        = some (scan false pre).think := by
  obtain ⟨rs, te, rnd', hfeed, hspec⟩ := feedChunks_fresh rnd [pre]
  rw [hfeed] at h ⊢
  simp only [Option.map_some', Option.some.injEq, IsInThinkingBlock] at h ⊢
  have hfl : [pre].flatten = pre := by simp
  rw [hfl] at hspec
  exact ⟨by rw [← hspec.mode]; exact h, hspec.think⟩

theorem thinkingOf_snoc (rs : List StreamingExtractResult) (r : StreamingExtractResult) :
    thinkingOf (rs ++ [r]) = thinkingOf rs ++ r.ThinkingDelta := by
  simp [thinkingOf]

/-- Content in which no open tag has a close tag after it, scanned from outside a
thinking block, closes no block. -/
theorem scan_ends_of_no_span {c : GoString}
    (hc : ∀ i, i < c.length → openTag.isPrefixOf (c.drop i) = true →
      ¬ closeTag <:+: c.drop (i + openTag.length)) :
    (scan false c).ends = 0 := by
  by_cases hnil : c = []
  · subst hnil
    rw [scan_nil]; rfl
  · cases hh : openTag.isPrefixOf (c.drop (firstHit openTag c)) with
    | false => rw [scan_plain_hold hnil hh]; rfl
    | true =>
      have hb := hit_bound hh
      have hlen : 0 < openTag.length := by decide
      have hrest : ¬ tagOf true <:+: c.drop (firstHit openTag c + openTag.length) :=
        hc _ (by omega) hh
      rw [scan_plain_hit hnil hh, scan_of_not_infix hrest]
      rfl

/-- Content without a close tag, followed by the close tag less its last byte, holds no
close tag. -/
theorem no_close_in_piece {t : GoString} (ht : ¬ closeTag <:+: t) :
    ¬ closeTag <:+: t ++ closeTag.take 10 := by
  rintro ⟨a, b, hab⟩
  have h11 : closeTag.length = 11 := by decide
  have h10 : (closeTag.take 10).length = 10 := by decide
  have hlen : a.length + 11 + b.length = t.length + 10 := by
    have := congrArg List.length hab
    rw [List.length_append, List.length_append, List.length_append, h11, h10] at this
    exact this
  have hhit : firstHit closeTag (t ++ (closeTag ++ [])) = t.length := by
    have := @firstHit_before_tag '<' "/thinking>".toList t (by decide)
      (by rw [← closeTag_eq]; exact ht) []
    rwa [← closeTag_eq] at this
  have hocc : firstOccurrence closeTag (t ++ (closeTag ++ [])) = some t.length := by
    have := @firstOccurrence_of_hit closeTag (t ++ (closeTag ++ [])) (by
      rw [hhit, List.drop_left]
      exact List.isPrefixOf_iff_prefix.mpr (List.prefix_append _ _))
    rwa [hhit] at this
  have hmin := (firstOccurrence_some hocc).2 a.length (by omega)
  have hsplit : t ++ (closeTag ++ []) = a ++ (closeTag ++ (b ++ closeTag.drop 10)) := by
    have h1 : closeTag ++ [] = closeTag.take 10 ++ closeTag.drop 10 := by
      rw [List.take_append_drop, List.append_nil]
    rw [h1, ← List.append_assoc, ← hab]
    simp only [List.append_assoc]
  rw [hsplit, List.drop_left] at hmin
  have : closeTag.isPrefixOf (closeTag ++ (b ++ closeTag.drop 10)) = true :=
    List.isPrefixOf_iff_prefix.mpr (List.prefix_append _ _)
  rw [this] at hmin
  cases hmin

/-- The scan of a piece of the input that ends before the last byte of the close tag of
a block has closed no more blocks than the scan of what is before the block. -/
theorem scan_ends_before_close {pre t c d : GoString}
    (hpre : (scan false pre).inThinking = false) (ht : ¬ closeTag <:+: t)
    (hc : c ++ d = pre ++ (openTag ++ (t ++ closeTag.take 10))) :
    (scan false c).ends ≤ (scan false pre).ends := by
  have h := congrArg Trace.ends (scan_append false c d)
  rw [hc, scan_open_block hpre (no_close_in_piece ht)] at h
  simp only [Trace.seq, Trace.passTag, Trace.hold, if_true, if_false,
    Bool.false_eq_true] at h
  omega
/-- In an input in which a block opens after `pre` and closes after `t`, with no block
closed after that, the last block closed has content `t`. -/
theorem scan_block_closed {pre t post : GoString}
    (hpre : (scan false pre).inThinking = false) (ht : ¬ closeTag <:+: t)
    (hpost : (scan false post).ends = 0) :
    (scan false (pre ++ (openTag ++ (t ++ (closeTag ++ post))))).closed = t ∧
      (scan false (pre ++ (openTag ++ (t ++ (closeTag ++ post))))).think =
        (scan false pre).think ++ (t ++ (scan false post).think) ∧
      (scan false (pre ++ (openTag ++ (t ++ (closeTag ++ post))))).ends =
        (scan false pre).ends + 1 := by
  have hYc := scan_closed_nil false post hpost
  have hA := (scan_plain_acc false pre hpre).1
  rw [scan_block post hpre ht]
  simp [Trace.seq, Trace.passTag, hpost, hYc, hA]

/-- In an input in which a block opens after `pre` and does not close, the thinking
bytes released since the block opened are those of `u` before its pending piece. -/
theorem scan_open_block_acc {pre u : GoString}
    (hpre : (scan false pre).inThinking = false) (hu : ¬ closeTag <:+: u) :
    (scan false (pre ++ (openTag ++ u))).acc = u.take (firstHit closeTag u) ∧
      (scan false (pre ++ (openTag ++ u))).think =
        (scan false pre).think ++ u.take (firstHit closeTag u) ∧
      (scan false (pre ++ (openTag ++ u))).pending = u.drop (firstHit closeTag u) ∧
      (scan false (pre ++ (openTag ++ u))).inThinking = true := by
  have hA := (scan_plain_acc false pre hpre).1
  rw [scan_open_block hpre hu]
  simp [Trace.seq, Trace.passTag, Trace.hold, hA]

/-- The signature that a call returns when the close tag of the last block closed so far
ends in its chunk. -/
theorem closing_call_signature (pre t post : GoString) (chunks : List GoString)
    (last : GoString) (rnd : RandSource)
    (hpre : (feedChunks NewThinkingExtractor rnd [pre]).map
      (fun out => IsInThinkingBlock out.2.1) = some false)
    (ht : ¬ closeTag <:+: t)
    (hpost : ∀ i, i < post.length → openTag.isPrefixOf (post.drop i) = true →
      ¬ closeTag <:+: post.drop (i + openTag.length))
    (hs : (chunks ++ [last]).flatten = pre ++ (openTag ++ (t ++ (closeTag ++ post))))
    (hlast : post.length < last.length) :
    ∃ rs r te' rnd' earlier later,
      feedChunks NewThinkingExtractor rnd (chunks ++ [last]) = some (rs ++ [r], te', rnd') ∧
      (feedChunks NewThinkingExtractor rnd [pre]).map (fun out => thinkingOf out.1)
        = some earlier ∧
      (feedChunks NewThinkingExtractor rnd [post]).map (fun out => thinkingOf out.1)
        = some later ∧
      thinkingOf (rs ++ [r]) = earlier ++ (t ++ later) ∧
      r.ThinkingEnded = true ∧
      ∃ rnd0, r.Signature = (GenerateFakeSignature (t.length : Int) rnd0).1 ∧
        ((t.length : Int) * 3 ≤ 2 ^ 63 - 1 →
          r.Signature = base64StdEncode
            (randRead rnd0 (clampInt ((t.length : Int) * 3 / 2) 200 1000).toNat).1 ∧
          ((randRead rnd0 (clampInt ((t.length : Int) * 3 / 2) 200 1000).toNat).1.length
            : Int) = clampInt ((t.length : Int) * 3 / 2) 200 1000) := by
  obtain ⟨hA, hearlier⟩ := plain_after hpre
  obtain ⟨rs, te1, rnd1, hfeed1, hspec1⟩ := feedChunks_fresh rnd chunks
  obtain ⟨r, te2, rnd2, hcall, hc⟩ := ProcessTextStreaming_spec te1 rnd1 last
  have hall : feedChunks NewThinkingExtractor rnd (chunks ++ [last])
      = some (rs ++ [r], te2, rnd2) := by
    rw [feedChunks_snoc, hfeed1]
    simp [hcall]
  have htc := feedChunks_fresh_content hfeed1
  rw [hspec1.mode, hspec1.buffer] at hc
  have hfl : (chunks ++ [last]).flatten = chunks.flatten ++ last := by simp
  have hbefore : (scan false chunks.flatten).ends ≤ (scan false pre).ends := by
    have hw : pre ++ (openTag ++ (t ++ (closeTag ++ post)))
        = (pre ++ (openTag ++ (t ++ closeTag.take 10))) ++ (closeTag.drop 10 ++ post) := by
      have h1 : closeTag = closeTag.take 10 ++ closeTag.drop 10 :=
        (List.take_append_drop 10 closeTag).symm
      conv_lhs => rw [h1]
      simp only [List.append_assoc]
    have hcs : chunks.flatten ++ last
        = (pre ++ (openTag ++ (t ++ closeTag.take 10))) ++ (closeTag.drop 10 ++ post) := by
      rw [← hfl, hs, hw]
    have h1 : (closeTag.drop 10).length = 1 := by decide
    have hle : chunks.flatten.length
        ≤ (pre ++ (openTag ++ (t ++ closeTag.take 10))).length := by
      have := congrArg List.length hcs
      rw [List.length_append, List.length_append _ (closeTag.drop 10 ++ post),
        List.length_append (closeTag.drop 10), h1] at this
      omega
    obtain ⟨d, hd⟩ := List.prefix_of_prefix_length_le (List.prefix_append _ last)
      ⟨closeTag.drop 10 ++ post, hcs.symm⟩ hle
    exact scan_ends_before_close hA ht hd
  have hT := scan_append false chunks.flatten last
  rw [← hfl, hs] at hT
  obtain ⟨hclosed, hthink, hends⟩ := scan_block_closed hA ht (scan_ends_of_no_span hpost)
  rw [hT] at hclosed hthink hends
  have hpos : 0 < (scan (scan false chunks.flatten).inThinking
      ((scan false chunks.flatten).pending ++ last)).ends := by
    simp only [Trace.seq] at hends
    omega
  have hended : r.ThinkingEnded = true := by
    rw [hc.ended]
    exact decide_eq_true hpos
  have hlater : (feedChunks NewThinkingExtractor rnd [post]).map
      (fun out => thinkingOf out.1) = some (scan false post).think := by
    obtain ⟨rsp, tep, rndp, hfp, hsp⟩ := feedChunks_fresh rnd [post]
    have hflp : [post].flatten = post := by simp
    rw [hflp] at hsp
    rw [hfp, Option.map_some', hsp.think]
  refine ⟨rs, r, te2, rnd2, _, (scan false post).think, hall, hearlier, hlater, ?_,
    hended, ?_⟩
  · rw [thinkingOf_snoc, hspec1.think, hc.think, ← hthink]
    rfl
  · obtain ⟨rnd0, hsig⟩ := hc.sigOf hpos
    have harg : (if (scan (scan false chunks.flatten).inThinking
          ((scan false chunks.flatten).pending ++ last)).ends = 1
        then te1.thinkingContent else []) ++
        (scan (scan false chunks.flatten).inThinking
          ((scan false chunks.flatten).pending ++ last)).closed = t := by
      have hne : (scan (scan false chunks.flatten).inThinking
          ((scan false chunks.flatten).pending ++ last)).ends ≠ 0 := by omega
      rw [← hclosed, htc]
      simp [Trace.seq, hne]
    rw [harg] at hsig
    refine ⟨rnd0, hsig, ?_⟩
    intro hfit
    have := fakeSignature_inRange (t.length : Int) rnd0 (by omega) hfit
    exact ⟨by rw [hsig]; exact this.1, this.2⟩

/-- The signature that `FlushStreaming` returns for a block left open. -/
theorem flush_signature (pre u : GoString) (chunks : List GoString) (rnd : RandSource)
    (hpre : (feedChunks NewThinkingExtractor rnd [pre]).map
      (fun out => IsInThinkingBlock out.2.1) = some false)
    (hu : ¬ closeTag <:+: u) (hs : chunks.flatten = pre ++ (openTag ++ u)) :
    ∃ rs fl te' earlier emitted,
      runStream rnd chunks = some (rs, fl, te') ∧
      (feedChunks NewThinkingExtractor rnd [pre]).map (fun out => thinkingOf out.1)
        = some earlier ∧
      thinkingOf rs = earlier ++ emitted ∧
      emitted ++ fl.TextDelta = u ∧
      fl.ThinkingEnded = true ∧
      ∃ rnd0, fl.Signature = (GenerateFakeSignature (emitted.length : Int) rnd0).1 ∧
        ((emitted.length : Int) * 3 ≤ 2 ^ 63 - 1 →
          fl.Signature = base64StdEncode
            (randRead rnd0 (clampInt ((emitted.length : Int) * 3 / 2) 200 1000).toNat).1 ∧
          ((randRead rnd0 (clampInt ((emitted.length : Int) * 3 / 2) 200 1000).toNat).1.length
            : Int) = clampInt ((emitted.length : Int) * 3 / 2) 200 1000) := by
  obtain ⟨hA, hearlier⟩ := plain_after hpre
  obtain ⟨rs, te, rnd', hfeed, hrun, hspec⟩ := runStream_spec rnd chunks
  have htc := feedChunks_fresh_content hfeed
  rw [hs] at hspec htc
  obtain ⟨hacc, hthink, hpend, hmode⟩ := scan_open_block_acc hA hu
  have hm : te.inThinkingBlock = true := by rw [hspec.mode, hmode]
  have hsig : (FlushStreaming te rnd').1.Signature =
      (GenerateFakeSignature ((u.take (firstHit closeTag u)).length : Int) rnd').1 := by
    rw [FlushStreaming_Signature, hm, if_pos rfl, generateSignature_eq, htc, hacc]
  refine ⟨rs, _, _, _, u.take (firstHit closeTag u), hrun, hearlier, ?_, ?_, ?_, rnd', hsig, ?_⟩
  · rw [hspec.think, hthink]
  · rw [FlushStreaming_TextDelta, hspec.buffer, hpend, List.take_append_drop]
  · rw [FlushStreaming_ThinkingEnded, hm]
  · intro hfit
    have := fakeSignature_inRange ((u.take (firstHit closeTag u)).length : Int) rnd'
      (by omega) hfit
    exact ⟨by rw [hsig]; exact this.1, this.2⟩

/-- A tag that occurs in the content is met in full at the first hit. -/
theorem hit_of_occurrence {tag c : GoString} (h : tag <:+: c) :
    tag.isPrefixOf (c.drop (firstHit tag c)) = true := by
  cases hh : tag.isPrefixOf (c.drop (firstHit tag c)) with
  | true => rfl
  | false =>
    obtain ⟨a, b, hab⟩ := h
    have h1 := firstOccurrence_none (firstOccurrence_of_hold hh) a.length
    rw [← hab, List.append_assoc, List.drop_left] at h1
    have h2 : tag.isPrefixOf (tag ++ b) = true :=
      List.isPrefixOf_iff_prefix.mpr (List.prefix_append _ _)
    rw [h2] at h1
    cases h1

/-- The content around a tag that stands at position `k`. -/
theorem split_at_tag {tag c : GoString} {k : Nat} (h : tag.isPrefixOf (c.drop k) = true) :
    c = c.take k ++ (tag ++ c.drop (k + tag.length)) := by
  obtain ⟨r, hr⟩ := List.isPrefixOf_iff_prefix.mp h
  have hr2 : r = c.drop (k + tag.length) := by
    have := congrArg (List.drop tag.length) hr
    rw [List.drop_left, List.drop_drop] at this
    exact this
  rw [← hr2, hr, List.take_append_drop]

/-- No tag occurs in the content before the first hit. -/
theorem no_tag_before_hit (tag c : GoString) (h0 : tag ≠ []) :
    ¬ tag <:+: c.take (firstHit tag c) := by
  rintro ⟨a, b, hab⟩
  have hlen := congrArg List.length hab
  rw [List.length_append, List.length_append, List.length_take] at hlen
  have hpos : 0 < tag.length := List.length_pos.mpr h0
  have hlt : a.length < firstHit tag c := by omega
  have hc := not_compat_before tag c a.length hlt
  have hsplit : c = a ++ (tag ++ (b ++ c.drop (firstHit tag c))) := by
    conv_lhs => rw [← List.take_append_drop (firstHit tag c) c, ← hab]
    simp only [List.append_assoc]
  have hpre : tag.isPrefixOf (c.drop a.length) = true := by
    rw [hsplit, List.drop_left]
    exact List.isPrefixOf_iff_prefix.mpr (List.prefix_append _ _)
  rw [compat_of_isPrefixOf hpre] at hc
  cases hc

/-- An input whose scan has closed a block ends with a last block closed: it is some
`pre` that leaves the scan outside a thinking block, the open tag, a content `t` without
a close tag, the close tag, and a `post` in which no block is closed. -/
theorem scan_last_block : ∀ (n : Nat) (s : GoString), s.length ≤ n →
    0 < (scan false s).ends →
    ∃ pre t post, s = pre ++ (openTag ++ (t ++ (closeTag ++ post))) ∧
      (scan false pre).inThinking = false ∧ ¬ closeTag <:+: t ∧
      (scan false post).ends = 0 := by
  intro n
  induction n with
  | zero =>
    intro s hs hpos
    have : s = [] := List.length_eq_zero.mp (by omega)
    subst this
    rw [scan_nil] at hpos
    simp [Trace.idle] at hpos
  | succ n ih =>
    intro s hs hpos
    by_cases hnil : s = []
    · subst hnil
      rw [scan_nil] at hpos
      simp [Trace.idle] at hpos
    cases hh : openTag.isPrefixOf (s.drop (firstHit openTag s)) with
    | false =>
      rw [scan_plain_hold hnil hh] at hpos
      simp [Trace.hold] at hpos
    | true =>
      rw [scan_plain_hit hnil hh] at hpos
      have hpos' : 0 < (scan true (s.drop (firstHit openTag s + openTag.length))).ends := by
        simpa [Trace.seq, Trace.passTag] using hpos
      generalize hrest : s.drop (firstHit openTag s + openTag.length) = rest at hpos'
      by_cases hrnil : rest = []
      · subst hrnil
        rw [scan_nil] at hpos'
        simp [Trace.idle] at hpos'
      cases hh2 : closeTag.isPrefixOf (rest.drop (firstHit closeTag rest)) with
      | false =>
        rw [scan_think_hold hrnil hh2] at hpos'
        simp [Trace.hold] at hpos'
      | true =>
        have hs1 := split_at_tag hh
        have hs2 := split_at_tag hh2
        rw [hrest] at hs1
        have hshape : s = s.take (firstHit openTag s) ++
            (openTag ++ (rest.take (firstHit closeTag rest) ++
              (closeTag ++ rest.drop (firstHit closeTag rest + closeTag.length)))) := by
          conv_lhs => rw [hs1, hs2]
        have hA : (scan false (s.take (firstHit openTag s))).inThinking = false := by
          rw [ scan_of_not_infix (m := false) (no_tag_before_hit openTag s (by decide))]
          rfl
        have ht : ¬ closeTag <:+: rest.take (firstHit closeTag rest) :=
          no_tag_before_hit closeTag rest (by decide)
        by_cases h2 : (scan false (rest.drop (firstHit closeTag rest + closeTag.length))).ends = 0
        · exact ⟨_, _, _, hshape, hA, ht, h2⟩
        · have hb1 := hit_bound hh
          have hb2 := hit_bound hh2
          have hl1 : 0 < openTag.length := by decide
          have hl2 : 0 < closeTag.length := by decide
          have hrl : rest.length ≤ s.length := by
            rw [← hrest, List.length_drop]; omega
          obtain ⟨pre2, t2, post2, hr2, hp2, ht2, hpost2⟩ :=
            ih (rest.drop (firstHit closeTag rest + closeTag.length))
              (by rw [List.length_drop]; omega) (by omega)
          refine ⟨s.take (firstHit openTag s) ++
              (openTag ++ (rest.take (firstHit closeTag rest) ++ (closeTag ++ pre2))),
            t2, post2, ?_, ?_, ht2, hpost2⟩
          · conv_lhs => rw [hshape, hr2]
            simp only [List.append_assoc]
          · rw [scan_block pre2 hA ht]
            simp only [Trace.seq]
            exact hp2

/-- When no block is closed in the scan of a content, none of its open tags has a close
tag after it. -/
theorem no_span_of_scan_ends {post : GoString} (h : (scan false post).ends = 0) :
    ∀ i, i < post.length → openTag.isPrefixOf (post.drop i) = true →
      ¬ closeTag <:+: post.drop (i + openTag.length) := by
  intro i hi ho hc
  have hnil : post ≠ [] := by
    intro h0; subst h0; simp at hi
  have hin : openTag <:+: post := ⟨post.take i, post.drop (i + openTag.length), by
    rw [List.append_assoc]; exact (split_at_tag ho).symm⟩
  have hh := hit_of_occurrence hin
  have hle : firstHit openTag post ≤ i := by
    by_contra hlt
    have := not_compat_before openTag post i (by omega)
    rw [compat_of_isPrefixOf ho] at this
    cases this
  rw [scan_plain_hit hnil hh] at h
  have h' : (scan true (post.drop (firstHit openTag post + openTag.length))).ends = 0 := by
    simpa [Trace.seq, Trace.passTag] using h
  have hsuf : post.drop (i + openTag.length)
      <:+ post.drop (firstHit openTag post + openTag.length) := by
    have : post.drop (i + openTag.length)
        = (post.drop (firstHit openTag post + openTag.length)).drop
            (i - firstHit openTag post) := by
      rw [List.drop_drop]
      congr 1
      omega
    rw [this]
    exact List.drop_suffix _ _
  have hc' : closeTag <:+: post.drop (firstHit openTag post + openTag.length) :=
    hc.trans hsuf.isInfix
  have hrnil : post.drop (firstHit openTag post + openTag.length) ≠ [] := by
    intro h0
    rw [h0] at hc'
    have := hc'.length_le
    simp [closeTag] at this
  rw [scan_think_hit hrnil (hit_of_occurrence hc')] at h'
  simp [Trace.seq, Trace.passTag] at h'
/-- An input whose scan ends in a thinking block ends with an open block: it is some
`pre` that leaves the scan outside a thinking block, the open tag, and a content `u`
without a close tag. -/
theorem scan_open_shape : ∀ (n : Nat) (s : GoString), s.length ≤ n →
    (scan false s).inThinking = true →
    ∃ pre u, s = pre ++ (openTag ++ u) ∧
      (scan false pre).inThinking = false ∧ ¬ closeTag <:+: u := by
  intro n
  induction n with
  | zero =>
    intro s hs hin
    have : s = [] := List.length_eq_zero.mp (by omega)
    subst this
    rw [scan_nil] at hin
    simp [Trace.idle] at hin
  | succ n ih =>
    intro s hs hin
    by_cases hnil : s = []
    · subst hnil
      rw [scan_nil] at hin
      simp [Trace.idle] at hin
    cases hh : openTag.isPrefixOf (s.drop (firstHit openTag s)) with
    | false =>
      rw [scan_plain_hold hnil hh] at hin
      simp [Trace.hold] at hin
    | true =>
      rw [scan_plain_hit hnil hh] at hin
      have hin' : (scan true (s.drop (firstHit openTag s + openTag.length))).inThinking
          = true := by
        simpa [Trace.seq] using hin
      have hs1 := split_at_tag hh
      have hA : (scan false (s.take (firstHit openTag s))).inThinking = false := by
        rw [ scan_of_not_infix (m := false) (no_tag_before_hit openTag s (by decide))]
        rfl
      generalize hrest : s.drop (firstHit openTag s + openTag.length) = rest at hin' hs1
      cases hh2 : closeTag.isPrefixOf (rest.drop (firstHit closeTag rest)) with
      | false =>
        refine ⟨_, rest, hs1, hA, ?_⟩
        intro hc
        rw [hit_of_occurrence hc] at hh2
        cases hh2
      | true =>
        have hrnil : rest ≠ [] := by
          intro h0
          subst h0
          have := hit_bound hh2
          simp [closeTag] at this
        rw [scan_think_hit hrnil hh2] at hin'
        have hin2 : (scan false (rest.drop (firstHit closeTag rest + closeTag.length))).inThinking
            = true := by
          simpa [Trace.seq] using hin'
        have hs2 := split_at_tag hh2
        have ht : ¬ closeTag <:+: rest.take (firstHit closeTag rest) :=
          no_tag_before_hit closeTag rest (by decide)
        have hb1 := hit_bound hh
        have hb2 := hit_bound hh2
        have hl1 : 0 < openTag.length := by decide
        have hl2 : 0 < closeTag.length := by decide
        have hrl : rest.length ≤ s.length := by
          rw [← hrest, List.length_drop]; omega
        obtain ⟨pre2, u, hr2, hp2, hu⟩ :=
          ih (rest.drop (firstHit closeTag rest + closeTag.length))
            (by rw [List.length_drop]; omega) hin2
        refine ⟨s.take (firstHit openTag s) ++
            (openTag ++ (rest.take (firstHit closeTag rest) ++ (closeTag ++ pre2))),
          u, ?_, ?_, hu⟩
        · conv_lhs => rw [hs1, hs2, hr2]
          simp only [List.append_assoc]
        · rw [scan_block pre2 hA ht]
          simp only [Trace.seq]
          exact hp2

/-- Whether the extractor is in a thinking block after `pre`, from the scan. -/
theorem plain_of_scan {pre : GoString} (rnd : RandSource)
    (h : (scan false pre).inThinking = false) :
    (feedChunks NewThinkingExtractor rnd [pre]).map
      (fun out => IsInThinkingBlock out.2.1) = some false := by
  obtain ⟨rs, te, rnd', hfeed, hspec⟩ := feedChunks_fresh rnd [pre]
  have hfl : [pre].flatten = pre := by simp
  rw [hfl] at hspec
  rw [hfeed]
  simp only [Option.map_some', IsInThinkingBlock, hspec.mode, h]

/-- A call that reports `ThinkingEnded` has received an input of the shape of
`closing_call_signature`. -/
theorem closing_call_shape (chunks : List GoString) (last : GoString) (rnd : RandSource) :
    ∃ rs r te' rnd',
      feedChunks NewThinkingExtractor rnd (chunks ++ [last]) = some (rs ++ [r], te', rnd') ∧
      (r.ThinkingEnded = true →
        ∃ pre t post,
          (feedChunks NewThinkingExtractor rnd [pre]).map
            (fun out => IsInThinkingBlock out.2.1) = some false ∧
          ¬ closeTag <:+: t ∧
          (∀ i, i < post.length → openTag.isPrefixOf (post.drop i) = true →
            ¬ closeTag <:+: post.drop (i + openTag.length)) ∧
          (chunks ++ [last]).flatten = pre ++ (openTag ++ (t ++ (closeTag ++ post))) ∧
          post.length < last.length) := by
  obtain ⟨rs, te1, rnd1, hfeed1, hspec1⟩ := feedChunks_fresh rnd chunks
  obtain ⟨r, te2, rnd2, hcall, hc⟩ := ProcessTextStreaming_spec te1 rnd1 last
  have hall : feedChunks NewThinkingExtractor rnd (chunks ++ [last])
      = some (rs ++ [r], te2, rnd2) := by
    rw [feedChunks_snoc, hfeed1]
    simp [hcall]
  rw [hspec1.mode, hspec1.buffer] at hc
  refine ⟨rs, r, te2, rnd2, hall, ?_⟩
  intro hended
  have hpos : 0 < (scan (scan false chunks.flatten).inThinking
      ((scan false chunks.flatten).pending ++ last)).ends := by
    have := hc.ended
    rw [hended] at this
    exact of_decide_eq_true this.symm
  have hfl : (chunks ++ [last]).flatten = chunks.flatten ++ last := by simp
  have hT := scan_append false chunks.flatten last
  have hTends : (scan false (chunks.flatten ++ last)).ends
      = (scan false chunks.flatten).ends +
        (scan (scan false chunks.flatten).inThinking
          ((scan false chunks.flatten).pending ++ last)).ends := by
    rw [hT]; rfl
  obtain ⟨pre, t, post, hshape, hA, ht, hpost⟩ :=
    scan_last_block _ (chunks.flatten ++ last) (le_refl _) (by omega)
  refine ⟨pre, t, post, plain_of_scan rnd hA, ht, no_span_of_scan_ends hpost,
    by rw [hfl, hshape], ?_⟩
  by_contra hge
  have hw : pre ++ (openTag ++ (t ++ (closeTag ++ post)))
      = (pre ++ (openTag ++ (t ++ closeTag))) ++ post := by
    simp only [List.append_assoc]
  have hcs : chunks.flatten ++ last = (pre ++ (openTag ++ (t ++ closeTag))) ++ post := by
    rw [hshape, hw]
  have hle : (pre ++ (openTag ++ (t ++ closeTag))).length ≤ chunks.flatten.length := by
    have := congrArg List.length hcs
    rw [List.length_append, List.length_append _ post] at this
    omega
  obtain ⟨e, he⟩ := List.prefix_of_prefix_length_le
    (show pre ++ (openTag ++ (t ++ closeTag)) <+: chunks.flatten ++ last from
      ⟨post, hcs.symm⟩) (List.prefix_append _ last) hle
  have h1 : (scan false chunks.flatten).ends
      = (scan false pre).ends + (1 + (scan false e).ends) := by
    have hce : chunks.flatten = pre ++ (openTag ++ (t ++ (closeTag ++ e))) := by
      rw [← he]; simp only [List.append_assoc]
    rw [hce, scan_block e hA ht]
    simp [Trace.seq, Trace.passTag]
  have h2 := (scan_block_closed hA ht hpost).2.2
  rw [← hshape, hTends] at h2
  omega

/-- A flush that reports `ThinkingEnded` follows an input of the shape of
`flush_signature`. -/
theorem flush_shape (chunks : List GoString) (rnd : RandSource) :
    ∃ rs fl te', runStream rnd chunks = some (rs, fl, te') ∧
      (fl.ThinkingEnded = true →
        ∃ pre u,
          (feedChunks NewThinkingExtractor rnd [pre]).map
            (fun out => IsInThinkingBlock out.2.1) = some false ∧
          ¬ closeTag <:+: u ∧ chunks.flatten = pre ++ (openTag ++ u)) := by
  obtain ⟨rs, te, rnd', hfeed, hrun, hspec⟩ := runStream_spec rnd chunks
  refine ⟨rs, _, _, hrun, ?_⟩
  intro hended
  rw [FlushStreaming_ThinkingEnded, hspec.mode] at hended
  obtain ⟨pre, u, hshape, hA, hu⟩ := scan_open_shape _ chunks.flatten (le_refl _) hended
  exact ⟨pre, u, plain_of_scan rnd hA, hu, hshape⟩

set_option maxRecDepth 20000 in
/-- Counterexample to C16 as worded: one call that closes two blocks.  A fresh extractor
is given `"<thinking>"`, 136 bytes `a`, `"</thinking><thinking>bb</thinking>"` in one
chunk.  The call closes the block of 136 bytes, for which the claim requires the encoding
of `clamp(136 * 3 / 2, 200, 1000) = 204` bytes, and then the block of 2 bytes; each close
assigns `result.Signature`, so the call returns the signature of the block of 2 bytes,
the encoding of 200 bytes, which is the encoding of no 204 bytes. -/
theorem streaming_signature_size_counterexample :
    (ProcessTextStreaming NewThinkingExtractor (fun _ => 0)
        (openTag ++ List.replicate 136 'a' ++ closeTag ++ openTag ++ "bb".toList
          ++ closeTag)).map
        (fun out => (out.1.ThinkingEnded, out.1.ThinkingDelta, out.1.Signature))
      = some (true, List.replicate 136 'a' ++ "bb".toList,
          base64StdEncode (randRead (fun _ => 0) 200).1) ∧
    clampInt (((List.replicate 136 'a').length : Int) * 3 / 2) 200 1000 = 204 ∧
    ¬ ∃ bytes : List Nat, bytes.length = 204 ∧
      base64StdEncode (randRead (fun _ => 0) 200).1 = base64StdEncode bytes := by
  refine ⟨by decide, by decide, ?_⟩
  rintro ⟨bytes, hlen, heq⟩
  have h1 := congrArg List.length heq
  rw [base64StdEncode_length, base64StdEncode_length, randRead_length, hlen] at h1
  omega

/-- C16 amended, the streaming signature is sized from the last block closed only.  The
input fed so far is written as `pre`, after which the extractor is outside a thinking
block and has streamed the thinking bytes `earlier`, then `<thinking>`, then the content
of a block.

First part: the block has content `t` and is closed by `</thinking>`, no block is closed
in the input `post` after it, and the last byte of that close tag is in the chunk `last`
of the last call, so that this is the last block that the call closes.  Then the thinking
bytes streamed over all calls are `earlier`, then `t`, then `later`, those that `post`
alone would stream, and the result `r` of the last call has `ThinkingEnded = true` and
the `Signature` that `GenerateFakeSignature` returns for `len(t)`: the bytes of earlier
blocks are not counted, those closed earlier in the same call included.

Second part: the block is left open with content `u`.  Then `FlushStreaming` has
`ThinkingEnded = true` and the `Signature` that `GenerateFakeSignature` returns for the
number of thinking bytes `emitted` since the open tag, the held-back piece of `u` being
returned as `TextDelta`.

In both parts, where `L * 3` fits Go's `int`, as it does for every string that fits in
memory, the signature is the base64 encoding of `clamp(floor(L * 3 / 2), 200, 1000)`
random bytes.

Third and fourth part: these are the only cases.  Whenever the last call of
`ProcessTextStreaming` on a fresh extractor's stream reports `ThinkingEnded`, the input
fed so far has the shape of the first part, and whenever `FlushStreaming` after such a
stream reports `ThinkingEnded`, the input has the shape of the second part. -/
theorem streaming_signature_size :
    (∀ (pre t post : GoString) (chunks : List GoString) (last : GoString) (rnd : RandSource),
      (feedChunks NewThinkingExtractor rnd [pre]).map
        (fun out => IsInThinkingBlock out.2.1) = some false →
      ¬ closeTag <:+: t →
      (∀ i, i < post.length → openTag.isPrefixOf (post.drop i) = true →
        ¬ closeTag <:+: post.drop (i + openTag.length)) →
      (chunks ++ [last]).flatten = pre ++ (openTag ++ (t ++ (closeTag ++ post))) →
      post.length < last.length →
      ∃ rs r te' rnd' earlier later,
        feedChunks NewThinkingExtractor rnd (chunks ++ [last])
          = some (rs ++ [r], te', rnd') ∧
        (feedChunks NewThinkingExtractor rnd [pre]).map (fun out => thinkingOf out.1)
          = some earlier ∧
        (feedChunks NewThinkingExtractor rnd [post]).map (fun out => thinkingOf out.1)
          = some later ∧
        thinkingOf (rs ++ [r]) = earlier ++ (t ++ later) ∧
        r.ThinkingEnded = true ∧
        ∃ rnd0, r.Signature = (GenerateFakeSignature (t.length : Int) rnd0).1 ∧
          ((t.length : Int) * 3 ≤ 2 ^ 63 - 1 →
            r.Signature = base64StdEncode
              (randRead rnd0 (clampInt ((t.length : Int) * 3 / 2) 200 1000).toNat).1 ∧
            ((randRead rnd0
                (clampInt ((t.length : Int) * 3 / 2) 200 1000).toNat).1.length : Int)
              = clampInt ((t.length : Int) * 3 / 2) 200 1000)) ∧
    (∀ (pre u : GoString) (chunks : List GoString) (rnd : RandSource),
      (feedChunks NewThinkingExtractor rnd [pre]).map
        (fun out => IsInThinkingBlock out.2.1) = some false →
      ¬ closeTag <:+: u →
      chunks.flatten = pre ++ (openTag ++ u) →
      ∃ rs fl te' earlier emitted,
        runStream rnd chunks = some (rs, fl, te') ∧
        (feedChunks NewThinkingExtractor rnd [pre]).map (fun out => thinkingOf out.1)
          = some earlier ∧
        thinkingOf rs = earlier ++ emitted ∧
        emitted ++ fl.TextDelta = u ∧
        fl.ThinkingEnded = true ∧
        ∃ rnd0, fl.Signature = (GenerateFakeSignature (emitted.length : Int) rnd0).1 ∧
          ((emitted.length : Int) * 3 ≤ 2 ^ 63 - 1 →
            fl.Signature = base64StdEncode
              (randRead rnd0
                (clampInt ((emitted.length : Int) * 3 / 2) 200 1000).toNat).1 ∧
            ((randRead rnd0
                (clampInt ((emitted.length : Int) * 3 / 2) 200 1000).toNat).1.length : Int)
              = clampInt ((emitted.length : Int) * 3 / 2) 200 1000)) ∧
    (∀ (chunks : List GoString) (last : GoString) (rnd : RandSource),
      ∃ rs r te' rnd',
        feedChunks NewThinkingExtractor rnd (chunks ++ [last])
          = some (rs ++ [r], te', rnd') ∧
        (r.ThinkingEnded = true →
          ∃ pre t post,
            (feedChunks NewThinkingExtractor rnd [pre]).map
              (fun out => IsInThinkingBlock out.2.1) = some false ∧
            ¬ closeTag <:+: t ∧
            (∀ i, i < post.length → openTag.isPrefixOf (post.drop i) = true →
              ¬ closeTag <:+: post.drop (i + openTag.length)) ∧
            (chunks ++ [last]).flatten = pre ++ (openTag ++ (t ++ (closeTag ++ post))) ∧
            post.length < last.length)) ∧
    (∀ (chunks : List GoString) (rnd : RandSource),
      ∃ rs fl te', runStream rnd chunks = some (rs, fl, te') ∧
        (fl.ThinkingEnded = true →
          ∃ pre u,
            (feedChunks NewThinkingExtractor rnd [pre]).map
              (fun out => IsInThinkingBlock out.2.1) = some false ∧
            ¬ closeTag <:+: u ∧ chunks.flatten = pre ++ (openTag ++ u))) :=
  ⟨closing_call_signature, flush_signature, closing_call_shape, flush_shape⟩

set_option maxRecDepth 40000 in
/-- The amended claim C16 at an input with a first block of 200 bytes `b`, the text `x`
and a second block of 136 bytes `a`.  Fed as `"<thinking>" b…b "</thinking>x<thin"`,
`"king>" a…a` (100 bytes `a`), `a…a "</thinking> y"` (36 bytes `a`), the last call closes
the second block, and its signature encodes `clamp(136 * 3 / 2, 200, 1000) = 204` bytes,
not the 504 bytes of 336 thinking bytes.  Fed as `"<thinking>" b…b "</thinking>x<thin"`,
`"king>" a…a "</thi"` (136 bytes `a`) and flushed, the flush closes the open block,
returns `"</thi"` as text and a signature that encodes 204 bytes. -/
theorem streaming_signature_size_witness :
    (∃ rs r te' rnd',
      feedChunks NewThinkingExtractor (fun _ => 0)
          ([openTag ++ List.replicate 200 'b' ++ closeTag ++ "x<thin".toList,
              "king>".toList ++ List.replicate 100 'a']
            ++ [List.replicate 36 'a' ++ "</thinking> y".toList])
        = some (rs ++ [r], te', rnd') ∧
      thinkingOf (rs ++ [r]) = List.replicate 200 'b' ++ List.replicate 136 'a' ∧
      r.ThinkingEnded = true ∧
      ∃ rnd0, r.Signature = base64StdEncode (randRead rnd0 204).1 ∧
        (randRead rnd0 204).1.length = 204) ∧
    (∃ rs fl te',
      runStream (fun _ => 0)
          [openTag ++ List.replicate 200 'b' ++ closeTag ++ "x<thin".toList,
            "king>".toList ++ List.replicate 136 'a' ++ "</thi".toList]
        = some (rs, fl, te') ∧
      thinkingOf rs = List.replicate 200 'b' ++ List.replicate 136 'a' ∧
      fl.TextDelta = "</thi".toList ∧
      fl.ThinkingEnded = true ∧
      ∃ rnd0, fl.Signature = base64StdEncode (randRead rnd0 204).1 ∧
        (randRead rnd0 204).1.length = 204) := by
  have h204 : clampInt (((List.replicate 136 'a').length : Int) * 3 / 2) 200 1000 = 204 := by
    decide
  have h2 : (204 : Int).toNat = 204 := rfl
  constructor
  · obtain ⟨rs, r, te', rnd', earlier, later, hfeed, _, _, _, hended, rnd0, _, hclamp⟩ :=
      streaming_signature_size.1
        (openTag ++ List.replicate 200 'b' ++ closeTag ++ "x".toList)
        (List.replicate 136 'a') " y".toList
        [openTag ++ List.replicate 200 'b' ++ closeTag ++ "x<thin".toList,
          "king>".toList ++ List.replicate 100 'a']
        (List.replicate 36 'a' ++ "</thinking> y".toList)
        (fun _ => 0) (by decide) (by decide) (by decide) (by decide) (by decide)
    have hval : (feedChunks NewThinkingExtractor (fun _ => 0)
        ([openTag ++ List.replicate 200 'b' ++ closeTag ++ "x<thin".toList,
            "king>".toList ++ List.replicate 100 'a']
          ++ [List.replicate 36 'a' ++ "</thinking> y".toList])).map
        (fun out => thinkingOf out.1)
        = some (List.replicate 200 'b' ++ List.replicate 136 'a') := by decide
    rw [hfeed] at hval
    simp only [Option.map_some', Option.some.injEq] at hval
    have h := hclamp (by decide)
    rw [h204, h2] at h
    exact ⟨rs, r, te', rnd', hfeed, hval, hended, rnd0, h.1, by exact_mod_cast h.2⟩
  · obtain ⟨rs, fl, te', earlier, emitted, hrun, hearlier, hthink, htext, hended, hsig⟩ :=
      streaming_signature_size.2.1
        (openTag ++ List.replicate 200 'b' ++ closeTag ++ "x".toList)
        (List.replicate 136 'a' ++ "</thi".toList)
        [openTag ++ List.replicate 200 'b' ++ closeTag ++ "x<thin".toList,
          "king>".toList ++ List.replicate 136 'a' ++ "</thi".toList]
        (fun _ => 0) (by decide) (by decide) (by decide)
    have hval : (runStream (fun _ => 0)
        [openTag ++ List.replicate 200 'b' ++ closeTag ++ "x<thin".toList,
          "king>".toList ++ List.replicate 136 'a' ++ "</thi".toList]).map
        (fun out => (thinkingOf out.1, out.2.1.TextDelta))
        = some (List.replicate 200 'b' ++ List.replicate 136 'a', "</thi".toList) := by
      decide
    rw [hrun] at hval
    simp only [Option.map_some', Option.some.injEq, Prod.mk.injEq] at hval
    have hearlier' : earlier = List.replicate 200 'b' := by
      have : (feedChunks NewThinkingExtractor (fun _ => 0)
          [openTag ++ List.replicate 200 'b' ++ closeTag ++ "x".toList]).map
          (fun out => thinkingOf out.1) = some (List.replicate 200 'b') := by decide
      rw [this] at hearlier
      exact (Option.some.inj hearlier).symm
    have hem : emitted = List.replicate 136 'a' := by
      have := hthink
      rw [hval.1, hearlier'] at this
      exact (List.append_cancel_left this).symm
    obtain ⟨rnd0, _, hclamp⟩ := hsig
    rw [hem] at hclamp
    have h := hclamp (by decide)
    rw [h204, h2] at h
    exact ⟨rs, fl, te', hrun, hval.1, hval.2, hended, rnd0, h.1, by exact_mod_cast h.2⟩

/-! ## Streaming and batch extraction, block by block -/

/-- The first occurrence is the least position at which the string stands. -/
theorem firstOccurrence_of_first {sub c : GoString} {i : Nat}
    (h1 : sub.isPrefixOf (c.drop i) = true)
    (h2 : ∀ k, k < i → sub.isPrefixOf (c.drop k) = false) :
    firstOccurrence sub c = some i := by
  cases h : firstOccurrence sub c with
  | none =>
    rw [firstOccurrence_none h i] at h1
    cases h1
  | some j =>
    obtain ⟨h3, h4⟩ := firstOccurrence_some h
    rcases Nat.lt_trichotomy j i with hlt | heq | hgt
    · rw [h2 j hlt] at h3
      cases h3
    · rw [heq]
    · rw [h4 i hgt] at h1
      cases h1

/-- The first occurrence in a content stays the first when more content follows. -/
theorem firstOccurrence_append {sub c : GoString} {i : Nat} (x : GoString)
    (h : firstOccurrence sub c = some i) : firstOccurrence sub (c ++ x) = some i := by
  obtain ⟨h1, h2⟩ := firstOccurrence_some h
  have hb := firstOccurrence_bound h
  apply firstOccurrence_of_first
  · rw [List.drop_append_of_le_length (by omega)]
    exact List.isPrefixOf_iff_prefix.mpr
      ((List.isPrefixOf_iff_prefix.mp h1).trans (List.prefix_append _ _))
  · intro k hk
    rw [List.drop_append_of_le_length (by omega)]
    cases hp : sub.isPrefixOf (c.drop k ++ x) with
    | false => rfl
    | true =>
      have hpre := List.prefix_of_prefix_length_le (List.isPrefixOf_iff_prefix.mp hp)
        (List.prefix_append (c.drop k) x) (by rw [List.length_drop]; omega)
      have h3 := h2 k hk
      rw [List.isPrefixOf_iff_prefix.mpr hpre] at h3
      cases h3

/-- The spans of an input in which a block with content `t` stands after a `pre`
without an open tag. -/
theorem specExtract_block_first {pre : GoString} (t post : GoString)
    (ht : ¬ closeTag <:+: t) (hno : firstOccurrence openTag pre = none) :
    (specExtract (pre ++ (openTag ++ (t ++ (closeTag ++ post))))).1 =
      (specExtract pre).1 ++ t :: (specExtract post).1 := by
  have hnot : ¬ openTag <:+: pre := by
    intro hin
    rw [firstOccurrence_of_hit (hit_of_occurrence hin)] at hno
    cases hno
  have hhit1 : firstHit openTag (pre ++ (openTag ++ (t ++ (closeTag ++ post))))
      = pre.length := by
    have := @firstHit_before_tag '<' "thinking>".toList pre (by decide)
      (by rw [← openTag_eq]; exact hnot) (t ++ (closeTag ++ post))
    rwa [← openTag_eq] at this
  have hopen : firstOccurrence openTag (pre ++ (openTag ++ (t ++ (closeTag ++ post))))
      = some pre.length := by
    have := @firstOccurrence_of_hit openTag (pre ++ (openTag ++ (t ++ (closeTag ++ post))))
      (by
        rw [hhit1, List.drop_left]
        exact List.isPrefixOf_iff_prefix.mpr (List.prefix_append _ _))
    rwa [hhit1] at this
  have hdrop : (pre ++ (openTag ++ (t ++ (closeTag ++ post)))).drop
      (pre.length + openTag.length) = t ++ (closeTag ++ post) := by
    rw [← List.drop_drop, List.drop_left, List.drop_left]
  have hhit2 : firstHit closeTag (t ++ (closeTag ++ post)) = t.length := by
    have := @firstHit_before_tag '<' "/thinking>".toList t (by decide)
      (by rw [← closeTag_eq]; exact ht) post
    rwa [← closeTag_eq] at this
  have hclose : firstOccurrence closeTag (t ++ (closeTag ++ post)) = some t.length := by
    have := @firstOccurrence_of_hit closeTag (t ++ (closeTag ++ post)) (by
      rw [hhit2, List.drop_left]
      exact List.isPrefixOf_iff_prefix.mpr (List.prefix_append _ _))
    rwa [hhit2] at this
  have hafter : (pre ++ (openTag ++ (t ++ (closeTag ++ post)))).drop
      (pre.length + openTag.length + t.length + closeTag.length) = post := by
    rw [Nat.add_assoc, ← List.drop_drop, hdrop, ← List.drop_drop, List.drop_left,
      List.drop_left]
  rw [specExtract_of_span hopen (by rw [hdrop]; exact hclose), hdrop, hafter,
    specExtract_of_no_open hno]
  simp

/-- The spans of an input in which a block with content `t` stands after a `pre` that
leaves the scan outside a thinking block: those of `pre`, then `t`, then those of what
follows the block. -/
theorem specExtract_block (t post : GoString) (ht : ¬ closeTag <:+: t) :
    ∀ (n : Nat) (pre : GoString), pre.length ≤ n → (scan false pre).inThinking = false →
      (specExtract (pre ++ (openTag ++ (t ++ (closeTag ++ post))))).1 =
        (specExtract pre).1 ++ t :: (specExtract post).1 := by
  intro n
  induction n with
  | zero =>
    intro pre hn _
    have : pre = [] := List.length_eq_zero.mp (by omega)
    subst this
    exact specExtract_block_first t post ht (by decide)
  | succ n ih =>
    intro pre hn hpre
    cases ho : firstOccurrence openTag pre with
    | none => exact specExtract_block_first t post ht ho
    | some i =>
      have hnil : pre ≠ [] := by
        intro h0
        subst h0
        have := firstOccurrence_bound ho
        simp [openTag] at this
      have hhit : openTag.isPrefixOf (pre.drop (firstHit openTag pre)) = true ∧
          firstHit openTag pre = i := by
        have := firstOccurrence_eq openTag pre
        rw [ho] at this
        split at this
        · rename_i hp
          exact ⟨hp, (Option.some.inj this).symm⟩
        · cases this
      obtain ⟨hh, hi⟩ := hhit
      have hb1 := firstOccurrence_bound ho
      rw [scan_plain_hit hnil hh, hi] at hpre
      cases hc : firstOccurrence closeTag (pre.drop (i + openTag.length)) with
      | none =>
        exfalso
        have hh2 : closeTag.isPrefixOf ((pre.drop (i + openTag.length)).drop
            (firstHit closeTag (pre.drop (i + openTag.length)))) = false := by
          have := firstOccurrence_eq closeTag (pre.drop (i + openTag.length))
          rw [hc] at this
          split at this
          · cases this
          · rename_i hp
            exact Bool.eq_false_iff.mpr hp
        by_cases hrnil : pre.drop (i + openTag.length) = []
        · rw [hrnil, scan_nil] at hpre
          simp [Trace.seq, Trace.idle] at hpre
        · rw [scan_think_hold hrnil hh2] at hpre
          simp [Trace.seq, Trace.hold] at hpre
      | some j =>
        have hhit2 : closeTag.isPrefixOf ((pre.drop (i + openTag.length)).drop
              (firstHit closeTag (pre.drop (i + openTag.length)))) = true ∧
            firstHit closeTag (pre.drop (i + openTag.length)) = j := by
          have := firstOccurrence_eq closeTag (pre.drop (i + openTag.length))
          rw [hc] at this
          split at this
          · rename_i hp
            exact ⟨hp, (Option.some.inj this).symm⟩
          · cases this
        obtain ⟨hh2, hj⟩ := hhit2
        have hb2 := firstOccurrence_bound hc
        rw [List.length_drop] at hb2
        have hl1 : 0 < openTag.length := by decide
        have hl2 : 0 < closeTag.length := by decide
        have hrnil : pre.drop (i + openTag.length) ≠ [] := by
          intro h0
          have := congrArg List.length h0
          rw [List.length_drop, List.length_nil] at this
          omega
        rw [scan_think_hit hrnil hh2, hj] at hpre
        have hpre2 : (scan false ((pre.drop (i + openTag.length)).drop
            (j + closeTag.length))).inThinking = false := by
          simpa [Trace.seq] using hpre
        have hlen2 : ((pre.drop (i + openTag.length)).drop (j + closeTag.length)).length
            ≤ n := by
          rw [List.length_drop, List.length_drop]; omega
        have ih2 := ih _ hlen2 hpre2
        have hopen := firstOccurrence_append (openTag ++ (t ++ (closeTag ++ post))) ho
        have hdrop : (pre ++ (openTag ++ (t ++ (closeTag ++ post)))).drop
            (i + openTag.length)
            = pre.drop (i + openTag.length) ++ (openTag ++ (t ++ (closeTag ++ post))) :=
          List.drop_append_of_le_length (by omega)
        have hclose := firstOccurrence_append (openTag ++ (t ++ (closeTag ++ post))) hc
        have hafter : (pre ++ (openTag ++ (t ++ (closeTag ++ post)))).drop
            (i + openTag.length + j + closeTag.length)
            = (pre.drop (i + openTag.length)).drop (j + closeTag.length)
              ++ (openTag ++ (t ++ (closeTag ++ post))) := by
          rw [List.drop_drop, ← Nat.add_assoc]
          exact List.drop_append_of_le_length (by omega)
        have hpre2eq : pre.drop (i + openTag.length + j + closeTag.length)
            = (pre.drop (i + openTag.length)).drop (j + closeTag.length) := by
          rw [List.drop_drop, ← Nat.add_assoc]
        rw [specExtract_of_span hopen (by rw [hdrop]; exact hclose), hdrop, hafter,
          specExtract_of_span ho hc, hpre2eq]
        simp only [List.cons_append, List.cons.injEq]
        exact ⟨List.take_append_of_le_length (by rw [List.length_drop]; omega), ih2⟩

/-- Counterexample to C20 as worded: `"<thinking> A </thinking><thinking> B </thinking>"`
fed to a fresh extractor in one chunk leaves it outside a thinking block.  The one call
returns one result, with `ThinkingStarted`, `ThinkingEnded` and the bytes of both blocks
in one `ThinkingDelta`, `" A  B "`, and the flush adds nothing: the stream shows one
block, whose trimmed content `"A  B"` is no entry of the `thinkingBlocks` `["A", "B"]`
of the batch extraction. -/
theorem streaming_agrees_with_batch_counterexample :
    (feedChunks NewThinkingExtractor (fun _ => 0)
        ["<thinking> A </thinking><thinking> B </thinking>".toList]).map
        (fun out => IsInThinkingBlock out.2.1) = some false ∧
    (runStream (fun _ => 0)
        ["<thinking> A </thinking><thinking> B </thinking>".toList]).map
        (fun out => (out.1.map fun r => (r.ThinkingStarted, r.ThinkingEnded, r.ThinkingDelta),
          out.2.1.ThinkingEnded, out.2.1.ThinkingDelta))
      = some ([(true, true, " A  B ".toList)], false, []) ∧
    ExtractThinkingFromFinalText trimSpaceAscii
        ["<thinking> A </thinking><thinking> B </thinking>".toList].flatten
      = (["A".toList, "B".toList], []) ∧
    trimSpaceAscii " A  B ".toList = "A  B".toList ∧
    "A  B".toList ∉ ["A".toList, "B".toList] := by
  decide

/-- C20 amended, streaming and batch extraction agree: when feeding any chunking of an
input to a fresh extractor leaves it outside a thinking block, the trimmed concatenation
of all `TextDelta` values, that of `FlushStreaming` included, is the `cleanText` that
`ExtractThinkingFromFinalText` returns for the input.  The concatenation of all
`ThinkingDelta` values is the concatenation, in order, of the inner texts `blocks` of the
blocks that the batch extraction finds (the capture group `match[1]` of each match of the
pattern, which are the inner texts of the spans of the specification), whose trimmed
forms are the entries of `thinkingBlocks`.  And block by block: for every block of the
input, written as `pre`, after which the extractor is outside a thinking block, the open
tag, the content `t` without a close tag, the close tag, and `post`, the thinking bytes
streamed are those streamed for `pre`, then `t`, then those streamed for `post`, and the
trimmed `t` is the entry of `thinkingBlocks` that follows the entries for `pre`.  The
content of a block is so found in the stream by position: the results do not mark where
the bytes of one block end and those of the next begin.  This holds whatever
`strings.TrimSpace` does. -/
theorem streaming_agrees_with_batch (trimSpace : GoString → GoString)
    (chunks : List GoString) (rnd : RandSource)
    (hplain : (feedChunks NewThinkingExtractor rnd chunks).map
      (fun out => IsInThinkingBlock out.2.1) = some false) :
    ∃ rs fl te', runStream rnd chunks = some (rs, fl, te') ∧
      trimSpace (textOf rs ++ fl.TextDelta) =
        (ExtractThinkingFromFinalText trimSpace chunks.flatten).2 ∧
      (∃ blocks : List GoString, thinkingOf rs = blocks.flatten ∧
        blocks.map trimSpace = (ExtractThinkingFromFinalText trimSpace chunks.flatten).1 ∧
        blocks = (specExtract chunks.flatten).1 ∧
        blocks = (regexFindAllStringSubmatch chunks.flatten).map (fun m => m.getD 1 [])) ∧
      ∀ pre t post : GoString,
        chunks.flatten = pre ++ (openTag ++ (t ++ (closeTag ++ post))) →
        (feedChunks NewThinkingExtractor rnd [pre]).map
          (fun out => IsInThinkingBlock out.2.1) = some false →
        ¬ closeTag <:+: t →
        ∃ earlier later,
          (feedChunks NewThinkingExtractor rnd [pre]).map (fun out => thinkingOf out.1)
            = some earlier ∧
          (feedChunks NewThinkingExtractor rnd [post]).map (fun out => thinkingOf out.1)
            = some later ∧
          thinkingOf rs = earlier ++ (t ++ later) ∧
          (ExtractThinkingFromFinalText trimSpace chunks.flatten).1 =
            (ExtractThinkingFromFinalText trimSpace pre).1 ++
              trimSpace t :: (ExtractThinkingFromFinalText trimSpace post).1 := by
  obtain ⟨rs, te, rnd', hfeed, hrun, hspec⟩ := runStream_spec rnd chunks
  rw [hfeed] at hplain
  simp only [Option.map_some', Option.some.injEq, IsInThinkingBlock] at hplain
  have hmode : (scan false chunks.flatten).inThinking = false := by
    rw [← hspec.mode]; exact hplain
  obtain ⟨h1, h2⟩ := scan_eq_specExtract chunks.flatten.length chunks.flatten (le_refl _) hmode
  refine ⟨rs, _, _, hrun, ?_, ⟨(specExtract chunks.flatten).1, ?_, ?_, rfl, ?_⟩, ?_⟩
  · rw [FlushStreaming_TextDelta, hspec.text, hspec.buffer, h1, ExtractThinkingFromFinalText_eq]
  · rw [hspec.think, h2]
  · rw [ExtractThinkingFromFinalText_eq]
  · exact (regex_eq_spec chunks.flatten.length chunks.flatten (le_refl _)).1.symm
  · intro pre t post hshape hpre ht
    obtain ⟨hA, hearlier⟩ := plain_after hpre
    have hlater : (feedChunks NewThinkingExtractor rnd [post]).map
        (fun out => thinkingOf out.1) = some (scan false post).think := by
      obtain ⟨rsp, tep, rndp, hfp, hsp⟩ := feedChunks_fresh rnd [post]
      have hflp : [post].flatten = post := by simp
      rw [hflp] at hsp
      rw [hfp, Option.map_some', hsp.think]
    refine ⟨_, _, hearlier, hlater, ?_, ?_⟩
    · rw [hspec.think, hshape, scan_block post hA ht]
      simp [Trace.seq, Trace.passTag]
    · rw [ExtractThinkingFromFinalText_eq, ExtractThinkingFromFinalText_eq,
        ExtractThinkingFromFinalText_eq, hshape,
        specExtract_block t post ht pre.length pre (le_refl _) hA]
      simp

/-- The amended claim C20 at `"pre <thinking> A </thinking> mid <thinking>B</thinking> post"`
fed as `"pre <thi"`, `"nking> A </thinking> mid <thinking>B</thin"`, `"king> post"`: the
trimmed text is `"pre  mid  post"`, the batch extraction gives the blocks `"A"` and `"B"`,
and at the second block the thinking bytes streamed are `" A "`, streamed for what is
before its open tag, then its content `"B"`. -/
theorem streaming_agrees_with_batch_witness :
    ∃ rs fl te',
      runStream (fun _ => 0)
          ["pre <thi".toList, "nking> A </thinking> mid <thinking>B</thin".toList,
            "king> post".toList] = some (rs, fl, te') ∧
      trimSpaceAscii (textOf rs ++ fl.TextDelta) = "pre  mid  post".toList ∧
      ExtractThinkingFromFinalText trimSpaceAscii
          ["pre <thi".toList, "nking> A </thinking> mid <thinking>B</thin".toList,
            "king> post".toList].flatten
        = (["A".toList, "B".toList], "pre  mid  post".toList) ∧
      thinkingOf rs = " A ".toList ++ ("B".toList ++ []) := by
  obtain ⟨rs, fl, te', hrun, htext, _, hblock⟩ :=
    streaming_agrees_with_batch trimSpaceAscii
      ["pre <thi".toList, "nking> A </thinking> mid <thinking>B</thin".toList,
        "king> post".toList] (fun _ => 0) (by decide)
  obtain ⟨earlier, later, hearlier, hlater, hthink, _⟩ :=
    hblock "pre <thinking> A </thinking> mid ".toList "B".toList " post".toList
      (by decide) (by decide) (by decide)
  have hbatch : ExtractThinkingFromFinalText trimSpaceAscii
      ["pre <thi".toList, "nking> A </thinking> mid <thinking>B</thin".toList,
        "king> post".toList].flatten
      = (["A".toList, "B".toList], "pre  mid  post".toList) := by decide
  have he : (feedChunks NewThinkingExtractor (fun _ => 0)
      ["pre <thinking> A </thinking> mid ".toList]).map (fun out => thinkingOf out.1)
      = some " A ".toList := by decide
  have hl : (feedChunks NewThinkingExtractor (fun _ => 0)
      [" post".toList]).map (fun out => thinkingOf out.1) = some [] := by decide
  rw [he] at hearlier
  rw [hl] at hlater
  rw [← Option.some.inj hearlier, ← Option.some.inj hlater] at hthink
  rw [hbatch] at htext
  exact ⟨rs, fl, te', hrun, htext, hbatch, hthink⟩

/-! ## The image token estimate -/

/-- C23, image token estimate: for all integers `width` and `height`, whatever the
`float64` operations do, `EstimateImageTokens` returns 1500 when `width ≤ 0` or
`height ≤ 0`; when both are positive and neither exceeds 1568 it returns
`max(85, floor(width * height / 750))`; and in every case the result is at least 85.
So 1000 by 1000 gives 1333, 100 by 100 gives 85 and 1568 by 1568 gives 3278. -/
theorem image_token_estimate :
    (∀ (fl : Float64Ops) (width height : Int), width ≤ 0 ∨ height ≤ 0 →
      EstimateImageTokens fl width height = 1500) ∧
    (∀ (fl : Float64Ops) (width height : Int),
      0 < width → 0 < height → width ≤ 1568 → height ≤ 1568 →
      EstimateImageTokens fl width height = max 85 (width * height / 750)) ∧
    (∀ (fl : Float64Ops) (width height : Int), 85 ≤ EstimateImageTokens fl width height) ∧
    (∀ fl : Float64Ops, EstimateImageTokens fl 1000 1000 = 1333 ∧
      EstimateImageTokens fl 100 100 = 85 ∧ EstimateImageTokens fl 1568 1568 = 3278 ∧
      EstimateImageTokens fl 0 100 = 1500 ∧ EstimateImageTokens fl 100 (-1) = 1500) := by
  have hplain : ∀ (fl : Float64Ops) (width height : Int),
      0 < width → 0 < height → width ≤ 1568 → height ≤ 1568 →
      EstimateImageTokens fl width height = max 85 (width * height / 750) := by
    intro fl width height hw hh hw' hh'
    have hpos : 0 ≤ width * height := by positivity
    have hle : width * height ≤ 1568 * 1568 := by nlinarith
    have hwrap : wrapInt (width * height) = width * height :=
      wrapInt_of_inRange (by omega) (by omega)
    have hdiv : (width * height).tdiv 750 = width * height / 750 :=
      Int.tdiv_eq_ediv hpos (by omega)
    have hno : ¬ (width > 1568 ∨ height > 1568) := by omega
    simp only [EstimateImageTokens]
    rw [if_neg (by omega), if_neg hno]
    simp only []
    rw [hwrap, hdiv]
    by_cases h : width * height / 750 < 85
    · rw [if_pos h, max_eq_left (by omega)]
    · rw [if_neg h, max_eq_right (by omega)]
  refine ⟨?_, hplain, ?_, ?_⟩
  · intro fl width height h
    simp only [EstimateImageTokens]
    rw [if_pos h]
  · intro fl width height
    simp only [EstimateImageTokens]
    split
    · decide
    · split <;> omega
  · intro fl
    refine ⟨?_, ?_, ?_, ?_, ?_⟩
    · rw [hplain fl 1000 1000 (by decide) (by decide) (by decide) (by decide)]; decide
    · rw [hplain fl 100 100 (by decide) (by decide) (by decide) (by decide)]; decide
    · rw [hplain fl 1568 1568 (by decide) (by decide) (by decide) (by decide)]; decide
    · simp [EstimateImageTokens]
    · simp [EstimateImageTokens]

/-! ## Reading image bytes in range -/

theorem goIndex_some (data : List Byte) {i : Int} (h0 : 0 ≤ i)
    (h1 : i < (data.length : Int)) : ∃ b, goIndex data i = some b := by
  have hlt : i.toNat < data.length := by omega
  refine ⟨data.get ⟨i.toNat, hlt⟩, ?_⟩
  simp only [goIndex]
  rw [if_pos ⟨h0, h1⟩]
  exact List.get?_eq_get hlt

theorem byteIs_some (data : List Byte) {i : Int} (v : Byte) (h0 : 0 ≤ i)
    (h1 : i < (data.length : Int)) : ∃ b, byteIs data i v = some b := by
  obtain ⟨b, hb⟩ := goIndex_some data h0 h1
  exact ⟨decide (b = v), by simp [byteIs, hb]⟩

theorem goAll_some : ∀ l : List (Option Bool), (∀ x ∈ l, ∃ b, x = some b) →
    ∃ b, goAll l = some b
  | [], _ => ⟨true, rfl⟩
  | none :: _, h => by
    obtain ⟨b, hb⟩ := h none (List.mem_cons_self _ _)
    cases hb
  | some false :: _, _ => ⟨false, rfl⟩
  | some true :: rest, h => by
    simp only [goAll]
    exact goAll_some rest fun x hx => h x (List.mem_cons_of_mem _ hx)

theorem goOr_some {a b : Option Bool} (ha : ∃ x, a = some x) (hb : ∃ x, b = some x) :
    ∃ x, goOr a b = some x := by
  obtain ⟨x, rfl⟩ := ha
  cases x
  · exact hb
  · exact ⟨true, rfl⟩

theorem bytesSlice_some (data : List Byte) {lo hi : Int} (h0 : 0 ≤ lo) (h1 : lo ≤ hi)
    (h2 : hi ≤ (data.length : Int)) :
    ∃ l, bytesSlice data lo hi = some l ∧ (l.length : Int) = hi - lo := by
  refine ⟨(data.take hi.toNat).drop lo.toNat, ?_, ?_⟩
  · simp only [bytesSlice]
    rw [if_pos ⟨h0, h1, h2⟩]
  · rw [List.length_drop, List.length_take]
    omega

theorem bigEndianUint16_some : ∀ l : List Byte, 2 ≤ l.length →
    ∃ n, bigEndianUint16 l = some n
  | [], h => by simp at h
  | [_], h => by simp at h
  | _ :: _ :: _, _ => ⟨_, rfl⟩

theorem littleEndianUint16_some : ∀ l : List Byte, 2 ≤ l.length →
    ∃ n, littleEndianUint16 l = some n
  | [], h => by simp at h
  | [_], h => by simp at h
  | _ :: _ :: _, _ => ⟨_, rfl⟩

theorem bigEndianUint32_some : ∀ l : List Byte, 4 ≤ l.length →
    ∃ n, bigEndianUint32 l = some n
  | [], h => by simp at h
  | [_], h => by simp at h
  | [_, _], h => by simp at h
  | [_, _, _], h => by simp at h
  | _ :: _ :: _ :: _ :: _, _ => ⟨_, rfl⟩

theorem littleEndianUint32_some : ∀ l : List Byte, 4 ≤ l.length →
    ∃ n, littleEndianUint32 l = some n
  | [], h => by simp at h
  | [_], h => by simp at h
  | [_, _], h => by simp at h
  | [_, _, _], h => by simp at h
  | _ :: _ :: _ :: _ :: _, _ => ⟨_, rfl⟩

/-- A read of `k` bytes at `lo` is in range when `lo + k ≤ len(data)`. -/
theorem read_some (data : List Byte) (rd : List Byte → Option Nat) (k : Nat)
    (hrd : ∀ l : List Byte, k ≤ l.length → ∃ n, rd l = some n)
    {lo hi : Int} (h0 : 0 ≤ lo) (hk : hi = lo + k) (h2 : hi ≤ (data.length : Int)) :
    ∃ n, (bytesSlice data lo hi).bind rd = some n := by
  obtain ⟨l, hl, hlen⟩ := bytesSlice_some data h0 (by omega) h2
  obtain ⟨n, hn⟩ := hrd l (by omega)
  exact ⟨n, by rw [hl, Option.some_bind, hn]⟩

theorem DetectImageFormat_total (data : List Byte) : ∃ r, DetectImageFormat data = some r := by
  unfold DetectImageFormat
  by_cases hlen : data.length < 12
  · rw [if_pos hlen]
    exact ⟨_, rfl⟩
  rw [if_neg hlen]
  have hb : ∀ (i : Int) (v : Byte), 0 ≤ i → i < 12 → ∃ b, byteIs data i v = some b :=
    fun i v h0 h1 => byteIs_some data v h0 (by omega)
  have hall : ∀ l : List (Option Bool), (∀ x ∈ l, ∃ b, x = some b) → ∃ b, goAll l = some b :=
    goAll_some
  obtain ⟨b1, h1⟩ := hall
    [some (decide (data.length ≥ 2)), byteIs data 0 0xFF, byteIs data 1 0xD8] (by
      intro x hx
      simp only [List.mem_cons, List.mem_singleton, List.not_mem_nil, or_false] at hx
      rcases hx with rfl | rfl | rfl
      · exact ⟨_, rfl⟩
      all_goals exact hb _ _ (by decide) (by decide))
  obtain ⟨b2, h2⟩ := hall
    [some (decide (data.length ≥ 8)),
      byteIs data 0 0x89, byteIs data 1 0x50, byteIs data 2 0x4E, byteIs data 3 0x47,
      byteIs data 4 0x0D, byteIs data 5 0x0A, byteIs data 6 0x1A, byteIs data 7 0x0A] (by
      intro x hx
      simp only [List.mem_cons, List.mem_singleton, List.not_mem_nil, or_false] at hx
      rcases hx with rfl | rfl | rfl | rfl | rfl | rfl | rfl | rfl | rfl
      · exact ⟨_, rfl⟩
      all_goals exact hb _ _ (by decide) (by decide))
  have hsix : ∀ v4 : Byte, ∃ b, goAll [byteIs data 0 0x47, byteIs data 1 0x49,
      byteIs data 2 0x46, byteIs data 3 0x38, byteIs data 4 v4, byteIs data 5 0x61]
        = some b := by
    intro v4
    apply hall
    intro x hx
    simp only [List.mem_cons, List.mem_singleton, List.not_mem_nil, or_false] at hx
    rcases hx with rfl | rfl | rfl | rfl | rfl | rfl
    all_goals exact hb _ _ (by decide) (by decide)
  obtain ⟨b3, h3⟩ := hall
    [some (decide (data.length ≥ 6)),
      goOr
        (goAll [byteIs data 0 0x47, byteIs data 1 0x49, byteIs data 2 0x46,
          byteIs data 3 0x38, byteIs data 4 0x37, byteIs data 5 0x61])
        (goAll [byteIs data 0 0x47, byteIs data 1 0x49, byteIs data 2 0x46,
          byteIs data 3 0x38, byteIs data 4 0x39, byteIs data 5 0x61])] (by
      intro x hx
      simp only [List.mem_cons, List.mem_singleton, List.not_mem_nil, or_false] at hx
      rcases hx with rfl | rfl
      · exact ⟨_, rfl⟩
      · exact goOr_some (hsix _) (hsix _))
  obtain ⟨b4, h4⟩ := hall
    [some (decide (data.length ≥ 12)),
      byteIs data 0 0x52, byteIs data 1 0x49, byteIs data 2 0x46, byteIs data 3 0x46,
      byteIs data 8 0x57, byteIs data 9 0x45, byteIs data 10 0x42, byteIs data 11 0x50] (by
      intro x hx
      simp only [List.mem_cons, List.mem_singleton, List.not_mem_nil, or_false] at hx
      rcases hx with rfl | rfl | rfl | rfl | rfl | rfl | rfl | rfl | rfl
      · exact ⟨_, rfl⟩
      all_goals exact hb _ _ (by decide) (by decide))
  obtain ⟨b5, h5⟩ := hall
    [some (decide (data.length ≥ 2)), byteIs data 0 0x42, byteIs data 1 0x4D] (by
      intro x hx
      simp only [List.mem_cons, List.mem_singleton, List.not_mem_nil, or_false] at hx
      rcases hx with rfl | rfl | rfl
      · exact ⟨_, rfl⟩
      all_goals exact hb _ _ (by decide) (by decide))
  rw [h1, h2, h3, h4, h5]
  cases b1 <;> cases b2 <;> cases b3 <;> cases b4 <;> cases b5 <;> exact ⟨_, rfl⟩

theorem getPNGDimensions_total (data : List Byte) : ∃ r, getPNGDimensions data = some r := by
  unfold getPNGDimensions
  by_cases hlen : data.length < 24
  · rw [if_pos hlen]; exact ⟨_, rfl⟩
  rw [if_neg hlen]
  obtain ⟨w, hw⟩ := read_some data bigEndianUint32 4 bigEndianUint32_some
    (show (0 : Int) ≤ 16 by decide) (show (20 : Int) = 16 + (4 : Nat) by decide) (by omega)
  obtain ⟨h, hh⟩ := read_some data bigEndianUint32 4 bigEndianUint32_some
    (show (0 : Int) ≤ 20 by decide) (show (24 : Int) = 20 + (4 : Nat) by decide) (by omega)
  rw [hw, hh]
  exact ⟨_, rfl⟩

theorem getGIFDimensions_total (data : List Byte) : ∃ r, getGIFDimensions data = some r := by
  unfold getGIFDimensions
  by_cases hlen : data.length < 10
  · rw [if_pos hlen]; exact ⟨_, rfl⟩
  rw [if_neg hlen]
  obtain ⟨w, hw⟩ := read_some data littleEndianUint16 2 littleEndianUint16_some
    (show (0 : Int) ≤ 6 by decide) (show (8 : Int) = 6 + (2 : Nat) by decide) (by omega)
  obtain ⟨h, hh⟩ := read_some data littleEndianUint16 2 littleEndianUint16_some
    (show (0 : Int) ≤ 8 by decide) (show (10 : Int) = 8 + (2 : Nat) by decide) (by omega)
  rw [hw, hh]
  exact ⟨_, rfl⟩

theorem getBMPDimensions_total (data : List Byte) : ∃ r, getBMPDimensions data = some r := by
  unfold getBMPDimensions
  by_cases hlen : data.length < 26
  · rw [if_pos hlen]; exact ⟨_, rfl⟩
  rw [if_neg hlen]
  obtain ⟨w, hw⟩ := read_some data littleEndianUint32 4 littleEndianUint32_some
    (show (0 : Int) ≤ 18 by decide) (show (22 : Int) = 18 + (4 : Nat) by decide) (by omega)
  obtain ⟨h, hh⟩ := read_some data littleEndianUint32 4 littleEndianUint32_some
    (show (0 : Int) ≤ 22 by decide) (show (26 : Int) = 22 + (4 : Nat) by decide) (by omega)
  rw [hw, hh]
  exact ⟨_, rfl⟩

theorem getWebPDimensions_total (data : List Byte) :
    ∃ r, getWebPDimensions data = some r := by
  unfold getWebPDimensions
  by_cases hlen : data.length < 30
  · rw [if_pos hlen]; exact ⟨_, rfl⟩
  rw [if_neg hlen]
  obtain ⟨chunk, hchunk, _⟩ := bytesSlice_some data
    (show (0 : Int) ≤ 12 by decide) (show (12 : Int) ≤ 16 by decide) (by omega)
  obtain ⟨w, hw⟩ := read_some data littleEndianUint16 2 littleEndianUint16_some
    (show (0 : Int) ≤ 26 by decide) (show (28 : Int) = 26 + (2 : Nat) by decide) (by omega)
  obtain ⟨h, hh⟩ := read_some data littleEndianUint16 2 littleEndianUint16_some
    (show (0 : Int) ≤ 28 by decide) (show (30 : Int) = 28 + (2 : Nat) by decide) (by omega)
  obtain ⟨bits, hbits⟩ := read_some data littleEndianUint32 4 littleEndianUint32_some
    (show (0 : Int) ≤ 21 by decide) (show (25 : Int) = 21 + (4 : Nat) by decide) (by omega)
  obtain ⟨b24, h24⟩ := goIndex_some data (show (0 : Int) ≤ 24 by decide) (by omega)
  obtain ⟨b25, h25⟩ := goIndex_some data (show (0 : Int) ≤ 25 by decide) (by omega)
  obtain ⟨b26, h26⟩ := goIndex_some data (show (0 : Int) ≤ 26 by decide) (by omega)
  obtain ⟨b27, h27⟩ := goIndex_some data (show (0 : Int) ≤ 27 by decide) (by omega)
  obtain ⟨b28, h28⟩ := goIndex_some data (show (0 : Int) ≤ 28 by decide) (by omega)
  obtain ⟨b29, h29⟩ := goIndex_some data (show (0 : Int) ≤ 29 by decide) (by omega)
  rw [hchunk, hw, hh, hbits, h24, h25, h26, h27, h28, h29]
  simp only [if_neg hlen, if_neg (show ¬ data.length < 25 by omega)]
  split
  · exact ⟨_, rfl⟩
  · split
    · exact ⟨_, rfl⟩
    · split <;> exact ⟨_, rfl⟩

/-- One iteration of the marker scan, at an offset for which the loop condition holds:
it reads inside the data, it ends with an offset at least one byte further, and it
returns dimensions only after a marker followed by at least 7 bytes. -/
theorem jpegStep_spec (data : List Byte) {offset : Int} (h0 : 0 ≤ offset)
    (h1 : offset < (data.length : Int) - 1) :
    ∃ st, jpegStep data offset = some st ∧
      (∀ o, st = JpegStep.next o → offset + 1 ≤ o) ∧
      (∀ r, st = JpegStep.done (Except.ok r) → offset + 2 + 7 ≤ (data.length : Int)) := by
  obtain ⟨b, hb⟩ := goIndex_some data h0 (by omega)
  obtain ⟨marker, hm⟩ := goIndex_some data (show 0 ≤ offset + 1 by omega) (by omega)
  unfold jpegStep
  rw [hb]
  simp only []
  by_cases hff : b ≠ 0xFF
  · rw [if_pos hff]
    refine ⟨_, rfl, ?_, ?_⟩
    · intro o ho; cases ho; omega
    · intro r hr; cases hr
  rw [if_neg hff, hm]
  simp only []
  by_cases hsof : isSOF marker = true
  · rw [if_pos hsof]
    by_cases hshort : offset + 2 + 7 > (data.length : Int)
    · rw [if_pos hshort]
      refine ⟨_, rfl, ?_, ?_⟩
      · intro o ho; cases ho
      · intro r hr; cases hr
    · rw [if_neg hshort]
      obtain ⟨h, hh⟩ := read_some data bigEndianUint16 2 bigEndianUint16_some
        (show 0 ≤ offset + 2 + 3 by omega)
        (show offset + 2 + 5 = offset + 2 + 3 + (2 : Nat) by push_cast; ring) (by omega)
      obtain ⟨w, hw⟩ := read_some data bigEndianUint16 2 bigEndianUint16_some
        (show 0 ≤ offset + 2 + 5 by omega)
        (show offset + 2 + 7 = offset + 2 + 5 + (2 : Nat) by push_cast; ring) (by omega)
      rw [hh, hw]
      refine ⟨_, rfl, ?_, ?_⟩
      · intro o ho; cases ho
      · intro r _; omega
  · rw [if_neg hsof]
    by_cases hstand : marker = 0xD8 ∨ marker = 0xD9 ∨ (marker.val ≥ 0xD0 ∧ marker.val ≤ 0xD7)
    · rw [if_pos hstand]
      refine ⟨_, rfl, ?_, ?_⟩
      · intro o ho; cases ho; omega
      · intro r hr; cases hr
    · rw [if_neg hstand]
      by_cases hend : offset + 2 + 2 > (data.length : Int)
      · rw [if_pos hend]
        refine ⟨_, rfl, ?_, ?_⟩
        · intro o ho; cases ho
        · intro r hr; cases hr
      · rw [if_neg hend]
        obtain ⟨n, hn⟩ := read_some data bigEndianUint16 2 bigEndianUint16_some
          (show 0 ≤ offset + 2 by omega)
          (show offset + 2 + 2 = offset + 2 + (2 : Nat) by push_cast; ring) (by omega)
        rw [hn]
        refine ⟨_, rfl, ?_, ?_⟩
        · intro o ho; cases ho; omega
        · intro r hr; cases hr

/-- The marker scan returns when the fuel is at least the number of bytes from the
offset to the end of the data. -/
theorem jpegLoop_total (data : List Byte) : ∀ (fuel : Nat) (offset : Int),
    0 ≤ offset → 1 ≤ fuel → (data.length : Int) - offset ≤ fuel →
    ∃ r, jpegLoop data fuel offset = some r
  | 0, _, _, h, _ => by omega
  | fuel + 1, offset, h0, _, hm => by
    unfold jpegLoop
    by_cases hc : offset < (data.length : Int) - 1
    · rw [if_pos hc]
      obtain ⟨st, hst, hnext, _⟩ := jpegStep_spec data h0 hc
      rw [hst]
      cases st with
      | next o =>
        have := hnext o rfl
        exact jpegLoop_total data fuel o (by omega) (by omega) (by push_cast at hm; omega)
      | leave => exact ⟨_, rfl⟩
      | done r => exact ⟨_, rfl⟩
    · rw [if_neg hc]
      exact ⟨_, rfl⟩

/-- More fuel does not change what the marker scan returns. -/
theorem jpegLoop_fuel (data : List Byte) : ∀ (fuel : Nat) (offset : Int) (k : Nat)
    (r : Except ImageError (Int × Int)),
    jpegLoop data fuel offset = some r → jpegLoop data (fuel + k) offset = some r
  | 0, _, _, _, h => by simp [jpegLoop] at h
  | fuel + 1, offset, k, r, h => by
    have hk : fuel + 1 + k = (fuel + k) + 1 := by omega
    rw [hk]
    unfold jpegLoop at h ⊢
    by_cases hc : offset < (data.length : Int) - 1
    · rw [if_pos hc] at h ⊢
      rcases hst : jpegStep data offset with _ | st
      · rw [hst] at h; cases h
      rw [hst] at h
      cases st with
      | next o => exact jpegLoop_fuel data fuel o k r h
      | leave => exact h
      | done r' => exact h
    · rw [if_neg hc] at h ⊢
      exact h

theorem getJPEGDimensions_total (data : List Byte) :
    ∃ r, getJPEGDimensions data = some r := by
  unfold getJPEGDimensions getJPEGDimensionsFuel
  by_cases hlen : data.length < 2
  · rw [if_pos hlen]; exact ⟨_, rfl⟩
  rw [if_neg hlen]
  exact jpegLoop_total data data.length 2 (by decide) (by omega) (by omega)

theorem GetImageDimensions_total (data : List Byte) :
    ∃ r, GetImageDimensions data = some r := by
  unfold GetImageDimensions
  by_cases hlen : data.length < 12
  · rw [if_pos hlen]; exact ⟨_, rfl⟩
  rw [if_neg hlen]
  obtain ⟨d, hd⟩ := DetectImageFormat_total data
  rw [hd]
  cases d with
  | error e => exact ⟨_, rfl⟩
  | ok mediaType =>
    simp only []
    split
    · exact getPNGDimensions_total data
    · split
      · exact getJPEGDimensions_total data
      · split
        · exact getGIFDimensions_total data
        · split
          · exact getWebPDimensions_total data
          · split
            · exact getBMPDimensions_total data
            · exact ⟨_, rfl⟩

/-- C22, image dimension parsing is total and in bounds.  Reads outside the data are
modelled as failures, and a loop that does not end as running out of fuel, so a function
that returns a value has done neither.  For every byte slice `GetImageDimensions` returns
(dimensions or an error), and so does each of the five readers on its own; the marker
scan of `getJPEGDimensions` returns the same with any fuel above the length of the data.
One iteration of the marker scan, at any offset for which the loop condition holds,
reads inside the data, ends with an offset at least one byte further (two bytes further
after a marker whose segment length field is 0), and returns dimensions only when at
least 7 bytes follow the marker.  The readers at fixed offsets return their error when
the data is shorter than 24 (PNG), 10 (GIF), 30 (WebP) and 26 (BMP) bytes, and
`GetImageDimensions` returns an error for every slice of fewer than 12 bytes. -/
theorem image_dimensions_total :
    (∀ data : List Byte, ∃ r, GetImageDimensions data = some r) ∧
    (∀ data : List Byte, (∃ r, getPNGDimensions data = some r) ∧
      (∃ r, getJPEGDimensions data = some r) ∧ (∃ r, getGIFDimensions data = some r) ∧
      (∃ r, getWebPDimensions data = some r) ∧ (∃ r, getBMPDimensions data = some r)) ∧
    (∀ (data : List Byte) (fuel : Nat), data.length ≤ fuel →
      getJPEGDimensionsFuel fuel data = getJPEGDimensions data) ∧
    (∀ (data : List Byte) (offset : Int), 0 ≤ offset → offset < (data.length : Int) - 1 →
      ∃ st, jpegStep data offset = some st ∧
        (∀ o, st = JpegStep.next o → offset + 1 ≤ o) ∧
        (∀ r, st = JpegStep.done (Except.ok r) → offset + 2 + 7 ≤ (data.length : Int))) ∧
    jpegStep [0xFF, 0xD8, 0xFF, 0xE0, 0, 0, 0, 0, 0xFF, 0xC0, 0, 0x11, 8, 0, 0x10, 0, 0x20] 2
      = some (JpegStep.next 4) ∧
    GetImageDimensions
        [0xFF, 0xD8, 0xFF, 0xE0, 0, 0, 0, 0, 0xFF, 0xC0, 0, 0x11, 8, 0, 0x10, 0, 0x20]
      = some (Except.ok (32, 16)) ∧
    GetImageDimensions
        [0xFF, 0xD8, 0xFF, 0xE0, 0, 0, 0, 0, 0xFF, 0xC0, 0, 0x11, 8, 0, 0x10, 0]
      = some (Except.error ImageError.jpegSOFIncomplete) ∧
    (∀ data : List Byte, data.length < 24 →
      getPNGDimensions data = some (Except.error ImageError.pngIncomplete)) ∧
    (∀ data : List Byte, data.length < 10 →
      getGIFDimensions data = some (Except.error ImageError.gifIncomplete)) ∧
    (∀ data : List Byte, data.length < 30 →
      getWebPDimensions data = some (Except.error ImageError.webpIncomplete)) ∧
    (∀ data : List Byte, data.length < 26 →
      getBMPDimensions data = some (Except.error ImageError.bmpIncomplete)) ∧
    (∀ data : List Byte, data.length < 12 →
      GetImageDimensions data = some (Except.error ImageError.dataTooSmall)) := by
  refine ⟨GetImageDimensions_total, ?_, ?_, ?_, by decide, by decide, by decide,
    ?_, ?_, ?_, ?_, ?_⟩
  · intro data
    exact ⟨getPNGDimensions_total data, getJPEGDimensions_total data,
      getGIFDimensions_total data, getWebPDimensions_total data,
      getBMPDimensions_total data⟩
  · intro data fuel hfuel
    obtain ⟨r, hr⟩ := getJPEGDimensions_total data
    rw [hr]
    unfold getJPEGDimensions getJPEGDimensionsFuel at hr
    unfold getJPEGDimensionsFuel
    by_cases hlen : data.length < 2
    · rw [if_pos hlen] at hr ⊢
      exact hr
    · rw [if_neg hlen] at hr ⊢
      have := jpegLoop_fuel data data.length 2 (fuel - data.length) r hr
      rwa [Nat.add_sub_cancel' hfuel] at this
  · intro data offset h0 h1
    exact jpegStep_spec data h0 h1
  · intro data h
    simp only [getPNGDimensions]
    rw [if_pos h]
  · intro data h
    simp only [getGIFDimensions]
    rw [if_pos h]
  · intro data h
    simp only [getWebPDimensions]
    rw [if_pos h]
  · intro data h
    simp only [getBMPDimensions]
    rw [if_pos h]
  · intro data h
    simp only [GetImageDimensions]
    rw [if_pos h]

/-! ## The converter and the batch extractor -/

/-- A tag stays absent when a byte that is not in the tag is put in front. -/
theorem not_infix_cons {tag u : GoString} {c : Char} (hc : c ∉ tag) (h0 : tag ≠ [])
    (h : ¬ tag <:+: u) : ¬ tag <:+: c :: u := by
  intro hin
  rcases List.infix_cons_iff.mp hin with hpre | hin'
  · cases tag with
    | nil => exact h0 rfl
    | cons a tl =>
      obtain ⟨r, hr⟩ := hpre
      simp only [List.cons_append, List.cons.injEq] at hr
      exact hc (by rw [hr.1]; exact List.mem_cons_self _ _)
  · exact h hin'

/-- A tag stays absent when a byte that is not in the tag is put behind. -/
theorem not_infix_concat {tag u : GoString} {c : Char} (hc : c ∉ tag) (h0 : tag ≠ [])
    (h : ¬ tag <:+: u) : ¬ tag <:+: u ++ [c] := by
  intro hin
  have hrev : tag.reverse <:+: c :: u.reverse := by
    have := List.reverse_infix.mpr hin
    simpa using this
  exact @not_infix_cons tag.reverse u.reverse c (by simpa using hc) (by simpa using h0)
    (fun h' => h (List.reverse_infix.mp h')) hrev

theorem firstOccurrence_zero {sub s : GoString} (h : sub.isPrefixOf s = true) :
    firstOccurrence sub s = some 0 := by
  cases s with
  | nil => simp [firstOccurrence, h]
  | cons c s => simp [firstOccurrence, h]

/-- The batch extraction of a text that is one span with `u` inside, followed by a rest
without an open tag. -/
theorem specExtract_single {u rest : GoString} (hu : ¬ closeTag <:+: u)
    (hrest : ¬ openTag <:+: rest) :
    specExtract (openTag ++ (u ++ (closeTag ++ rest))) = ([u], rest) := by
  have hopen : firstOccurrence openTag (openTag ++ (u ++ (closeTag ++ rest))) = some 0 :=
    firstOccurrence_zero (List.isPrefixOf_iff_prefix.mpr (List.prefix_append _ _))
  have hdrop : (openTag ++ (u ++ (closeTag ++ rest))).drop (0 + openTag.length)
      = u ++ (closeTag ++ rest) := by
    rw [Nat.zero_add, List.drop_left]
  have hhit : firstHit closeTag (u ++ (closeTag ++ rest)) = u.length := by
    have := @firstHit_before_tag '<' "/thinking>".toList u (by decide)
      (by rw [← closeTag_eq]; exact hu) rest
    rwa [← closeTag_eq] at this
  have hclose : firstOccurrence closeTag (u ++ (closeTag ++ rest)) = some u.length := by
    have := @firstOccurrence_of_hit closeTag (u ++ (closeTag ++ rest)) (by
      rw [hhit, List.drop_left]
      exact List.isPrefixOf_iff_prefix.mpr (List.prefix_append _ _))
    rwa [hhit] at this
  have hafter : (openTag ++ (u ++ (closeTag ++ rest))).drop
      (0 + openTag.length + u.length + closeTag.length) = rest := by
    rw [Nat.zero_add, Nat.add_assoc, ← List.drop_drop, List.drop_left,
      ← List.drop_drop, List.drop_left, List.drop_left]
  rw [specExtract_of_span hopen (by rw [hdrop]; exact hclose), hdrop, hafter,
    specExtract_of_no_open (firstOccurrence_none_of_absent hrest)]
  simp

theorem dropWhile_append_eq (p : Char → Bool) : ∀ (s u : GoString),
    (s ++ u).dropWhile p = if s.dropWhile p = [] then u.dropWhile p else s.dropWhile p ++ u
  | [], u => by simp
  | c :: s, u => by
    by_cases hc : p c = true
    · simp only [List.cons_append, List.dropWhile_cons, hc, if_true]
      exact dropWhile_append_eq p s u
    · simp [List.dropWhile_cons, hc]

/-- The trim of ASCII white space ignores a line feed in front. -/
theorem trimSpaceAscii_lead (s : GoString) : trimSpaceAscii ('\n' :: s) = trimSpaceAscii s := by
  have h : isAsciiSpace '\n' = true := by decide
  simp [trimSpaceAscii, List.dropWhile_cons, h]

/-- The trim of ASCII white space ignores a line feed behind. -/
theorem trimSpaceAscii_trail (s : GoString) :
    trimSpaceAscii (s ++ ['\n']) = trimSpaceAscii s := by
  have h : isAsciiSpace '\n' = true := by decide
  unfold trimSpaceAscii
  rw [dropWhile_append_eq]
  by_cases hs : s.dropWhile isAsciiSpace = []
  · rw [if_pos hs, hs]
    simp [List.dropWhile_cons, h]
  · rw [if_neg hs]
    simp [List.dropWhile_cons, h]
/-- C21, converter and batch extractor round trip: for every non-empty thinking text `t`
without `"</thinking>"` and every text `x` without `"<thinking>"`,
`processMessageContent` on a `[]types.ContentBlock` of one `"thinking"` block with text
`t` and one `"text"` block with text `x`, in either order, returns
`"<thinking>\n" + t + "\n</thinking>\n\n" + x`, no image and no error, whatever the other
fields of the two blocks hold; and `ExtractThinkingFromFinalText` of that string returns
`thinkingBlocks = [TrimSpace(t)]` and `cleanText = TrimSpace(x)`.  Of `strings.TrimSpace`
only this is used: a line feed in front or behind does not change its result. -/
theorem converter_round_trip {α : Type} (parseToolResultContent : α → GoString)
    (base64Decode : GoString → Option (List Byte)) (trimSpace : GoString → GoString)
    (hlead : ∀ s, trimSpace ('\n' :: s) = trimSpace s)
    (htrail : ∀ s, trimSpace (s ++ ['\n']) = trimSpace s)
    (t x : GoString) (thinking text : ContentBlock α)
    (ht0 : t ≠ []) (ht : ¬ closeTag <:+: t) (hx : ¬ openTag <:+: x)
    (hthinking : thinking.BlockType = "thinking".toList ∧ thinking.Text = some t)
    (htext : text.BlockType = "text".toList ∧ text.Text = some x) :
    processMessageContent parseToolResultContent base64Decode [thinking, text]
      = some (Except.ok
          ("<thinking>\n".toList ++ t ++ "\n</thinking>\n\n".toList ++ x, [])) ∧
    processMessageContent parseToolResultContent base64Decode [text, thinking]
      = some (Except.ok
          ("<thinking>\n".toList ++ t ++ "\n</thinking>\n\n".toList ++ x, [])) ∧
    ExtractThinkingFromFinalText trimSpace
        ("<thinking>\n".toList ++ t ++ "\n</thinking>\n\n".toList ++ x)
      = ([trimSpace t], trimSpace x) := by
  have hne1 : "thinking".toList ≠ "text".toList := by decide
  have hne2 : "thinking".toList ≠ "image".toList := by decide
  have hne3 : "thinking".toList ≠ "tool_result".toList := by decide
  have hjoin : stringsJoin ["<thinking>\n".toList ++ t ++ "\n</thinking>".toList, x]
      "\n\n".toList = "<thinking>\n".toList ++ t ++ "\n</thinking>\n\n".toList ++ x := by
    simp only [stringsJoin, List.append_assoc]
    rfl
  have hthinkingBlock : ∀ parts : Parts,
      processBlock parseToolResultContent base64Decode parts thinking
        = some (Except.ok { parts with
            thinkingParts := parts.thinkingParts ++
              ["<thinking>\n".toList ++ t ++ "\n</thinking>".toList] }) := by
    intro parts
    simp only [processBlock, hthinking.1, hthinking.2, if_neg hne1, if_neg hne2,
      if_neg hne3, if_true, ne_eq, ht0, not_false_eq_true]
  have htextBlock : ∀ parts : Parts,
      processBlock parseToolResultContent base64Decode parts text
        = some (Except.ok { parts with textParts := parts.textParts ++ [x] }) := by
    intro parts
    simp only [processBlock, htext.1, htext.2, if_true]
  refine ⟨?_, ?_, ?_⟩
  · simp only [processMessageContent, processBlocks, hthinkingBlock, htextBlock,
      List.nil_append, List.singleton_append, hjoin]
  · simp only [processMessageContent, processBlocks, hthinkingBlock, htextBlock,
      List.nil_append, List.singleton_append, hjoin]
  · have hshape : "<thinking>\n".toList ++ t ++ "\n</thinking>\n\n".toList ++ x
        = openTag ++ (('\n' :: t ++ ['\n']) ++ (closeTag ++ '\n' :: '\n' :: x)) := by
      simp only [List.append_assoc, List.cons_append, List.nil_append]
      rfl
    have hu : ¬ closeTag <:+: '\n' :: t ++ ['\n'] :=
      @not_infix_cons closeTag (t ++ ['\n']) '\n' (by decide) (by decide)
        (not_infix_concat (by decide) (by decide) ht)
    have hrest : ¬ openTag <:+: '\n' :: '\n' :: x :=
      not_infix_cons (by decide) (by decide) (not_infix_cons (by decide) (by decide) hx)
    rw [hshape, ExtractThinkingFromFinalText_eq, specExtract_single hu hrest]
    simp only [List.map_cons, List.map_nil]
    rw [hlead, hlead, htrail, hlead]

/-- The claim C21 at the thinking text `"plan\nstep"` and the text `"answer"`, with the
trim of ASCII white space for `strings.TrimSpace`. -/
theorem converter_round_trip_witness :
    processMessageContent (fun _ : Unit => []) (fun _ => none)
        [{ BlockType := "thinking".toList, Text := some "plan\nstep".toList,
            Source := none, Content := none },
          { BlockType := "text".toList, Text := some "answer".toList,
            Source := none, Content := none }]
      = some (Except.ok
          ("<thinking>\n".toList ++ "plan\nstep".toList ++ "\n</thinking>\n\n".toList
            ++ "answer".toList, [])) ∧
    processMessageContent (fun _ : Unit => []) (fun _ => none)
        [{ BlockType := "text".toList, Text := some "answer".toList,
            Source := none, Content := none },
          { BlockType := "thinking".toList, Text := some "plan\nstep".toList,
            Source := none, Content := none }]
      = some (Except.ok
          ("<thinking>\n".toList ++ "plan\nstep".toList ++ "\n</thinking>\n\n".toList
            ++ "answer".toList, [])) ∧
    ExtractThinkingFromFinalText trimSpaceAscii
        ("<thinking>\n".toList ++ "plan\nstep".toList ++ "\n</thinking>\n\n".toList
          ++ "answer".toList)
      = ([trimSpaceAscii "plan\nstep".toList], trimSpaceAscii "answer".toList) :=
  converter_round_trip (fun _ : Unit => []) (fun _ => none) trimSpaceAscii
    trimSpaceAscii_lead trimSpaceAscii_trail "plan\nstep".toList "answer".toList
    { BlockType := "thinking".toList, Text := some "plan\nstep".toList,
      Source := none, Content := none }
    { BlockType := "text".toList, Text := some "answer".toList,
      Source := none, Content := none }
    (by decide) (by decide) (by decide) ⟨rfl, rfl⟩ ⟨rfl, rfl⟩

end Kiro
